import Mathlib

/-!
Verification of the structural merge/diff engine of this repository
(`Tools/_theft.py`, with `Text/_swapper.py` as the formatting collaborator).

Strings are modelled as `List Char`; the Python functions are translated to
executable Lean functions over `List Char`, with `String` wrappers keeping the
source names.  Machine-level caveats of the embedding:

* Python `\s` (and `str.strip`) is modelled by the six ASCII whitespace
  characters space, tab, LF, CR, VT, FF — the documents manipulated by the
  tool are ASCII markup.
* `os.linesep` is modelled as `"\n"`: `update_tar_file` pipes the substituted
  text through `replace('\r\n','\n').replace('\r','\n')` immediately after the
  substitution, so every possible value of `os.linesep` produces the same
  returned text.
-/

/-- Python whitespace (`str.isspace` / regex `\s`) restricted to ASCII:
space, tab, LF, CR, VT (0x0b), FF (0x0c). -/
def pyIsSpace (c : Char) : Bool :=
  c = ' ' || c = '\t' || c = '\n' || c = '\r' || c = '\x0b' || c = '\x0c'

/-- A list of characters consisting only of whitespace. -/
def wsOnly (l : List Char) : Bool := l.all pyIsSpace

/-- Python `str.strip()`: drop leading and trailing whitespace. -/
def pyStrip (l : List Char) : List Char :=
  ((l.dropWhile pyIsSpace).reverse.dropWhile pyIsSpace).reverse

/-- One pass of `re.sub(r'\s+', ' ', ·)`: every maximal run of whitespace
becomes a single space.  The flag records whether the previous character was
part of a whitespace run that has already emitted its space. -/
def collapseWs (prev : Bool) : List Char → List Char
  | [] => []
  | c :: cs =>
    if pyIsSpace c then
      if prev then collapseWs true cs else ' ' :: collapseWs true cs
    else c :: collapseWs false cs

/-- List-level `normalize_whitespace` from `Tools/_theft.py`:
`re.sub(r'\s+', ' ', text.strip())`. -/
def normWsL (l : List Char) : List Char := collapseWs false (pyStrip l)

/-- `normalize_whitespace` from `Tools/_theft.py`: strip leading/trailing
whitespace and replace runs of whitespace with a single space. -/
def normalize_whitespace (s : String) : String := ⟨normWsL s.data⟩

/-! ### Word decomposition

`words l` is the list of maximal whitespace-free runs of `l`.  It is the
canonical invariant of whitespace normalization: two strings have the same
`normWsL` image iff they have the same words. -/

theorem length_dropWhile_le (p : Char → Bool) (l : List Char) :
    (l.dropWhile p).length ≤ l.length := by
  induction l with
  | nil => simp [List.dropWhile]
  | cons c cs ih =>
    by_cases h : p c
    · simp [List.dropWhile, h]; omega
    · simp [List.dropWhile, h]

/-- The maximal whitespace-free runs of a character list. -/
def words : List Char → List (List Char)
  | [] => []
  | c :: cs =>
    if pyIsSpace c then words cs
    else (c :: cs.takeWhile (fun d => !pyIsSpace d)) ::
      words (cs.dropWhile (fun d => !pyIsSpace d))
termination_by l => l.length
decreasing_by
  · simp
  · have := length_dropWhile_le (fun d => !pyIsSpace d) cs
    simp
    omega

/-- Join a word list with single spaces. -/
def joinWords : List (List Char) → List Char
  | [] => []
  | [w] => w
  | w :: ws => w ++ ' ' :: joinWords ws

theorem words_nil : words [] = [] := by rw [words]

theorem words_cons_space (c : Char) (cs : List Char) (h : pyIsSpace c) :
    words (c :: cs) = words cs := by rw [words]; simp [h]

theorem words_cons_nonspace (c : Char) (cs : List Char) (h : ¬ pyIsSpace c) :
    words (c :: cs) =
      (c :: cs.takeWhile (fun d => !pyIsSpace d)) ::
        words (cs.dropWhile (fun d => !pyIsSpace d)) := by
  rw [words]; simp [h]

theorem dropWhile_append_cons_of_neg (p : Char → Bool) (A B : List Char)
    (x : Char) (hx : ¬ p x) :
    (A ++ x :: B).dropWhile p = A.dropWhile p ++ x :: B := by
  induction A with
  | nil => simp [List.dropWhile, hx]
  | cons a A ih =>
    by_cases h : p a <;> simp [List.dropWhile, h, ih]

theorem takeWhile_append_cons_of_neg (p : Char → Bool) (A B : List Char)
    (x : Char) (hx : ¬ p x) :
    (A ++ x :: B).takeWhile p = A.takeWhile p := by
  induction A with
  | nil => simp [List.takeWhile, hx]
  | cons a A ih =>
    by_cases h : p a <;> simp [List.takeWhile, h, ih]

theorem takeWhile_append_all (p : Char → Bool) (A B : List Char)
    (hA : ∀ a ∈ A, p a) :
    (A ++ B).takeWhile p = A ++ B.takeWhile p := by
  induction A with
  | nil => simp
  | cons a A ih =>
    have := hA a (by simp)
    simp [List.takeWhile, this, ih fun a ha => hA a (by simp [ha])]

theorem dropWhile_append_all (p : Char → Bool) (A B : List Char)
    (hA : ∀ a ∈ A, p a) :
    (A ++ B).dropWhile p = B.dropWhile p := by
  induction A with
  | nil => simp
  | cons a A ih =>
    have := hA a (by simp)
    simp [List.dropWhile, this, ih fun a ha => hA a (by simp [ha])]

/-- Words of an all-whitespace list are empty. -/
theorem words_all_space (W : List Char) (h : ∀ c ∈ W, pyIsSpace c) :
    words W = [] := by
  induction W with
  | nil => exact words_nil
  | cons c cs ih =>
    rw [words_cons_space c cs (h c (by simp))]
    exact ih fun d hd => h d (by simp [hd])

/-- Splitting at an interior whitespace character splits the word list. -/
theorem words_append_space (A B : List Char) (sp : Char) (hsp : pyIsSpace sp) :
    words (A ++ sp :: B) = words A ++ words B := by
  have H : ∀ n (A : List Char), A.length ≤ n →
      words (A ++ sp :: B) = words A ++ words B := by
    intro n
    induction n with
    | zero =>
      intro A hA
      have hA0 : A = [] := by cases A <;> simp_all
      simp [hA0, words_cons_space sp B hsp, words_nil]
    | succ n ih =>
      intro A hA
      match A with
      | [] => simp [words_cons_space sp B hsp, words_nil]
      | a :: A' =>
        by_cases ha : pyIsSpace a
        · rw [List.cons_append, words_cons_space a _ ha, words_cons_space a _ ha]
          exact ih A' (by simp at hA; omega)
        · rw [List.cons_append, words_cons_nonspace a _ ha, words_cons_nonspace a _ ha]
          rw [takeWhile_append_cons_of_neg _ _ _ sp (by simp [hsp])]
          rw [dropWhile_append_cons_of_neg _ _ _ sp (by simp [hsp])]
          rw [ih (A'.dropWhile (fun d => !pyIsSpace d))
            (by have := length_dropWhile_le (fun d => !pyIsSpace d) A'
                simp at hA; omega)]
          simp
  exact H A.length A (le_refl _)

/-- Leading whitespace does not change the word list. -/
theorem words_space_append (W B : List Char) (hW : ∀ c ∈ W, pyIsSpace c) :
    words (W ++ B) = words B := by
  induction W with
  | nil => simp
  | cons c cs ih =>
    rw [List.cons_append, words_cons_space c _ (hW c (by simp))]
    exact ih fun d hd => hW d (by simp [hd])

/-- Trailing whitespace does not change the word list. -/
theorem words_append_space_right (A W : List Char) (hW : ∀ c ∈ W, pyIsSpace c) :
    words (A ++ W) = words A := by
  match W with
  | [] => simp
  | w :: W' =>
    rw [words_append_space A W' w (hW w (by simp))]
    rw [words_all_space W' fun d hd => hW d (by simp [hd])]
    simp

/-! ### Auxiliary takeWhile/dropWhile and right-strip lemmas -/

theorem dropWhile_of_neg_head (p : Char → Bool) (x : Char) (xs : List Char)
    (hx : ¬ p x) : (x :: xs).dropWhile p = x :: xs := by
  simp [List.dropWhile, hx]

theorem dropWhile_eq_nil_all (p : Char → Bool) (l : List Char)
    (h : l.dropWhile p = []) : ∀ x ∈ l, p x :=
  List.dropWhile_eq_nil_iff.mp h

theorem dropWhile_head_neg (p : Char → Bool) (l : List Char) (x : Char)
    (xs : List Char) (h : l.dropWhile p = x :: xs) : ¬ p x := by
  induction l with
  | nil => simp [List.dropWhile] at h
  | cons c cs ih =>
    by_cases hc : p c
    · rw [List.dropWhile_cons, if_pos hc] at h
      exact ih h
    · rw [List.dropWhile_cons, if_neg hc] at h
      have hcx : c = x := (List.cons.injEq c cs x xs ▸ h).1
      rw [← hcx]
      exact hc

theorem dropWhile_append_of_ne_nil (p : Char → Bool) (X Y : List Char)
    (h : X.dropWhile p ≠ []) :
    (X ++ Y).dropWhile p = X.dropWhile p ++ Y := by
  induction X with
  | nil => simp at h
  | cons c cs ih =>
    by_cases hc : p c
    · rw [List.dropWhile_cons, if_pos hc] at h
      rw [List.cons_append, List.dropWhile_cons, if_pos hc,
        List.dropWhile_cons, if_pos hc]
      exact ih h
    · rw [List.cons_append, List.dropWhile_cons, if_neg hc,
        List.dropWhile_cons, if_neg hc]
      simp

theorem takeWhile_eq_self_of_all (p : Char → Bool) (A : List Char)
    (h : ∀ a ∈ A, p a) : A.takeWhile p = A := by
  have := takeWhile_append_all p A [] h
  simpa using this

theorem dropWhile_eq_nil_of_all (p : Char → Bool) (A : List Char)
    (h : ∀ a ∈ A, p a) : A.dropWhile p = [] := by
  have := dropWhile_append_all p A [] h
  simpa using this

/-- Right strip: drop trailing characters satisfying `pyIsSpace`. -/
def rstripWs (l : List Char) : List Char :=
  (l.reverse.dropWhile pyIsSpace).reverse

theorem pyStrip_eq_rstrip_dropWhile (l : List Char) :
    pyStrip l = rstripWs (l.dropWhile pyIsSpace) := rfl

theorem pyStrip_cons_space (c : Char) (cs : List Char) (h : pyIsSpace c) :
    pyStrip (c :: cs) = pyStrip cs := by
  simp [pyStrip, List.dropWhile, h]

theorem rstrip_cons_nonspace (c : Char) (cs : List Char) (h : ¬ pyIsSpace c) :
    rstripWs (c :: cs) = c :: rstripWs cs := by
  unfold rstripWs
  rw [List.reverse_cons]
  rw [show cs.reverse ++ [c] = cs.reverse ++ c :: [] from rfl]
  rw [dropWhile_append_cons_of_neg pyIsSpace cs.reverse [] c h]
  simp

theorem rstrip_nil : rstripWs [] = [] := rfl

theorem rstrip_append_right_ne_nil (A B : List Char) (h : rstripWs B ≠ []) :
    rstripWs (A ++ B) = A ++ rstripWs B := by
  unfold rstripWs at h ⊢
  rw [List.reverse_append]
  rw [dropWhile_append_of_ne_nil pyIsSpace B.reverse A.reverse
    (by intro hc; rw [hc] at h; simp at h)]
  simp

theorem rstrip_append_all_space (A W : List Char)
    (h : ∀ c ∈ W, pyIsSpace c) : rstripWs (A ++ W) = rstripWs A := by
  unfold rstripWs
  rw [List.reverse_append]
  rw [dropWhile_append_all pyIsSpace W.reverse A.reverse
    (by intro c hc; exact h c (List.mem_reverse.mp hc))]

theorem rstrip_all_nonspace (T : List Char) (h : ∀ c ∈ T, ¬ pyIsSpace c) :
    rstripWs T = T := by
  unfold rstripWs
  cases hT : T.reverse with
  | nil =>
    have : T = [] := by simpa using congrArg List.reverse hT
    simp [this]
  | cons x xs =>
    have hx : x ∈ T := by
      have : x ∈ T.reverse := by rw [hT]; simp
      exact List.mem_reverse.mp this
    rw [dropWhile_of_neg_head pyIsSpace x xs (h x hx), ← hT]
    simp

theorem pyStrip_cons_nonspace (c : Char) (cs : List Char) (h : ¬ pyIsSpace c) :
    pyStrip (c :: cs) = c :: rstripWs cs := by
  rw [pyStrip_eq_rstrip_dropWhile, dropWhile_of_neg_head pyIsSpace c cs h]
  exact rstrip_cons_nonspace c cs h

/-! ### collapseWs lemmas -/

theorem collapse_nonspace_head (b : Bool) (c : Char) (r : List Char)
    (h : ¬ pyIsSpace c) : collapseWs b (c :: r) = c :: collapseWs false r := by
  simp [collapseWs, h]

theorem collapse_nonspace_front (T X : List Char)
    (h : ∀ c ∈ T, ¬ pyIsSpace c) :
    collapseWs false (T ++ X) = T ++ collapseWs false X := by
  induction T with
  | nil => simp
  | cons c cs ih =>
    rw [List.cons_append, collapse_nonspace_head false c _ (h c (by simp))]
    rw [ih fun d hd => h d (by simp [hd])]
    simp

theorem collapse_all_nonspace (T : List Char) (h : ∀ c ∈ T, ¬ pyIsSpace c) :
    collapseWs false T = T := by
  have := collapse_nonspace_front T [] h
  simpa [collapseWs] using this

theorem collapse_true_space_front (S X : List Char)
    (h : ∀ c ∈ S, pyIsSpace c) :
    collapseWs true (S ++ X) = collapseWs true X := by
  induction S with
  | nil => simp
  | cons c cs ih =>
    rw [List.cons_append]
    rw [show collapseWs true (c :: (cs ++ X)) = collapseWs true (cs ++ X) by
      simp [collapseWs, h c (by simp)]]
    exact ih fun d hd => h d (by simp [hd])

theorem collapse_space_run (S X : List Char) (hne : S ≠ [])
    (h : ∀ c ∈ S, pyIsSpace c) :
    collapseWs false (S ++ X) = ' ' :: collapseWs true (S.tail ++ X) := by
  match S with
  | [] => exact absurd rfl hne
  | c :: cs =>
    rw [List.cons_append]
    rw [show collapseWs false (c :: (cs ++ X)) = ' ' :: collapseWs true (cs ++ X) by
      simp [collapseWs, h c (by simp)]]
    rfl

theorem joinWords_cons_cons (w x : List Char) (t : List (List Char)) :
    joinWords (w :: x :: t) = w ++ ' ' :: joinWords (x :: t) := rfl

/-! ### The bridge: `normWsL` is join-of-words -/

theorem mem_takeWhile_sat (p : Char → Bool) (l : List Char) (a : Char)
    (h : a ∈ l.takeWhile p) : p a := by
  induction l with
  | nil => simp [List.takeWhile] at h
  | cons c cs ih =>
    by_cases hc : p c
    · rw [List.takeWhile_cons, if_pos hc] at h
      rcases List.mem_cons.mp h with rfl | h
      · exact hc
      · exact ih h
    · rw [List.takeWhile_cons, if_neg hc] at h
      simp at h

/-- `normalize_whitespace` output is exactly the words joined by single
spaces. -/
theorem normWsL_eq_joinWords (l : List Char) : normWsL l = joinWords (words l) := by
  have H : ∀ n (l : List Char), l.length ≤ n → normWsL l = joinWords (words l) := by
    intro n
    induction n with
    | zero =>
      intro l hl
      have : l = [] := by cases l <;> simp_all
      subst this
      rw [words_nil]
      rfl
    | succ n ih =>
      intro l hl
      match l with
      | [] => rw [words_nil]; rfl
      | c :: cs =>
        by_cases hc : pyIsSpace c
        · rw [show normWsL (c :: cs) = normWsL cs by
            unfold normWsL; rw [pyStrip_cons_space c cs hc]]
          rw [words_cons_space c cs hc]
          exact ih cs (by simp at hl; omega)
        · have hTD : cs.takeWhile (fun d => !pyIsSpace d) ++
              cs.dropWhile (fun d => !pyIsSpace d) = cs :=
            List.takeWhile_append_dropWhile (fun d => !pyIsSpace d) cs
          have hT : ∀ a ∈ cs.takeWhile (fun d => !pyIsSpace d), ¬ pyIsSpace a := by
            intro a ha
            have := mem_takeWhile_sat (fun d => !pyIsSpace d) cs a ha
            simpa using this
          rw [words_cons_nonspace c cs hc]
          rw [show normWsL (c :: cs) = c :: collapseWs false (rstripWs cs) by
            unfold normWsL
            rw [pyStrip_cons_nonspace c cs hc, collapse_nonspace_head false c _ hc]]
          cases hDs : (cs.dropWhile (fun d => !pyIsSpace d)).dropWhile pyIsSpace with
          | nil =>
            have hDall : ∀ x ∈ cs.dropWhile (fun d => !pyIsSpace d), pyIsSpace x :=
              dropWhile_eq_nil_all pyIsSpace _ hDs
            rw [words_all_space _ hDall]
            rw [show joinWords [c :: cs.takeWhile (fun d => !pyIsSpace d)] =
              c :: cs.takeWhile (fun d => !pyIsSpace d) from rfl]
            rw [show rstripWs cs =
                rstripWs (cs.takeWhile (fun d => !pyIsSpace d) ++
                  cs.dropWhile (fun d => !pyIsSpace d)) by rw [hTD]]
            rw [rstrip_append_all_space _ _ hDall, rstrip_all_nonspace _ hT]
            rw [collapse_all_nonspace _ hT]
          | cons d E =>
            have hd : ¬ pyIsSpace d := dropWhile_head_neg pyIsSpace _ d E hDs
            have hSD : (cs.dropWhile (fun d => !pyIsSpace d)).takeWhile pyIsSpace ++
                d :: E = cs.dropWhile (fun d => !pyIsSpace d) := by
              have := List.takeWhile_append_dropWhile pyIsSpace
                (cs.dropWhile (fun d => !pyIsSpace d))
              rw [hDs] at this
              exact this
            have hSspace : ∀ x ∈ (cs.dropWhile (fun d => !pyIsSpace d)).takeWhile pyIsSpace,
                pyIsSpace x := fun x hx => mem_takeWhile_sat pyIsSpace _ x hx
            have hSne : (cs.dropWhile (fun d => !pyIsSpace d)).takeWhile pyIsSpace ≠ [] := by
              cases hDform : cs.dropWhile (fun d => !pyIsSpace d) with
              | nil => rw [hDform] at hDs; simp [List.dropWhile] at hDs
              | cons d0 D' =>
                have hd0 : ¬ (fun d => !pyIsSpace d) d0 :=
                  dropWhile_head_neg (fun d => !pyIsSpace d) cs d0 D' hDform
                have hd0' : pyIsSpace d0 := by simpa using hd0
                rw [List.takeWhile_cons, if_pos hd0']
                simp
            -- words D is nonempty
            have hwD : words (cs.dropWhile (fun d => !pyIsSpace d)) =
                (d :: E.takeWhile (fun x => !pyIsSpace x)) ::
                  words (E.dropWhile (fun x => !pyIsSpace x)) := by
              rw [← hSD, words_space_append _ _ hSspace, words_cons_nonspace d E hd]
            -- IH on D
            have hlenD : (cs.dropWhile (fun d => !pyIsSpace d)).length ≤ n := by
              have := length_dropWhile_le (fun d => !pyIsSpace d) cs
              simp at hl; omega
            have hIH := ih _ hlenD
            have hstripD : pyStrip (cs.dropWhile (fun d => !pyIsSpace d)) =
                rstripWs (d :: E) := by
              rw [pyStrip_eq_rstrip_dropWhile, hDs]
            have hrdE : rstripWs (d :: E) = d :: rstripWs E :=
              rstrip_cons_nonspace d E hd
            have hrne : rstripWs (d :: E) ≠ [] := by rw [hrdE]; simp
            -- left side
            have hrcs : rstripWs cs =
                (cs.takeWhile (fun d => !pyIsSpace d) ++
                  (cs.dropWhile (fun d => !pyIsSpace d)).takeWhile pyIsSpace) ++
                rstripWs (d :: E) := by
              conv_lhs => rw [← hTD, ← hSD]
              rw [show cs.takeWhile (fun d => !pyIsSpace d) ++
                  ((cs.dropWhile (fun d => !pyIsSpace d)).takeWhile pyIsSpace ++
                    d :: E) =
                  (cs.takeWhile (fun d => !pyIsSpace d) ++
                    (cs.dropWhile (fun d => !pyIsSpace d)).takeWhile pyIsSpace) ++
                    d :: E by simp]
              exact rstrip_append_right_ne_nil _ _ hrne
            have hcoll : collapseWs false (rstripWs cs) =
                cs.takeWhile (fun d => !pyIsSpace d) ++
                  ' ' :: collapseWs false (rstripWs (d :: E)) := by
              rw [hrcs]
              rw [List.append_assoc]
              rw [collapse_nonspace_front _ _ hT]
              rw [collapse_space_run _ _ hSne hSspace]
              rw [collapse_true_space_front _ _
                (fun x hx => hSspace x (List.mem_of_mem_tail hx))]
              rw [hrdE, collapse_nonspace_head true d _ hd,
                ← collapse_nonspace_head false d _ hd]
            rw [hcoll, hwD, joinWords_cons_cons]
            rw [← hwD]
            rw [← hstripD]
            have : collapseWs false (pyStrip (cs.dropWhile (fun d => !pyIsSpace d))) =
                joinWords (words (cs.dropWhile (fun d => !pyIsSpace d))) := hIH
            rw [this]
            simp
  exact H l.length l (le_refl _)

/-- Every word is nonempty and whitespace-free. -/
theorem words_clean (l : List Char) :
    ∀ w ∈ words l, w ≠ [] ∧ ∀ c ∈ w, ¬ pyIsSpace c := by
  have H : ∀ n (l : List Char), l.length ≤ n →
      ∀ w ∈ words l, w ≠ [] ∧ ∀ c ∈ w, ¬ pyIsSpace c := by
    intro n
    induction n with
    | zero =>
      intro l hl
      have : l = [] := by cases l <;> simp_all
      subst this
      rw [words_nil]
      simp
    | succ n ih =>
      intro l hl
      match l with
      | [] => rw [words_nil]; simp
      | c :: cs =>
        by_cases hc : pyIsSpace c
        · rw [words_cons_space c cs hc]
          exact ih cs (by simp at hl; omega)
        · rw [words_cons_nonspace c cs hc]
          intro w hw
          rcases List.mem_cons.mp hw with rfl | hw
          · refine ⟨by simp, ?_⟩
            intro x hx
            rcases List.mem_cons.mp hx with rfl | hx
            · exact hc
            · have := mem_takeWhile_sat (fun d => !pyIsSpace d) cs x hx
              simpa using this
          · exact ih (cs.dropWhile (fun d => !pyIsSpace d))
              (by have := length_dropWhile_le (fun d => !pyIsSpace d) cs
                  simp at hl; omega) w hw
  exact H l.length l (le_refl _)

/-- Words of a clean join are the original word list. -/
theorem words_joinWords (ws : List (List Char))
    (h : ∀ w ∈ ws, w ≠ [] ∧ ∀ c ∈ w, ¬ pyIsSpace c) :
    words (joinWords ws) = ws := by
  induction ws with
  | nil => exact words_nil
  | cons w t ih =>
    match t with
    | [] =>
      have hw := h w (by simp)
      rw [show joinWords [w] = w from rfl]
      match hwform : w with
      | [] => exact absurd rfl (hwform ▸ hw.1)
      | x :: xs =>
        rw [words_cons_nonspace x xs (hw.2 x (by simp))]
        rw [takeWhile_eq_self_of_all _ xs
          (by intro a ha; simp [hw.2 a (by simp [ha])])]
        rw [dropWhile_eq_nil_of_all _ xs
          (by intro a ha; simp [hw.2 a (by simp [ha])])]
        rw [words_nil]
    | v :: t' =>
      have hw := h w (by simp)
      rw [joinWords_cons_cons]
      match hwform : w with
      | [] => exact absurd rfl (hwform ▸ hw.1)
      | x :: xs =>
        have hxs : ∀ a ∈ xs, ¬ pyIsSpace a := fun a ha => hw.2 a (by simp [ha])
        rw [List.cons_append, words_cons_nonspace x _ (hw.2 x (by simp))]
        rw [takeWhile_append_cons_of_neg _ _ _ ' ' (by simp [pyIsSpace])]
        rw [dropWhile_append_cons_of_neg _ _ _ ' ' (by simp [pyIsSpace])]
        rw [takeWhile_eq_self_of_all _ xs (by intro a ha; simp [hxs a ha])]
        rw [dropWhile_eq_nil_of_all _ xs (by intro a ha; simp [hxs a ha])]
        rw [show ([] : List Char) ++ ' ' :: joinWords (v :: t') =
          ' ' :: joinWords (v :: t') from rfl]
        rw [words_cons_space ' ' _ (by simp [pyIsSpace])]
        rw [ih fun u hu => h u (by simp [hu])]

/-- Two character lists with the same words have the same normalized form. -/
theorem normWsL_congr (x y : List Char) (h : words x = words y) :
    normWsL x = normWsL y := by
  rw [normWsL_eq_joinWords, normWsL_eq_joinWords, h]

/-- Words are invariant under normalization. -/
theorem words_normWsL (l : List Char) : words (normWsL l) = words l := by
  rw [normWsL_eq_joinWords]
  exact words_joinWords (words l) (words_clean l)

/-- C7: normalization is idempotent — normalizing already-normalized text is
a no-op: for every string s,
normalize_whitespace (normalize_whitespace s) = normalize_whitespace s. -/
theorem C7_normalize_whitespace_idempotent (s : String) :
    normalize_whitespace (normalize_whitespace s) = normalize_whitespace s := by
  show (⟨normWsL (normWsL s.data)⟩ : String) = ⟨normWsL s.data⟩
  rw [normWsL_eq_joinWords (normWsL s.data), words_normWsL,
    ← normWsL_eq_joinWords]

/-! ### Python line splitting and joining

`str.splitlines` splits at LF, CR, CRLF, VT and FF; the trailing partial line
is kept, and a trailing line terminator produces no extra empty line. -/

/-- Non-CR line boundary characters recognized by Python `str.splitlines`
within the ASCII range handled here. -/
def isNlBoundary (c : Char) : Bool := c = '\n' || c = '\x0b' || c = '\x0c'

/-- Worker for `str.splitlines`; `cur` is the current line, reversed. -/
def splGo (cur : List Char) : List Char → List (List Char)
  | [] => if cur = [] then [] else [cur.reverse]
  | '\r' :: '\n' :: rest => cur.reverse :: splGo [] rest
  | '\r' :: rest => cur.reverse :: splGo [] rest
  | c :: rest =>
    if isNlBoundary c then cur.reverse :: splGo [] rest
    else splGo (c :: cur) rest

/-- Python `str.splitlines` (ASCII boundaries: LF, CR, CRLF, VT, FF). -/
def pySplitlines (l : List Char) : List (List Char) := splGo [] l

/-- Python `"\n".join`. -/
def joinNl : List (List Char) → List Char
  | [] => []
  | [l] => l
  | l :: ls => l ++ '\n' :: joinNl ls

theorem joinNl_cons_cons (l x : List Char) (t : List (List Char)) :
    joinNl (l :: x :: t) = l ++ '\n' :: joinNl (x :: t) := rfl

/-- List-level `reindent` from `Tools/_theft.py`: re-indent every non-blank
line with the provided indent; blank lines become empty. -/
def reindentL (text indent : List Char) : List Char :=
  joinNl ((pySplitlines text).map
    (fun line => if pyStrip line ≠ [] then indent ++ line else []))

/-- `reindent` from `Tools/_theft.py`. -/
def reindent (text indent : String) : String := ⟨reindentL text.data indent.data⟩

/-- Python `text.replace('\r\n', '\n')`: left-to-right, non-overlapping. -/
def replaceCrlfL : List Char → List Char
  | [] => []
  | '\r' :: '\n' :: rest => '\n' :: replaceCrlfL rest
  | c :: rest => c :: replaceCrlfL rest

/-- Python `text.replace('\r', '\n')`. -/
def crToLfL (l : List Char) : List Char :=
  l.map fun c => if c = '\r' then '\n' else c

/-! ### Identifier resolver: `IDENTIFIER_REGEX = r'identifier="([^"]+)"'` -/

/-- The literal prefix of the identifier pattern. -/
def identifierKey : List Char := "identifier=\"".toList

/-- `IDENTIFIER_REGEX.search`: first position at which
`identifier="([^"]+)"` matches; returns the captured group. -/
def findIdentifier : List Char → Option (List Char)
  | [] => none
  | c :: cs =>
    if identifierKey.isPrefixOf (c :: cs) then
      if ((((c :: cs).drop identifierKey.length).takeWhile
            (fun d => !(d = '"'))).isEmpty
          || ((((c :: cs).drop identifierKey.length).dropWhile
            (fun d => !(d = '"'))).isEmpty)) then
        findIdentifier cs
      else some (((c :: cs).drop identifierKey.length).takeWhile
        (fun d => !(d = '"')))
    else findIdentifier cs

/-! ### First occurrence of any of a list of literal patterns -/

/-- First pattern in `pats` (in order) that is a prefix of `s`. -/
def firstMatchAt (pats : List (List Char)) (s : List Char) : Option (List Char) :=
  pats.find? (fun p => p.isPrefixOf s)

/-- Split `s` at the first occurrence of any pattern in `pats`: returns
`(pre, pat, rest)` with `s = pre ++ pat ++ rest`. -/
def splitAtFirstAny (pats : List (List Char)) :
    List Char → Option (List Char × List Char × List Char)
  | [] => none
  | c :: cs =>
    match firstMatchAt pats (c :: cs) with
    | some p => some ([], p, (c :: cs).drop p.length)
    | none =>
      match splitAtFirstAny pats cs with
      | some (pre, p, rest) => some (c :: pre, p, rest)
      | none => none

/-! ### The Item block pattern
`ITEM_BLOCK_REGEX = r'^(?P<indent>[ \t]*)<Item(?P<attrs>[^>]*)>(?P<inner>.*?)</Item>'`
with `re.MULTILINE | re.DOTALL`. -/

/-- Indentation characters matched by `[ \t]*`. -/
def isIndentChar (c : Char) : Bool := c = ' ' || c = '\t'

/-- The literal opening tag prefix. -/
def openItem : List Char := "<Item".toList

/-- The literal closing tag. -/
def closeItem : List Char := "</Item>".toList

/-- One attempted match of `ITEM_BLOCK_REGEX` at the current position
(which the caller guarantees to be a line start). -/
structure ItemMatch where
  indent : List Char
  attrs : List Char
  inner : List Char
  rest : List Char
deriving Repr, DecidableEq

/-- Attempt to match `ITEM_BLOCK_REGEX` at the start of `s`:
maximal `[ \t]*` run, literal `<Item`, maximal `[^>]*` run, `>`, then the
shortest inner content followed by `</Item>`. -/
def tryMatch (s : List Char) : Option ItemMatch :=
  if openItem.isPrefixOf (s.dropWhile isIndentChar) then
    match ((s.dropWhile isIndentChar).drop openItem.length).dropWhile
        (fun c => !(c = '>')) with
    | [] => none
    | _ :: s3 =>
      match splitAtFirstAny [closeItem] s3 with
      | none => none
      | some (inner, _, rest) =>
        some ⟨s.takeWhile isIndentChar,
          ((s.dropWhile isIndentChar).drop openItem.length).takeWhile
            (fun c => !(c = '>')),
          inner, rest⟩
  else none

/-- A segment of the scanned document: either a passed-through character or
a matched Item block. -/
inductive Seg where
  | raw (c : Char)
  | block (indent attrs inner : List Char)
deriving Repr, DecidableEq

/-- The scan underlying `ITEM_BLOCK_REGEX.sub`/`finditer`: at every line
start try to match a block; on failure or off line starts pass the character
through.  `fuel` bounds the recursion; any `fuel > length` is exact. -/
def scanItemBlocks : Nat → List Char → Bool → List Seg
  | _, [], _ => []
  | 0, s, _ => s.map Seg.raw
  | fuel+1, c :: cs, atLS =>
    if atLS then
      match tryMatch (c :: cs) with
      | some m => Seg.block m.indent m.attrs m.inner :: scanItemBlocks fuel m.rest false
      | none => Seg.raw c :: scanItemBlocks fuel cs (c = '\n')
    else Seg.raw c :: scanItemBlocks fuel cs (c = '\n')

/-- The source text a segment was matched from. -/
def segSource : Seg → List Char
  | .raw c => [c]
  | .block ind attrs inner => ind ++ openItem ++ attrs ++ '>' :: (inner ++ closeItem)

/-- The catalog: identifier to cleaned inner content, as an association list
with unique keys (Python dict). -/
def dictLookup (d : List (List Char × List Char)) (k : List Char) :
    Option (List Char) :=
  (d.find? (fun p => p.1 == k)).map (fun p => p.2)

/-- Python dict assignment `d[k] = v`: overwrite in place or append. -/
def dictInsert (d : List (List Char × List Char)) (k v : List Char) :
    List (List Char × List Char) :=
  if d.any (fun p => p.1 == k) then
    d.map (fun p => if p.1 == k then (k, v) else p)
  else d ++ [(k, v)]

/-- `os.linesep`, modelled as LF (see the header note). -/
def linesepL : List Char := ['\n']

/-- The `replacer` closure inside `update_tar_file`: given a matched block,
return the replacement text and the identifier recorded into `used_ids`
(if any). -/
def replacer (items : List (List Char × List Char))
    (ind attrs inner : List Char) : List Char × Option (List Char) :=
  match findIdentifier attrs with
  | none => (segSource (.block ind attrs inner), none)
  | some ident =>
    match dictLookup items ident with
    | none => (segSource (.block ind attrs inner), none)
    | some src =>
      if normWsL inner = normWsL src then
        (segSource (.block ind attrs inner), some ident)
      else
        (ind ++ openItem ++ attrs ++ '>' ::
          (linesepL ++ reindentL src (ind ++ ['\t']) ++ linesepL ++ ind ++ closeItem),
         some ident)

/-- Replacement text contributed by one segment. -/
def renderSeg (items : List (List Char × List Char)) : Seg → List Char
  | .raw c => [c]
  | .block ind attrs inner => (replacer items ind attrs inner).1

/-- Identifiers recorded into `used_ids` by one segment. -/
def usedOfSeg (items : List (List Char × List Char)) : Seg → List (List Char)
  | .raw _ => []
  | .block ind attrs inner =>
    match (replacer items ind attrs inner).2 with
    | some ident => [ident]
    | none => []

/-- `ITEM_BLOCK_REGEX.sub(replacer, original)`. -/
def itemSubL (items : List (List Char × List Char)) (s : List Char) : List Char :=
  ((scanItemBlocks (s.length + 1) s true).map (renderSeg items)).flatten

/-- Identifiers added to `used_ids` while substituting one document. -/
def usedIdsL (items : List (List Char × List Char)) (s : List Char) :
    List (List Char) :=
  ((scanItemBlocks (s.length + 1) s true).map (usedOfSeg items)).flatten

/-- List-level `update_tar_file`: substitute, normalize line endings,
re-apply the tab-normalizer with empty indent, and compare normalized
forms.  Returns (modified, changed). -/
def update_tar_fileL (items : List (List Char × List Char)) (s : List Char) :
    List Char × Bool :=
  let t := itemSubL items s
  let m := reindentL (crToLfL (replaceCrlfL t)) []
  (m, decide (normWsL s ≠ normWsL m))

/-- `update_tar_file` from `Tools/_theft.py` on an already-read document:
returns `(original, modified, changed)` and the updated `used_ids`. -/
def update_tar_file (src_items : List (String × String)) (original : String)
    (used_ids : List String) : String × String × Bool × List String :=
  let items := src_items.map fun p => (p.1.data, p.2.data)
  let r := update_tar_fileL items original.data
  (original, ⟨r.1⟩, r.2,
    used_ids ++ (usedIdsL items original.data).map fun l => ⟨l⟩)

/-! ### Source catalog builder
`REMOVE_COMPONENTS_REGEX = r'<(?:Fabricate|Deconstruct)\b.*?</(?:Fabricate|Deconstruct)>'`
with `re.DOTALL`, and `extract_items_from_src`. -/

/-- Python `\w` (ASCII): letters, digits, underscore. -/
def isWordChar (c : Char) : Bool := c.isAlpha || c.isDigit || c = '_'

/-- The excluded component opening tag literals, in alternation order. -/
def openFab : List Char := "<Fabricate".toList

/-- Opening literal of the second alternation branch. -/
def openDec : List Char := "<Deconstruct".toList

/-- The excluded component closing tag literals, in alternation order. -/
def closeFab : List Char := "</Fabricate>".toList

/-- Closing literal of the second alternation branch. -/
def closeDec : List Char := "</Deconstruct>".toList

/-- `\b` after the opening literal: next character is absent or not a word
character. -/
def wordBoundaryAfter : List Char → Bool
  | [] => true
  | c :: _ => !isWordChar c

/-- Try `<(?:Fabricate|Deconstruct)\b` at the start of `s`; on success return
the remainder after the opening literal. -/
def tryOpenComponent (s : List Char) : Option (List Char) :=
  if openFab.isPrefixOf s && wordBoundaryAfter (s.drop openFab.length) then
    some (s.drop openFab.length)
  else if openDec.isPrefixOf s && wordBoundaryAfter (s.drop openDec.length) then
    some (s.drop openDec.length)
  else none

/-- The scan underlying `REMOVE_COMPONENTS_REGEX.sub('', ·)`: at each
position, if an excluded opening matches and a closing tag occurs later,
drop through the first closing tag; otherwise pass the character through. -/
def removeComponentsGo : Nat → List Char → List Char
  | _, [] => []
  | 0, s => s
  | fuel+1, c :: cs =>
    match tryOpenComponent (c :: cs) with
    | some after =>
      match splitAtFirstAny [closeFab, closeDec] after with
      | some (_, _, rest) => removeComponentsGo fuel rest
      | none => c :: removeComponentsGo fuel cs
    | none => c :: removeComponentsGo fuel cs

/-- `REMOVE_COMPONENTS_REGEX.sub('', inner)`. -/
def removeComponentsL (inner : List Char) : List Char :=
  removeComponentsGo (inner.length + 1) inner

/-- List-level `extract_items_from_src`, over the list of source file
contents (directory listing order): for each identified block store the
cleaned, stripped inner content; later files overwrite earlier entries. -/
def extract_items_from_srcL (files : List (List Char)) :
    List (List Char × List Char) :=
  files.foldl (fun items content =>
    (scanItemBlocks (content.length + 1) content true).foldl (fun items seg =>
      match seg with
      | .raw _ => items
      | .block _ attrs inner =>
        match findIdentifier attrs with
        | some ident => dictInsert items ident (pyStrip (removeComponentsL inner))
        | none => items) items) []

/-- `extract_items_from_src` from `Tools/_theft.py` on already-read file
contents. -/
def extract_items_from_src (files : List String) : List (String × String) :=
  (extract_items_from_srcL (files.map String.data)).map fun p => (⟨p.1⟩, ⟨p.2⟩)

/-! ### Formatting normalizer (`normalize_formatting` from `Text/_swapper.py`) -/

/-- Split at every LF, keeping empty pieces (the regex view of `^ ... $`
line starts under `re.MULTILINE` after CRLF removal). -/
def splitNlGo (cur : List Char) : List Char → List (List Char)
  | [] => [cur.reverse]
  | c :: cs =>
    if c = '\n' then cur.reverse :: splitNlGo [] cs
    else splitNlGo (c :: cur) cs

/-- Split a character list at LF characters. -/
def splitNl (l : List Char) : List (List Char) := splitNlGo [] l

/-- `re.sub(r'^( {4})+', lambda m: '\t' * (len(m.group(0)) // 4), line)`:
convert each group of four leading spaces into one tab. -/
def tabifyLine (l : List Char) : List Char :=
  let n := (l.takeWhile (fun c => c = ' ')).length
  let q := n / 4
  List.replicate q '\t' ++ l.drop (4 * q)

/-- List-level `normalize_formatting` from `Text/_swapper.py`: line endings
to LF, then four-space leading groups to tabs on every line. -/
def normalize_formattingL (t : List Char) : List Char :=
  joinNl ((splitNl (crToLfL (replaceCrlfL t))).map tabifyLine)

/-- `normalize_formatting` from `Text/_swapper.py`. -/
def normalize_formatting (s : String) : String := ⟨normalize_formattingL s.data⟩

/-! ### Missing-identifier report (`main` from `Tools/_theft.py`) -/

/-- Insert into a sorted list of strings. -/
def insertSortedStr (x : String) : List String → List String
  | [] => [x]
  | y :: ys => if x ≤ y then x :: y :: ys else y :: insertSortedStr x ys

/-- Python `sorted` on strings (code-point lexicographic). -/
def sortStrings (l : List String) : List String := l.foldr insertSortedStr []

/-- Identifiers recorded into `used_ids` across all target documents of a
run. -/
def runUsed (items : List (List Char × List Char)) (tars : List (List Char)) :
    List (List Char) :=
  (tars.map (usedIdsL items)).flatten

/-- `sorted(set(src_items.keys()) - used_ids)`: the missing-identifiers
report of a run with source contents `srcs` and target contents `tars`. -/
def missingIds (srcs tars : List (List Char)) : List String :=
  let items := extract_items_from_srcL srcs
  let used := runUsed items tars
  sortStrings
    (((items.map (fun p => p.1)).dedup.filter
      (fun k => !(used.contains k))).map fun k => ⟨k⟩)

/-! ### Occurrence and first-occurrence lemmas -/

/-- Some pattern of `pats` occurs as a substring. -/
def hasOccur (pats : List (List Char)) (s : List Char) : Prop :=
  ∃ a p b, p ∈ pats ∧ s = a ++ p ++ b

theorem firstMatchAt_eq_none_iff (pats : List (List Char)) (s : List Char) :
    firstMatchAt pats s = none ↔ ∀ p ∈ pats, ¬ p <+: s := by
  unfold firstMatchAt
  rw [List.find?_eq_none]
  constructor
  · intro h p hp hpre
    exact h p hp (List.isPrefixOf_iff_prefix.mpr hpre)
  · intro h p hp hpre
    exact h p hp (List.isPrefixOf_iff_prefix.mp hpre)

theorem firstMatchAt_eq_some (pats : List (List Char)) (s p : List Char)
    (h : firstMatchAt pats s = some p) : p ∈ pats ∧ p <+: s := by
  unfold firstMatchAt at h
  have h2 : (fun q : List Char => q.isPrefixOf s) p = true :=
    @List.find?_some (List Char) (fun q : List Char => q.isPrefixOf s) p pats h
  exact ⟨List.mem_of_find?_eq_some h,
    List.isPrefixOf_iff_prefix.mp (by simpa using h2)⟩

theorem splitAtFirstAny_some_decomp (pats : List (List Char)) (s pre p rest : List Char)
    (h : splitAtFirstAny pats s = some (pre, p, rest)) :
    p ∈ pats ∧ s = pre ++ p ++ rest := by
  induction s generalizing pre with
  | nil => simp [splitAtFirstAny] at h
  | cons c cs ih =>
    rw [splitAtFirstAny] at h
    cases hfm : firstMatchAt pats (c :: cs) with
    | some q =>
      rw [hfm] at h
      simp at h
      obtain ⟨rfl, rfl, rfl⟩ := h
      obtain ⟨hq, t, ht⟩ := firstMatchAt_eq_some pats (c :: cs) q hfm
      refine ⟨hq, ?_⟩
      rw [← ht, List.drop_left]
      simp [← ht]
    | none =>
      rw [hfm] at h
      cases hrec : splitAtFirstAny pats cs with
      | none => rw [hrec] at h; simp at h
      | some val =>
        obtain ⟨pre', p', rest'⟩ := val
        rw [hrec] at h
        simp at h
        obtain ⟨rfl, rfl, rfl⟩ := h
        obtain ⟨hq, hdec⟩ := ih pre' hrec
        exact ⟨hq, by simp [hdec]⟩

theorem splitAtFirstAny_some_first (pats : List (List Char)) (s pre p rest : List Char)
    (h : splitAtFirstAny pats s = some (pre, p, rest)) :
    ∀ a q b, q ∈ pats → s = a ++ q ++ b → pre.length ≤ a.length := by
  induction s generalizing pre with
  | nil => simp [splitAtFirstAny] at h
  | cons c cs ih =>
    intro a q b hq hs
    rw [splitAtFirstAny] at h
    cases hfm : firstMatchAt pats (c :: cs) with
    | some r =>
      rw [hfm] at h
      simp at h
      obtain ⟨rfl, rfl, rfl⟩ := h
      simp
    | none =>
      rw [hfm] at h
      cases hrec : splitAtFirstAny pats cs with
      | none => rw [hrec] at h; simp at h
      | some val =>
        obtain ⟨pre', p', rest'⟩ := val
        rw [hrec] at h
        simp at h
        obtain ⟨rfl, rfl, rfl⟩ := h
        match a with
        | [] =>
          exfalso
          have : q <+: c :: cs := by
            rw [hs]
            simp
          exact (firstMatchAt_eq_none_iff pats (c :: cs)).mp hfm q hq this
        | a0 :: a' =>
          have hcs : cs = a' ++ q ++ b := by
            have := congrArg List.tail hs
            simpa using this
          have := ih pre' hrec a' q b hq hcs
          simpa using this

theorem splitAtFirstAny_none_no_occur (pats : List (List Char)) (s : List Char)
    (hne : ∀ p ∈ pats, p ≠ [])
    (h : splitAtFirstAny pats s = none) : ¬ hasOccur pats s := by
  induction s with
  | nil =>
    rintro ⟨a, p, b, hp, hs⟩
    have h0 : a ++ p ++ b = [] := hs.symm
    simp only [List.append_eq_nil] at h0
    exact hne p hp h0.1.2
  | cons c cs ih =>
    rw [splitAtFirstAny] at h
    cases hfm : firstMatchAt pats (c :: cs) with
    | some q => rw [hfm] at h; simp at h
    | none =>
      rw [hfm] at h
      cases hrec : splitAtFirstAny pats cs with
      | some val => rw [hrec] at h; obtain ⟨x, y, z⟩ := val; simp at h
      | none =>
        rintro ⟨a, p, b, hp, hs⟩
        match a with
        | [] =>
          have : p <+: c :: cs := by
            rw [hs]
            simp
          exact (firstMatchAt_eq_none_iff pats (c :: cs)).mp hfm p hp this
        | a0 :: a' =>
          have hcs : cs = a' ++ p ++ b := by
            have := congrArg List.tail hs
            simpa using this
          exact ih hrec ⟨a', p, b, hp, hcs⟩

theorem splitAtFirstAny_some_pre_no_occur (pats : List (List Char))
    (s pre p rest : List Char) (hne : ∀ p ∈ pats, p ≠ [])
    (h : splitAtFirstAny pats s = some (pre, p, rest)) : ¬ hasOccur pats pre := by
  rintro ⟨a, q, b, hq, hpre⟩
  have hs : s = a ++ q ++ (b ++ p ++ rest) := by
    have := (splitAtFirstAny_some_decomp pats s pre p rest h).2
    rw [this, hpre]
    simp
  have hle := splitAtFirstAny_some_first pats s pre p rest h a q (b ++ p ++ rest) hq hs
  have : pre.length = a.length + q.length + b.length := by
    rw [hpre]
    simp
    omega
  have hqne : q.length ≠ 0 := by
    intro h0
    exact hne q hq (List.length_eq_zero.mp h0)
  omega

/-! ### tryMatch decomposition and scan reconstruction -/

theorem scanItemBlocks_nil (fuel : Nat) (b : Bool) :
    scanItemBlocks fuel [] b = [] := by
  cases fuel <;> rfl

theorem scanItemBlocks_succ_some (fuel : Nat) (c : Char) (cs : List Char)
    (m : ItemMatch) (h : tryMatch (c :: cs) = some m) :
    scanItemBlocks (fuel + 1) (c :: cs) true =
      Seg.block m.indent m.attrs m.inner :: scanItemBlocks fuel m.rest false := by
  simp [scanItemBlocks, h]

theorem scanItemBlocks_succ_none (fuel : Nat) (c : Char) (cs : List Char)
    (h : tryMatch (c :: cs) = none) :
    scanItemBlocks (fuel + 1) (c :: cs) true =
      Seg.raw c :: scanItemBlocks fuel cs (c = '\n') := by
  simp [scanItemBlocks, h]

theorem scanItemBlocks_succ_false (fuel : Nat) (c : Char) (cs : List Char) :
    scanItemBlocks (fuel + 1) (c :: cs) false =
      Seg.raw c :: scanItemBlocks fuel cs (c = '\n') := by
  simp [scanItemBlocks]

theorem tryMatch_some_decomp (s : List Char) (m : ItemMatch)
    (h : tryMatch s = some m) :
    s = m.indent ++ openItem ++ m.attrs ++ '>' :: (m.inner ++ closeItem ++ m.rest)
    ∧ (∀ c ∈ m.indent, isIndentChar c)
    ∧ (∀ c ∈ m.attrs, ¬ (c = '>'))
    ∧ ¬ hasOccur [closeItem] m.inner := by
  unfold tryMatch at h
  by_cases hpre : openItem.isPrefixOf (s.dropWhile isIndentChar)
  · rw [if_pos hpre] at h
    obtain ⟨t, ht⟩ := List.isPrefixOf_iff_prefix.mp hpre
    have hdrop : (s.dropWhile isIndentChar).drop openItem.length = t := by
      rw [← ht, List.drop_left]
    cases hgt : ((s.dropWhile isIndentChar).drop openItem.length).dropWhile
        (fun c => !(c = '>')) with
    | nil => rw [hgt] at h; simp at h
    | cons d s3 =>
      rw [hgt] at h
      replace h : (match splitAtFirstAny [closeItem] s3 with
          | none => none
          | some (inner, _, rest) =>
            some (⟨s.takeWhile isIndentChar,
              ((s.dropWhile isIndentChar).drop openItem.length).takeWhile
                (fun c => !(c = '>')),
              inner, rest⟩ : ItemMatch)) = some m := h
      cases hsp : splitAtFirstAny [closeItem] s3 with
      | none => rw [hsp] at h; simp at h
      | some val =>
        obtain ⟨inner, p, rest⟩ := val
        rw [hsp] at h
        simp at h
        obtain ⟨hd1, hd2, hd3, hd4⟩ :
            m.indent = s.takeWhile isIndentChar ∧
            m.attrs = ((s.dropWhile isIndentChar).drop openItem.length).takeWhile
              (fun c => !(c = '>')) ∧
            m.inner = inner ∧ m.rest = rest := by
          rcases m with ⟨mi, ma, mn, mr⟩
          simp at h
          exact ⟨h.1.symm, h.2.1.symm, h.2.2.1.symm, h.2.2.2.symm⟩
        have hdn : ¬ (fun c => !(c = '>')) d :=
          dropWhile_head_neg _ _ d s3 hgt
        have hdgt : d = '>' := by simpa using hdn
        obtain ⟨hpmem, hs3⟩ :=
          splitAtFirstAny_some_decomp [closeItem] s3 inner p rest hsp
        have hpc : p = closeItem := by simpa using hpmem
        refine ⟨?_, ?_, ?_, ?_⟩
        · conv_lhs => rw [← List.takeWhile_append_dropWhile isIndentChar s]
          rw [← ht, ← hdrop]
          rw [show ((s.dropWhile isIndentChar).drop openItem.length) =
              ((s.dropWhile isIndentChar).drop openItem.length).takeWhile
                (fun c => !(c = '>')) ++ d :: s3 by
            conv_lhs => rw [← List.takeWhile_append_dropWhile (fun c => !(c = '>'))
              ((s.dropWhile isIndentChar).drop openItem.length)]
            rw [hgt]]
          rw [hd1, hd2, hdgt, hs3, hpc, hd3, hd4]
          simp
        · intro c hc
          rw [hd1] at hc
          exact mem_takeWhile_sat isIndentChar s c hc
        · intro c hc
          rw [hd2] at hc
          have := mem_takeWhile_sat (fun c => !(c = '>')) _ c hc
          simpa using this
        · rw [hd3]
          exact splitAtFirstAny_some_pre_no_occur [closeItem] s3 inner p rest
            (by simp [closeItem]) hsp
  · rw [if_neg hpre] at h
    simp at h

theorem tryMatch_rest_length (s : List Char) (m : ItemMatch)
    (h : tryMatch s = some m) : m.rest.length + 13 ≤ s.length := by
  have hdec := (tryMatch_some_decomp s m h).1
  have := congrArg List.length hdec
  simp [List.length_append, openItem, closeItem] at this
  omega

/-- The scanned segments exactly reassemble the document. -/
theorem scan_flatten_source (fuel : Nat) (s : List Char) (b : Bool)
    (hf : s.length ≤ fuel) :
    ((scanItemBlocks fuel s b).map segSource).flatten = s := by
  induction fuel generalizing s b with
  | zero =>
    have : s = [] := by cases s <;> simp_all
    subst this
    simp [scanItemBlocks_nil]
  | succ fuel ih =>
    match s with
    | [] => simp [scanItemBlocks_nil]
    | c :: cs =>
      cases b with
      | false =>
        rw [scanItemBlocks_succ_false]
        simp only [List.map_cons, List.flatten_cons]
        rw [ih cs (c = '\n') (by simp at hf; omega)]
        rfl
      | true =>
        cases htm : tryMatch (c :: cs) with
        | none =>
          rw [scanItemBlocks_succ_none fuel c cs htm]
          simp only [List.map_cons, List.flatten_cons]
          rw [ih cs (c = '\n') (by simp at hf; omega)]
          rfl
        | some m =>
          rw [scanItemBlocks_succ_some fuel c cs m htm]
          simp only [List.map_cons, List.flatten_cons]
          rw [ih m.rest false
            (by have h13 := tryMatch_rest_length (c :: cs) m htm
                simp at h13 hf ⊢
                omega)]
          have hdec := (tryMatch_some_decomp (c :: cs) m htm).1
          rw [segSource]
          rw [hdec]
          simp

/-! ### Claim C1: the replacement shape and the rope_1 scenario -/

/-- C1: for every target block whose identifier is in the catalog and whose
whitespace-normalized inner content differs from the catalog entry, the merge
replaces the whole block by the indent, the original opening tag with the
attribute text preserved exactly, a newline, the catalog content re-indented
with the block indent plus one extra indentation unit (blank lines becoming
empty), a newline, the indent, and the closing tag; and in particular the
rope_1 scenario produces `<Item identifier="rope_1">\n\t<price>10</price>\n</Item>`
with the document flagged changed. -/
theorem C1_replace_inner_content :
    (∀ (items : List (List Char × List Char)) (ind attrs inner ident src : List Char),
      findIdentifier attrs = some ident →
      dictLookup items ident = some src →
      normWsL inner ≠ normWsL src →
      replacer items ind attrs inner =
        (ind ++ openItem ++ attrs ++ '>' ::
          (linesepL ++ reindentL src (ind ++ ['\t']) ++ linesepL ++ ind ++ closeItem),
         some ident))
    ∧ update_tar_file [("rope_1", "<price>10</price>")]
        "<Item identifier=\"rope_1\">\n    <price>5</price>\n</Item>" [] =
      ("<Item identifier=\"rope_1\">\n    <price>5</price>\n</Item>",
       "<Item identifier=\"rope_1\">\n\t<price>10</price>\n</Item>", true,
       ["rope_1"]) := by
  constructor
  · intro items ind attrs inner ident src hid hlk hne
    simp [replacer, hid, hlk, hne]
  · decide

/-- C1 witness: the universal part applied at the rope_1 scenario data. -/
theorem C1_replace_inner_content_witness :
    replacer [("rope_1".data, "<price>10</price>".data)] []
      " identifier=\"rope_1\"".data "\n    <price>5</price>\n".data =
      ([] ++ openItem ++ " identifier=\"rope_1\"".data ++ '>' ::
        (linesepL ++ reindentL "<price>10</price>".data ([] ++ ['\t']) ++
          linesepL ++ [] ++ closeItem),
       some "rope_1".data) :=
  C1_replace_inner_content.1 [("rope_1".data, "<price>10</price>".data)] []
    " identifier=\"rope_1\"".data "\n    <price>5</price>\n".data
    "rope_1".data "<price>10</price>".data (by decide) (by decide) (by decide)

/-! ### Claim C2: the frame property -/

/-- A block the merge engine passes through unchanged: no identifier, an
identifier absent from the catalog, or normalized-equal content. -/
def skipBlock (items : List (List Char × List Char)) (attrs inner : List Char) : Prop :=
  findIdentifier attrs = none ∨
  (∃ ident, findIdentifier attrs = some ident ∧ dictLookup items ident = none) ∨
  (∃ ident src, findIdentifier attrs = some ident ∧ dictLookup items ident = some src ∧
    normWsL inner = normWsL src)

theorem replacer_skip (items : List (List Char × List Char))
    (ind attrs inner : List Char) (h : skipBlock items attrs inner) :
    (replacer items ind attrs inner).1 = segSource (.block ind attrs inner) := by
  rcases h with h | ⟨ident, hid, hlk⟩ | ⟨ident, src, hid, hlk, heq⟩
  · simp [replacer, h]
  · simp [replacer, hid, hlk]
  · simp [replacer, hid, hlk, heq]

/-- C2: the merged output is the concatenation of the scanned segments with
only non-skip blocks altered, then formatting-normalized; the segments
reassemble the input exactly, and every skip block (no identifier, identifier
absent from the catalog, or normalized-equal content) as well as every raw
character outside blocks is emitted byte-identically. -/
theorem C2_only_changed_blocks_replaced (src_items : List (String × String))
    (original : String) :
    ((scanItemBlocks (original.data.length + 1) original.data true).map
      segSource).flatten = original.data
    ∧ (∀ ind attrs inner,
        Seg.block ind attrs inner ∈
          scanItemBlocks (original.data.length + 1) original.data true →
        skipBlock (src_items.map fun p => (p.1.data, p.2.data)) attrs inner →
        renderSeg (src_items.map fun p => (p.1.data, p.2.data))
          (Seg.block ind attrs inner) = segSource (Seg.block ind attrs inner))
    ∧ (∀ c, renderSeg (src_items.map fun p => (p.1.data, p.2.data)) (Seg.raw c)
        = segSource (Seg.raw c))
    ∧ (update_tar_file src_items original []).2.1 =
      ⟨reindentL (crToLfL (replaceCrlfL
        (((scanItemBlocks (original.data.length + 1) original.data true).map
          (renderSeg (src_items.map fun p => (p.1.data, p.2.data)))).flatten))) []⟩ := by
  refine ⟨?_, ?_, ?_, ?_⟩
  · exact scan_flatten_source _ original.data true (by omega)
  · intro ind attrs inner hmem hskip
    exact replacer_skip _ ind attrs inner hskip
  · intro c
    rfl
  · rfl

/-- C2 witness: the frame property applied to the rope_1 document, with the
skip-case equation instantiated at a catalog-absent block. -/
theorem C2_only_changed_blocks_replaced_witness :
    ((scanItemBlocks ("<Item identifier=\"x\">v</Item>".data.length + 1)
      "<Item identifier=\"x\">v</Item>".data true).map segSource).flatten =
      "<Item identifier=\"x\">v</Item>".data
    ∧ renderSeg ([("rope_1", "<price>10</price>")].map fun p => (p.1.data, p.2.data))
        (Seg.block [] " identifier=\"x\"".data "v".data) =
      segSource (Seg.block [] " identifier=\"x\"".data "v".data) := by
  constructor
  · exact (C2_only_changed_blocks_replaced [("rope_1", "<price>10</price>")]
      "<Item identifier=\"x\">v</Item>").1
  · exact (C2_only_changed_blocks_replaced [("rope_1", "<price>10</price>")]
      "<Item identifier=\"x\">v</Item>").2.1 [] " identifier=\"x\"".data "v".data
      (by decide)
      (Or.inr (Or.inl ⟨"x".data, by decide, by decide⟩))

/-! ### Words invariance of the formatting transformations -/

theorem replaceCrlf_cons_ne_cr (c : Char) (rest : List Char) (hc : c ≠ '\r') :
    replaceCrlfL (c :: rest) = c :: replaceCrlfL rest := by
  cases rest with
  | nil => simp [replaceCrlfL, hc]
  | cons d rest' => simp [replaceCrlfL, hc]

theorem replaceCrlf_cr_single : replaceCrlfL ['\r'] = ['\r'] := rfl

theorem replaceCrlf_cr_cons (d : Char) (rest : List Char) (hd : d ≠ '\n') :
    replaceCrlfL ('\r' :: d :: rest) = '\r' :: replaceCrlfL (d :: rest) := by
  simp [replaceCrlfL, hd]

theorem replaceCrlf_append_no_cr (A B : List Char) (hA : ∀ c ∈ A, c ≠ '\r') :
    replaceCrlfL (A ++ B) = A ++ replaceCrlfL B := by
  induction A with
  | nil => simp
  | cons a A ih =>
    rw [List.cons_append, replaceCrlf_cons_ne_cr a _ (hA a (by simp))]
    rw [ih fun c hc => hA c (by simp [hc])]
    simp

theorem replaceCrlf_head_space (D : List Char)
    (h : ∀ x xs, D = x :: xs → pyIsSpace x) :
    ∀ y ys, replaceCrlfL D = y :: ys → pyIsSpace y := by
  match D with
  | [] => intro y ys hy; simp [replaceCrlfL] at hy
  | d :: D' =>
    have hd := h d D' rfl
    by_cases hdc : d = '\r'
    · subst hdc
      match D' with
      | [] =>
        intro y ys hy
        rw [replaceCrlf_cr_single] at hy
        injection hy with h1 h2
        rw [← h1]
        simp [pyIsSpace]
      | e :: D'' =>
        by_cases he : e = '\n'
        · subst he
          intro y ys hy
          rw [show replaceCrlfL ('\r' :: '\n' :: D'') = '\n' :: replaceCrlfL D''
            from rfl] at hy
          injection hy with h1 h2
          rw [← h1]
          simp [pyIsSpace]
        · intro y ys hy
          rw [replaceCrlf_cr_cons e D'' he] at hy
          injection hy with h1 h2
          rw [← h1]
          simp [pyIsSpace]
    · intro y ys hy
      rw [replaceCrlf_cons_ne_cr d D' hdc] at hy
      injection hy with h1 h2
      rw [← h1]
      exact hd

theorem words_replaceCrlf (l : List Char) : words (replaceCrlfL l) = words l := by
  have H : ∀ n (l : List Char), l.length ≤ n →
      words (replaceCrlfL l) = words l := by
    intro n
    induction n with
    | zero =>
      intro l hl
      have : l = [] := by cases l <;> simp_all
      subst this
      rfl
    | succ n ih =>
      intro l hl
      match l with
      | [] => rfl
      | c :: cs =>
        by_cases hc : c = '\r'
        · subst hc
          match cs with
          | [] => rfl
          | d :: rest =>
            by_cases hd : d = '\n'
            · subst hd
              rw [show replaceCrlfL ('\r' :: '\n' :: rest) = '\n' :: replaceCrlfL rest
                from rfl]
              rw [words_cons_space '\n' _ (by simp [pyIsSpace])]
              rw [words_cons_space '\r' _ (by simp [pyIsSpace])]
              rw [words_cons_space '\n' _ (by simp [pyIsSpace])]
              exact ih rest (by simp at hl; omega)
            · rw [replaceCrlf_cr_cons d rest hd]
              rw [words_cons_space '\r' _ (by simp [pyIsSpace])]
              rw [words_cons_space '\r' _ (by simp [pyIsSpace])]
              exact ih (d :: rest) (by simp at hl ⊢; omega)
        · rw [replaceCrlf_cons_ne_cr c cs hc]
          by_cases hsp : pyIsSpace c
          · rw [words_cons_space c _ hsp, words_cons_space c _ hsp]
            exact ih cs (by simp at hl; omega)
          · rw [words_cons_nonspace c _ hsp, words_cons_nonspace c _ hsp]
            have hT : ∀ a ∈ cs.takeWhile (fun d => !pyIsSpace d), ¬ pyIsSpace a := by
              intro a ha
              have := mem_takeWhile_sat (fun d => !pyIsSpace d) cs a ha
              simpa using this
            have hTnoCr : ∀ a ∈ cs.takeWhile (fun d => !pyIsSpace d), a ≠ '\r' := by
              intro a ha hcr
              exact hT a ha (by rw [hcr]; simp [pyIsSpace])
            have hsplit : replaceCrlfL cs =
                cs.takeWhile (fun d => !pyIsSpace d) ++
                  replaceCrlfL (cs.dropWhile (fun d => !pyIsSpace d)) := by
              conv_lhs => rw [← List.takeWhile_append_dropWhile (fun d => !pyIsSpace d) cs]
              exact replaceCrlf_append_no_cr _ _ hTnoCr
            have hheadsp : ∀ y ys,
                replaceCrlfL (cs.dropWhile (fun d => !pyIsSpace d)) = y :: ys →
                pyIsSpace y := by
              apply replaceCrlf_head_space
              intro x xs hx
              have := dropWhile_head_neg (fun d => !pyIsSpace d) cs x xs hx
              simpa using this
            have htk : (replaceCrlfL (cs.dropWhile (fun d => !pyIsSpace d))).takeWhile
                (fun d => !pyIsSpace d) = [] := by
              cases hrd : replaceCrlfL (cs.dropWhile (fun d => !pyIsSpace d)) with
              | nil => simp
              | cons y ys =>
                rw [List.takeWhile_cons, if_neg (by simp [hheadsp y ys hrd])]
            have hdp : (replaceCrlfL (cs.dropWhile (fun d => !pyIsSpace d))).dropWhile
                (fun d => !pyIsSpace d) =
                replaceCrlfL (cs.dropWhile (fun d => !pyIsSpace d)) := by
              cases hrd : replaceCrlfL (cs.dropWhile (fun d => !pyIsSpace d)) with
              | nil => simp
              | cons y ys =>
                exact dropWhile_of_neg_head _ y ys (by simp [hheadsp y ys hrd])
            rw [hsplit]
            rw [takeWhile_append_all _ _ _ (by intro a ha; simpa using hT a ha)]
            rw [dropWhile_append_all _ _ _ (by intro a ha; simpa using hT a ha)]
            rw [htk, hdp]
            rw [ih (cs.dropWhile (fun d => !pyIsSpace d))
              (by have := length_dropWhile_le (fun d => !pyIsSpace d) cs
                  simp at hl; omega)]
            simp
  exact H l.length l (le_refl _)

theorem map_id_of_mem (f : Char → Char) (l : List Char)
    (h : ∀ a ∈ l, f a = a) : l.map f = l := by
  induction l with
  | nil => rfl
  | cons c cs ih =>
    rw [List.map_cons, h c (by simp), ih fun a ha => h a (by simp [ha])]

/-- Words are invariant under character maps that preserve whitespace-ness
and fix non-whitespace characters. -/
theorem words_map_ws (f : Char → Char) (h1 : ∀ c, pyIsSpace (f c) = pyIsSpace c)
    (h2 : ∀ c, ¬ pyIsSpace c → f c = c) (l : List Char) :
    words (l.map f) = words l := by
  have H : ∀ n (l : List Char), l.length ≤ n → words (l.map f) = words l := by
    intro n
    induction n with
    | zero =>
      intro l hl
      have : l = [] := by cases l <;> simp_all
      subst this
      rfl
    | succ n ih =>
      intro l hl
      match l with
      | [] => rfl
      | c :: cs =>
        rw [List.map_cons]
        by_cases hsp : pyIsSpace c
        · rw [words_cons_space _ _ (by rw [h1]; exact hsp), words_cons_space _ _ hsp]
          exact ih cs (by simp at hl; omega)
        · rw [h2 c hsp]
          rw [words_cons_nonspace c _ hsp, words_cons_nonspace c _ hsp]
          have hpf : (fun d => !pyIsSpace d) ∘ f = fun d => !pyIsSpace d := by
            funext d
            simp [h1]
          rw [List.takeWhile_map, List.dropWhile_map, hpf]
          rw [map_id_of_mem f _ (by
            intro a ha
            have := mem_takeWhile_sat (fun d => !pyIsSpace d) cs a ha
            exact h2 a (by simpa using this))]
          rw [ih (cs.dropWhile (fun d => !pyIsSpace d))
            (by have := length_dropWhile_le (fun d => !pyIsSpace d) cs
                simp at hl; omega)]
  exact H l.length l (le_refl _)

theorem words_crToLf (l : List Char) : words (crToLfL l) = words l := by
  apply words_map_ws
  · intro c
    by_cases hc : c = '\r' <;> simp [hc, pyIsSpace]
  · intro c hc
    have : ¬ c = '\r' := by
      intro h
      exact hc (by rw [h]; simp [pyIsSpace])
    simp [this]

theorem words_joinNl (ls : List (List Char)) :
    words (joinNl ls) = (ls.map words).flatten := by
  induction ls with
  | nil => simp [joinNl, words_nil]
  | cons l t ih =>
    cases t with
    | nil => simp [joinNl]
    | cons x t' =>
      rw [joinNl_cons_cons]
      rw [words_append_space l _ '\n' (by simp [pyIsSpace])]
      rw [ih]
      simp

theorem splitNlGo_ne_nil (cur l : List Char) : splitNlGo cur l ≠ [] := by
  induction l generalizing cur with
  | nil => simp [splitNlGo]
  | cons c cs ih =>
    by_cases hc : c = '\n' <;> simp [splitNlGo, hc, ih]

theorem joinNl_splitNlGo (l cur : List Char) :
    joinNl (splitNlGo cur l) = cur.reverse ++ l := by
  induction l generalizing cur with
  | nil => simp [splitNlGo, joinNl]
  | cons c cs ih =>
    by_cases hc : c = '\n'
    · subst hc
      rw [show splitNlGo cur ('\n' :: cs) = cur.reverse :: splitNlGo [] cs by
        simp [splitNlGo]]
      cases hsp : splitNlGo [] cs with
      | nil => exact absurd hsp (splitNlGo_ne_nil [] cs)
      | cons b t =>
        rw [joinNl_cons_cons]
        rw [← hsp, ih []]
        simp
    · rw [show splitNlGo cur (c :: cs) = splitNlGo (c :: cur) cs by
        simp [splitNlGo, hc]]
      rw [ih (c :: cur)]
      simp

theorem joinNl_splitNl (l : List Char) : joinNl (splitNl l) = l := by
  have := joinNl_splitNlGo l []
  simpa [splitNl] using this

theorem words_splitNl_flatten (l : List Char) :
    ((splitNl l).map words).flatten = words l := by
  conv_rhs => rw [← joinNl_splitNl l]
  rw [words_joinNl]

theorem words_tabifyLine (l : List Char) : words (tabifyLine l) = words l := by
  unfold tabifyLine
  have hle : 4 * ((l.takeWhile (fun c => c = ' ')).length / 4) ≤
      (l.takeWhile (fun c => c = ' ')).length := by
    have := Nat.div_mul_le_self (l.takeWhile (fun c => c = ' ')).length 4
    omega
  have htake : ∀ k, k ≤ (l.takeWhile (fun c => c = ' ')).length →
      l.take k = (l.takeWhile (fun c => c = ' ')).take k := by
    intro k hk
    conv_lhs => rw [← List.takeWhile_append_dropWhile (fun c => c = ' ') l]
    exact List.take_append_of_le_length hk
  have hsp1 : ∀ c ∈ l.take (4 * ((l.takeWhile (fun c => c = ' ')).length / 4)),
      pyIsSpace c := by
    intro c hc
    rw [htake _ hle] at hc
    have := mem_takeWhile_sat (fun c => c = ' ') l c (List.mem_of_mem_take hc)
    simp at this
    simp [this, pyIsSpace]
  rw [words_space_append _ _ (by
    intro c hc
    rw [List.mem_replicate] at hc
    simp [hc.2, pyIsSpace])]
  conv_rhs => rw [← List.take_append_drop
    (4 * ((l.takeWhile (fun c => c = ' ')).length / 4)) l]
  rw [words_space_append _ _ hsp1]

/-- Words are invariant under the Formatting Normalizer. -/
theorem words_normalize_formattingL (t : List Char) :
    words (normalize_formattingL t) = words t := by
  unfold normalize_formattingL
  rw [words_joinNl]
  rw [show (((splitNl (crToLfL (replaceCrlfL t))).map tabifyLine).map words) =
      ((splitNl (crToLfL (replaceCrlfL t))).map words) by
    rw [List.map_map]
    exact List.map_congr_left fun x _ => words_tabifyLine x]
  rw [words_splitNl_flatten, words_crToLf, words_replaceCrlf]

/-! ### Claim C6: the changed flag -/

/-- C6: a target document is flagged changed iff the whitespace-normalized
original differs from the whitespace-normalized merged text; and texts
differing only in line endings or indentation units (anything the Formatting
Normalizer cancels) have equal canonical forms, hence are judged unchanged. -/
theorem C6_changed_iff_normalized_differ (src_items : List (String × String))
    (original : String) :
    ((update_tar_file src_items original []).2.2.1 = true ↔
      normalize_whitespace original ≠
        normalize_whitespace (update_tar_file src_items original []).2.1)
    ∧ (∀ v : String,
        normalize_whitespace (normalize_formatting v) = normalize_whitespace v)
    ∧ (∀ v1 v2 : String, normalize_formatting v1 = normalize_formatting v2 →
        normalize_whitespace v1 = normalize_whitespace v2) := by
  refine ⟨?_, ?_, ?_⟩
  · show decide (normWsL original.data ≠ _) = true ↔ _
    rw [decide_eq_true_iff]
    constructor
    · intro h hmk
      exact h (congrArg String.data hmk)
    · intro h hdata
      exact h (String.ext_iff.mpr (by exact hdata))
  · intro v
    exact congrArg String.mk
      (normWsL_congr _ _ (words_normalize_formattingL v.data))
  · intro v1 v2 h
    have hdata : normalize_formattingL v1.data = normalize_formattingL v2.data :=
      congrArg String.data h
    apply congrArg String.mk
    apply normWsL_congr
    rw [← words_normalize_formattingL v1.data, ← words_normalize_formattingL v2.data,
      hdata]

/-- C6 witness: two texts differing only in line endings and space-vs-tab
indentation are judged equal by the canonical form. -/
theorem C6_changed_iff_normalized_differ_witness :
    normalize_whitespace "    a\r\nb" = normalize_whitespace "\ta\nb" :=
  (C6_changed_iff_normalized_differ [] "x").2.2 "    a\r\nb" "\ta\nb" (by decide)

/-! ### Line structure lemmas -/

/-- Characters that terminate a line for `str.splitlines`. -/
def isLineBnd (c : Char) : Bool :=
  c = '\n' || c = '\r' || c = '\x0b' || c = '\x0c'

theorem mem_joinNl (ls : List (List Char)) (c : Char) (hc : c ∈ joinNl ls) :
    (∃ l ∈ ls, c ∈ l) ∨ c = '\n' := by
  induction ls with
  | nil => simp [joinNl] at hc
  | cons l t ih =>
    cases t with
    | nil =>
      rw [show joinNl [l] = l from rfl] at hc
      exact Or.inl ⟨l, by simp, hc⟩
    | cons x t' =>
      rw [joinNl_cons_cons] at hc
      rcases List.mem_append.mp hc with h | h
      · exact Or.inl ⟨l, by simp, h⟩
      · rcases List.mem_cons.mp h with rfl | h
        · exact Or.inr rfl
        · rcases ih h with ⟨l', hl', hcl'⟩ | h
          · exact Or.inl ⟨l', by simp [hl'], hcl'⟩
          · exact Or.inr h

theorem splGo_nil (cur : List Char) :
    splGo cur [] = if cur = [] then [] else [cur.reverse] := rfl

theorem splGo_crlf (cur rest : List Char) :
    splGo cur ('\r' :: '\n' :: rest) = cur.reverse :: splGo [] rest := rfl

theorem splGo_cr_single (cur : List Char) :
    splGo cur ['\r'] = cur.reverse :: splGo [] [] := rfl

theorem splGo_cr_cons (cur : List Char) (d : Char) (rest : List Char)
    (hd : d ≠ '\n') :
    splGo cur ('\r' :: d :: rest) = cur.reverse :: splGo [] (d :: rest) := by
  simp [splGo, hd]

theorem splGo_bnd (cur : List Char) (c : Char) (rest : List Char)
    (hc : c ≠ '\r') (hb : isNlBoundary c) :
    splGo cur (c :: rest) = cur.reverse :: splGo [] rest := by
  match c, rest with
  | c, [] => simp [splGo, hc, hb]
  | c, d :: rest' => simp [splGo, hc, hb]

theorem splGo_chr (cur : List Char) (c : Char) (rest : List Char)
    (hc : c ≠ '\r') (hb : ¬ isNlBoundary c) :
    splGo cur (c :: rest) = splGo (c :: cur) rest := by
  match c, rest with
  | c, [] => simp [splGo, hc, hb]
  | c, d :: rest' => simp [splGo, hc, hb]

theorem splGo_line_chars (t : List Char) :
    ∀ (cur : List Char) l, l ∈ splGo cur t → ∀ c ∈ l, c ∈ cur ∨ c ∈ t := by
  have H : ∀ n (t : List Char), t.length ≤ n →
      ∀ (cur : List Char) l, l ∈ splGo cur t → ∀ c ∈ l, c ∈ cur ∨ c ∈ t := by
    intro n
    induction n with
    | zero =>
      intro t ht cur l hl c hc
      have : t = [] := by cases t <;> simp_all
      subst this
      rw [splGo_nil] at hl
      by_cases hcur : cur = []
      · simp [hcur] at hl
      · rw [if_neg hcur] at hl
        simp at hl
        subst hl
        exact Or.inl (List.mem_reverse.mp hc)
    | succ n ih =>
      intro t ht cur l hl c hc
      match t with
      | [] =>
        rw [splGo_nil] at hl
        by_cases hcur : cur = []
        · simp [hcur] at hl
        · rw [if_neg hcur] at hl
          simp at hl
          subst hl
          exact Or.inl (List.mem_reverse.mp hc)
      | a :: t' =>
        by_cases har : a = '\r'
        · subst har
          match t' with
          | [] =>
            rw [splGo_cr_single] at hl
            rcases List.mem_cons.mp hl with rfl | hl
            · exact Or.inl (List.mem_reverse.mp hc)
            · rw [splGo_nil] at hl
              simp at hl
          | d :: rest =>
            by_cases hd : d = '\n'
            · subst hd
              rw [splGo_crlf] at hl
              rcases List.mem_cons.mp hl with rfl | hl
              · exact Or.inl (List.mem_reverse.mp hc)
              · rcases ih rest (by simp at ht; omega) [] l hl c hc with h | h
                · simp at h
                · exact Or.inr (by simp [h])
            · rw [splGo_cr_cons cur d rest hd] at hl
              rcases List.mem_cons.mp hl with rfl | hl
              · exact Or.inl (List.mem_reverse.mp hc)
              · rcases ih (d :: rest) (by simp at ht ⊢; omega) [] l hl c hc with h | h
                · simp at h
                · exact Or.inr (by simp [h])
        · by_cases hb : isNlBoundary a
          · rw [splGo_bnd cur a t' har hb] at hl
            rcases List.mem_cons.mp hl with rfl | hl
            · exact Or.inl (List.mem_reverse.mp hc)
            · rcases ih t' (by simp at ht; omega) [] l hl c hc with h | h
              · simp at h
              · exact Or.inr (by simp [h])
          · rw [splGo_chr cur a t' har hb] at hl
            rcases ih t' (by simp at ht; omega) (a :: cur) l hl c hc with h | h
            · rcases List.mem_cons.mp h with rfl | h
              · exact Or.inr (by simp)
              · exact Or.inl h
            · exact Or.inr (by simp [h])
  exact H t.length t (le_refl _)

theorem splGo_line_no_bnd (t : List Char) :
    ∀ (cur : List Char), (∀ c ∈ cur, ¬ isLineBnd c) →
    ∀ l ∈ splGo cur t, ∀ c ∈ l, ¬ isLineBnd c := by
  have H : ∀ n (t : List Char), t.length ≤ n →
      ∀ (cur : List Char), (∀ c ∈ cur, ¬ isLineBnd c) →
      ∀ l ∈ splGo cur t, ∀ c ∈ l, ¬ isLineBnd c := by
    intro n
    induction n with
    | zero =>
      intro t ht cur hcur l hl c hc
      have : t = [] := by cases t <;> simp_all
      subst this
      rw [splGo_nil] at hl
      by_cases h0 : cur = []
      · simp [h0] at hl
      · rw [if_neg h0] at hl
        simp at hl
        subst hl
        exact hcur c (List.mem_reverse.mp hc)
    | succ n ih =>
      intro t ht cur hcur l hl c hc
      match t with
      | [] =>
        rw [splGo_nil] at hl
        by_cases h0 : cur = []
        · simp [h0] at hl
        · rw [if_neg h0] at hl
          simp at hl
          subst hl
          exact hcur c (List.mem_reverse.mp hc)
      | a :: t' =>
        by_cases har : a = '\r'
        · subst har
          match t' with
          | [] =>
            rw [splGo_cr_single] at hl
            rcases List.mem_cons.mp hl with rfl | hl
            · exact hcur c (List.mem_reverse.mp hc)
            · rw [splGo_nil] at hl
              simp at hl
          | d :: rest =>
            by_cases hd : d = '\n'
            · subst hd
              rw [splGo_crlf] at hl
              rcases List.mem_cons.mp hl with rfl | hl
              · exact hcur c (List.mem_reverse.mp hc)
              · exact ih rest (by simp at ht; omega) [] (by simp) l hl c hc
            · rw [splGo_cr_cons cur d rest hd] at hl
              rcases List.mem_cons.mp hl with rfl | hl
              · exact hcur c (List.mem_reverse.mp hc)
              · exact ih (d :: rest) (by simp at ht ⊢; omega) [] (by simp) l hl c hc
        · by_cases hb : isNlBoundary a
          · rw [splGo_bnd cur a t' har hb] at hl
            rcases List.mem_cons.mp hl with rfl | hl
            · exact hcur c (List.mem_reverse.mp hc)
            · exact ih t' (by simp at ht; omega) [] (by simp) l hl c hc
          · rw [splGo_chr cur a t' har hb] at hl
            refine ih t' (by simp at ht; omega) (a :: cur) ?_ l hl c hc
            intro x hx
            rcases List.mem_cons.mp hx with rfl | hx
            · intro hbnd
              simp [isNlBoundary] at hb
              simp [isLineBnd] at hbnd
              tauto
            · exact hcur x hx
  exact H t.length t (le_refl _)

theorem pyStrip_eq_nil_iff (l : List Char) :
    pyStrip l = [] ↔ ∀ c ∈ l, pyIsSpace c := by
  constructor
  · intro h c hc
    by_contra hns
    cases hdw : l.dropWhile pyIsSpace with
    | nil =>
      have := dropWhile_eq_nil_all pyIsSpace l hdw c hc
      exact hns this
    | cons d E =>
      have hd : ¬ pyIsSpace d := dropWhile_head_neg pyIsSpace l d E hdw
      rw [pyStrip_eq_rstrip_dropWhile, hdw, rstrip_cons_nonspace d E hd] at h
      simp at h
  · intro h
    rw [pyStrip_eq_rstrip_dropWhile, dropWhile_eq_nil_of_all pyIsSpace l h]
    rfl

theorem splitNlGo_no_nl (l : List Char) (hl : '\n' ∉ l) :
    ∀ cur, splitNlGo cur l = [(cur.reverse ++ l)] := by
  induction l with
  | nil => intro cur; simp [splitNlGo]
  | cons c cs ih =>
    intro cur
    have hc : ¬ (c = '\n') := fun h => hl (by simp [h])
    rw [show splitNlGo cur (c :: cs) = splitNlGo (c :: cur) cs by
      simp [splitNlGo, hc]]
    rw [ih (fun h => hl (by simp [h])) (c :: cur)]
    simp

theorem splitNlGo_append_nl (A B : List Char) (hA : '\n' ∉ A) :
    ∀ cur, splitNlGo cur (A ++ '\n' :: B) = (cur.reverse ++ A) :: splitNlGo [] B := by
  induction A with
  | nil =>
    intro cur
    simp [splitNlGo]
  | cons a A' ih =>
    intro cur
    have ha : ¬ (a = '\n') := fun h => hA (by simp [h])
    rw [List.cons_append]
    rw [show splitNlGo cur (a :: (A' ++ '\n' :: B)) =
      splitNlGo (a :: cur) (A' ++ '\n' :: B) by simp [splitNlGo, ha]]
    rw [ih (fun h => hA (by simp [h])) (a :: cur)]
    simp

theorem splitNl_joinNl_blank (ls : List (List Char))
    (h : ∀ l ∈ ls, '\n' ∉ l ∧ (pyStrip l = [] → l = [])) :
    ∀ l' ∈ splitNl (joinNl ls), pyStrip l' = [] → l' = [] := by
  induction ls with
  | nil =>
    intro l' hl' hstrip
    rw [show joinNl [] = [] from rfl] at hl'
    simp [splitNl, splitNlGo] at hl'
    exact hl'
  | cons l t ih =>
    cases t with
    | nil =>
      intro l' hl' hstrip
      rw [show joinNl [l] = l from rfl] at hl'
      unfold splitNl at hl'
      rw [splitNlGo_no_nl l (h l (by simp)).1 []] at hl'
      simp at hl'
      subst hl'
      exact (h l' (by simp)).2 hstrip
    | cons x t' =>
      intro l' hl' hstrip
      rw [joinNl_cons_cons] at hl'
      unfold splitNl at hl'
      rw [splitNlGo_append_nl l _ (h l (by simp)).1 []] at hl'
      simp at hl'
      rcases hl' with rfl | hl'
      · exact (h l' (by simp)).2 hstrip
      · exact ih (fun u hu => h u (by simp [hu])) l' hl' hstrip

/-! ### Claim C10: no carriage returns, whitespace-only lines cleared -/

/-- C10: for every read target document, the modified text returned by
update_tar_file contains no carriage return, and every line consisting only
of whitespace is the empty line — over the whole document, whether or not
any block was replaced. -/
theorem C10_output_normal_form (src_items : List (String × String))
    (original : String) :
    ('\r' ∉ (update_tar_file src_items original []).2.1.data)
    ∧ (∀ l ∈ splitNl (update_tar_file src_items original []).2.1.data,
        pyStrip l = [] → l = []) := by
  have hdata : (update_tar_file src_items original []).2.1.data =
      reindentL (crToLfL (replaceCrlfL
        (itemSubL (src_items.map fun p => (p.1.data, p.2.data)) original.data))) [] :=
    rfl
  have hnocr : ∀ c ∈ crToLfL (replaceCrlfL
      (itemSubL (src_items.map fun p => (p.1.data, p.2.data)) original.data)),
      ¬ (c = '\r') := by
    intro c hc hcr
    subst hcr
    unfold crToLfL at hc
    rcases List.mem_map.mp hc with ⟨d, hd, hdeq⟩
    by_cases hdc : d = '\r' <;> simp [hdc] at hdeq
  have hlines : ∀ l ∈ pySplitlines (crToLfL (replaceCrlfL
      (itemSubL (src_items.map fun p => (p.1.data, p.2.data)) original.data))),
      ∀ c ∈ l, ¬ isLineBnd c := by
    intro l hl c hc
    exact splGo_line_no_bnd _ [] (by simp) l hl c hc
  constructor
  · rw [hdata]
    intro hmem
    unfold reindentL at hmem
    rcases mem_joinNl _ '\r' hmem with ⟨l, hl, hcl⟩ | h
    · rcases List.mem_map.mp hl with ⟨line, hline, hfeq⟩
      by_cases hst : pyStrip line ≠ []
      · rw [if_pos hst] at hfeq
        subst hfeq
        simp at hcl
        exact hlines line hline '\r' hcl (by simp [isLineBnd])
      · rw [if_neg hst] at hfeq
        subst hfeq
        simp at hcl
    · simp at h
  · rw [hdata]
    unfold reindentL
    apply splitNl_joinNl_blank
    intro l hl
    rcases List.mem_map.mp hl with ⟨line, hline, hfeq⟩
    by_cases hst : pyStrip line ≠ []
    · rw [if_pos hst] at hfeq
      subst hfeq
      constructor
      · intro hnl
        simp at hnl
        exact hlines line hline '\n' hnl (by simp [isLineBnd])
      · intro hstrip
        exfalso
        apply hst
        rw [← hstrip]
        simp [pyStrip]
    · rw [if_neg hst] at hfeq
      subst hfeq
      simp

/-- C10 witness: the normal form checked on a concrete document containing a
CRLF and a whitespace-only line. -/
theorem C10_output_normal_form_witness :
    ('\r' ∉ (update_tar_file [] "a\r\n  \nb" []).2.1.data)
    ∧ ((update_tar_file [] "a\r\n  \nb" []).2.1 = "a\n\nb") := by
  constructor
  · exact (C10_output_normal_form [] "a\r\n  \nb").1
  · decide

/-! ### Claim C9: no word boundary in the identifier pattern -/

theorem findIdentifier_cons (c : Char) (cs : List Char) :
    findIdentifier (c :: cs) =
      if identifierKey.isPrefixOf (c :: cs) then
        if ((((c :: cs).drop identifierKey.length).takeWhile
              (fun d => !(d = '"'))).isEmpty
            || ((((c :: cs).drop identifierKey.length).dropWhile
              (fun d => !(d = '"'))).isEmpty)) then
          findIdentifier cs
        else some (((c :: cs).drop identifierKey.length).takeWhile
          (fun d => !(d = '"')))
      else findIdentifier cs := rfl

/-- C9: the identifier pattern has no word-boundary check — whenever the
attribute text contains `identifier="v"` anywhere (also as the tail of a
longer attribute name), an identifier is resolved; concretely,
`nameidentifier="x"` resolves to `x`, makes the block a merge candidate,
records `x` as used, flags the document changed, and is catalogued by the
source extractor. -/
theorem C9_no_word_boundary :
    (∀ (s1 v s2 : List Char), v ≠ [] → '"' ∉ v →
      ∃ w, findIdentifier (s1 ++ identifierKey ++ (v ++ '"' :: s2)) = some w)
    ∧ findIdentifier " nameidentifier=\"x\"".data = some "x".data
    ∧ usedIdsL [("x".data, "b".data)] "<Item nameidentifier=\"x\">a</Item>".data
        = ["x".data]
    ∧ (update_tar_file [("x", "b")] "<Item nameidentifier=\"x\">a</Item>" []).2.2.1
        = true
    ∧ extract_items_from_src ["<Item nameidentifier=\"x\">c</Item>"] = [("x", "c")] := by
  refine ⟨?_, by decide, by decide, by decide, by decide⟩
  intro s1 v s2 hv hq
  induction s1 with
  | nil =>
    rw [List.nil_append]
    have hform : identifierKey ++ (v ++ '"' :: s2) =
        'i' :: (identifierKey.tail ++ (v ++ '"' :: s2)) := rfl
    rw [hform, ← hform, show identifierKey ++ (v ++ '"' :: s2) =
      'i' :: ("dentifier=\"".toList ++ (v ++ '"' :: s2)) from rfl]
    rw [findIdentifier_cons]
    have hpre : identifierKey.isPrefixOf
        ('i' :: ("dentifier=\"".toList ++ (v ++ '"' :: s2))) := by
      apply List.isPrefixOf_iff_prefix.mpr
      exact ⟨v ++ '"' :: s2, rfl⟩
    rw [if_pos hpre]
    have hdrop : ('i' :: ("dentifier=\"".toList ++ (v ++ '"' :: s2))).drop
        identifierKey.length = v ++ '"' :: s2 := rfl
    rw [hdrop]
    have hvp : ∀ a ∈ v, (fun d => !(d = '"')) a := by
      intro a ha
      simp
      intro hc
      exact hq (hc ▸ ha)
    have htk : (v ++ '"' :: s2).takeWhile (fun d => !(d = '"')) = v := by
      rw [takeWhile_append_cons_of_neg _ _ _ '"' (by simp)]
      exact takeWhile_eq_self_of_all _ v hvp
    have hdw : (v ++ '"' :: s2).dropWhile (fun d => !(d = '"')) = '"' :: s2 := by
      rw [dropWhile_append_cons_of_neg _ _ _ '"' (by simp)]
      rw [dropWhile_eq_nil_of_all _ v hvp]
      rfl
    rw [htk, hdw]
    rw [if_neg (by simp [List.isEmpty_iff, hv])]
    exact ⟨v, rfl⟩
  | cons a s1' ih =>
    obtain ⟨w, hw⟩ := ih
    rw [List.cons_append, List.cons_append]
    rw [findIdentifier_cons]
    by_cases h1 : identifierKey.isPrefixOf
        (a :: (s1' ++ identifierKey ++ (v ++ '"' :: s2)))
    · rw [if_pos h1]
      split
      · exact ⟨w, hw⟩
      · exact ⟨_, rfl⟩
    · rw [if_neg h1]
      exact ⟨w, hw⟩

/-- C9 witness: the universal part applied at `nameidentifier="x"`. -/
theorem C9_no_word_boundary_witness :
    ∃ w, findIdentifier (" name".data ++ identifierKey ++ ("x".data ++ '"' :: [])) =
      some w :=
  C9_no_word_boundary.1 " name".data "x".data [] (by decide) (by decide)

/-! ### Claim C5: the missing-identifiers report -/

theorem replacer_some_id (items : List (List Char × List Char))
    (ind attrs inner id0 : List Char) (hfi : findIdentifier attrs = some id0) :
    replacer items ind attrs inner =
      (match dictLookup items id0 with
        | none => (segSource (Seg.block ind attrs inner), none)
        | some src =>
          if normWsL inner = normWsL src then
            (segSource (Seg.block ind attrs inner), some id0)
          else
            (ind ++ openItem ++ attrs ++ '>' ::
              (linesepL ++ reindentL src (ind ++ ['\t']) ++ linesepL ++ ind ++ closeItem),
             some id0)) := by
  unfold replacer
  rw [hfi]

theorem replacer_used_iff (items : List (List Char × List Char))
    (ind attrs inner ident : List Char) :
    (replacer items ind attrs inner).2 = some ident ↔
      findIdentifier attrs = some ident ∧ dictLookup items ident ≠ none := by
  cases hfi : findIdentifier attrs with
  | none =>
    unfold replacer
    rw [hfi]
    simp
  | some id0 =>
    rw [replacer_some_id items ind attrs inner id0 hfi]
    cases hlk : dictLookup items id0 with
    | none =>
      constructor
      · intro h
        simp at h
      · rintro ⟨hident, hne⟩
        injection hident with hident
        subst hident
        exact absurd hlk hne
    | some src =>
      by_cases heq : normWsL inner = normWsL src
      · constructor
        · intro h
          simp [heq] at h
          subst h
          exact ⟨rfl, by rw [hlk]; simp⟩
        · rintro ⟨hident, hne⟩
          injection hident with hident
          subst hident
          simp [heq]
      · constructor
        · intro h
          simp [heq] at h
          subst h
          exact ⟨rfl, by rw [hlk]; simp⟩
        · rintro ⟨hident, hne⟩
          injection hident with hident
          subst hident
          simp [heq]

theorem mem_usedIdsL (items : List (List Char × List Char)) (s ident : List Char) :
    ident ∈ usedIdsL items s ↔
      ∃ ind attrs inner,
        Seg.block ind attrs inner ∈ scanItemBlocks (s.length + 1) s true ∧
        findIdentifier attrs = some ident ∧ dictLookup items ident ≠ none := by
  unfold usedIdsL
  rw [List.mem_flatten]
  constructor
  · rintro ⟨l, hl, hil⟩
    rcases List.mem_map.mp hl with ⟨seg, hseg, rfl⟩
    match seg with
    | .raw c => simp [usedOfSeg] at hil
    | .block ind attrs inner =>
      unfold usedOfSeg at hil
      replace hil : ident ∈ (match (replacer items ind attrs inner).2 with
        | some ident => [ident]
        | none => ([] : List (List Char))) := hil
      cases hrep : (replacer items ind attrs inner).2 with
      | none => rw [hrep] at hil; simp at hil
      | some id0 =>
        rw [hrep] at hil
        simp at hil
        obtain ⟨h1, h2⟩ := (replacer_used_iff items ind attrs inner ident).mp
          (by rw [hrep, hil])
        exact ⟨ind, attrs, inner, hseg, h1, h2⟩
  · rintro ⟨ind, attrs, inner, hseg, h1, h2⟩
    refine ⟨usedOfSeg items (Seg.block ind attrs inner),
      List.mem_map.mpr ⟨Seg.block ind attrs inner, hseg, rfl⟩, ?_⟩
    show ident ∈ (match (replacer items ind attrs inner).2 with
      | some ident => [ident]
      | none => ([] : List (List Char)))
    rw [(replacer_used_iff items ind attrs inner ident).mpr ⟨h1, h2⟩]
    simp

theorem dictLookup_ne_none_of_mem_keys (d : List (List Char × List Char))
    (k : List Char) (h : k ∈ d.map (fun p => p.1)) : dictLookup d k ≠ none := by
  rcases List.mem_map.mp h with ⟨p, hp, hpk⟩
  unfold dictLookup
  cases hfind : d.find? (fun q => q.1 == k) with
  | some q => simp
  | none =>
    exfalso
    have := List.find?_eq_none.mp hfind p hp
    simp [hpk] at this

theorem mem_insertSortedStr (x y : String) (l : List String) :
    x ∈ insertSortedStr y l ↔ x = y ∨ x ∈ l := by
  induction l with
  | nil => simp [insertSortedStr]
  | cons z zs ih =>
    unfold insertSortedStr
    by_cases h : y ≤ z
    · simp [h]
    · rw [if_neg h]
      simp [ih]
      tauto

theorem mem_sortStrings (x : String) (l : List String) :
    x ∈ sortStrings l ↔ x ∈ l := by
  induction l with
  | nil => simp [sortStrings]
  | cons y ys ih =>
    unfold sortStrings at ih ⊢
    rw [show (y :: ys).foldr insertSortedStr [] =
      insertSortedStr y (ys.foldr insertSortedStr []) from rfl]
    rw [mem_insertSortedStr, ih]
    simp

theorem sorted_insertSortedStr (y : String) (l : List String)
    (h : List.Sorted (fun a b : String => a ≤ b) l) :
    List.Sorted (fun a b : String => a ≤ b) (insertSortedStr y l) := by
  induction l with
  | nil => simp [insertSortedStr]
  | cons z zs ih =>
    unfold insertSortedStr
    by_cases hyz : y ≤ z
    · rw [if_pos hyz]
      rw [List.sorted_cons]
      refine ⟨?_, h⟩
      intro b hb
      rcases List.mem_cons.mp hb with rfl | hb
      · exact hyz
      · exact le_trans hyz ((List.sorted_cons.mp h).1 b hb)
    · rw [if_neg hyz]
      rw [List.sorted_cons]
      obtain ⟨hz, hzs⟩ := List.sorted_cons.mp h
      refine ⟨?_, ih hzs⟩
      intro b hb
      rcases (mem_insertSortedStr b y zs).mp hb with rfl | hb
      · exact le_of_not_le hyz
      · exact hz b hb

theorem sorted_sortStrings (l : List String) :
    List.Sorted (fun a b : String => a ≤ b) (sortStrings l) := by
  induction l with
  | nil => simp [sortStrings]
  | cons y ys ih =>
    unfold sortStrings at ih ⊢
    rw [show (y :: ys).foldr insertSortedStr [] =
      insertSortedStr y (ys.foldr insertSortedStr []) from rfl]
    exact sorted_insertSortedStr y _ ih

theorem count_insertSortedStr (x y : String) (l : List String) :
    (insertSortedStr y l).count x = l.count x + (if x = y then 1 else 0) := by
  induction l with
  | nil => by_cases h : x = y <;> simp [insertSortedStr, h, List.count_cons]
  | cons z zs ih =>
    unfold insertSortedStr
    by_cases h : y ≤ z
    · rw [if_pos h]
      by_cases hxy : x = y
      · simp [List.count_cons, hxy]
      · simp [List.count_cons, hxy, Ne.symm hxy]
    · rw [if_neg h]
      rw [List.count_cons, List.count_cons, ih]
      by_cases hxy : x = y
      · simp [hxy]
        omega
      · simp [hxy, Ne.symm hxy]

theorem count_sortStrings (x : String) (l : List String) :
    (sortStrings l).count x = l.count x := by
  induction l with
  | nil => simp [sortStrings]
  | cons y ys ih =>
    unfold sortStrings at ih ⊢
    rw [show (y :: ys).foldr insertSortedStr [] =
      insertSortedStr y (ys.foldr insertSortedStr []) from rfl]
    rw [count_insertSortedStr, ih, List.count_cons]
    by_cases h : x = y
    · simp [h]
    · simp [h, Ne.symm h]

/-- C5: an identifier appears in the missing-identifiers report iff it is a
catalog key and no scanned target block carries it; the report is sorted and
lists each such identifier exactly once. -/
theorem C5_missing_report_characterization (srcs tars : List String) (ident : String) :
    (ident ∈ missingIds (srcs.map String.data) (tars.map String.data) ↔
      (ident.data ∈ (extract_items_from_srcL (srcs.map String.data)).map
        (fun p => p.1) ∧
       ¬ ∃ tar ∈ tars, ∃ ind attrs inner,
          Seg.block ind attrs inner ∈
            scanItemBlocks (tar.data.length + 1) tar.data true ∧
          findIdentifier attrs = some ident.data))
    ∧ List.Sorted (fun a b : String => a ≤ b)
        (missingIds (srcs.map String.data) (tars.map String.data))
    ∧ (ident ∈ missingIds (srcs.map String.data) (tars.map String.data) →
        (missingIds (srcs.map String.data) (tars.map String.data)).count ident = 1) := by
  have hused : ∀ k : List Char,
      k ∈ runUsed (extract_items_from_srcL (srcs.map String.data))
        (tars.map String.data) ↔
      ∃ tar ∈ tars, ∃ ind attrs inner,
        Seg.block ind attrs inner ∈
          scanItemBlocks (tar.data.length + 1) tar.data true ∧
        findIdentifier attrs = some k ∧
        dictLookup (extract_items_from_srcL (srcs.map String.data)) k ≠ none := by
    intro k
    unfold runUsed
    rw [List.mem_flatten]
    constructor
    · rintro ⟨l, hl, hkl⟩
      rcases List.mem_map.mp hl with ⟨tard, htar, rfl⟩
      rcases List.mem_map.mp htar with ⟨tar, htar2, rfl⟩
      obtain ⟨ind, attrs, inner, hseg, h1, h2⟩ :=
        (mem_usedIdsL _ tar.data k).mp hkl
      exact ⟨tar, htar2, ind, attrs, inner, hseg, h1, h2⟩
    · rintro ⟨tar, htar, ind, attrs, inner, hseg, h1, h2⟩
      refine ⟨usedIdsL (extract_items_from_srcL (srcs.map String.data)) tar.data,
        List.mem_map.mpr ⟨tar.data, List.mem_map.mpr ⟨tar, htar, rfl⟩, rfl⟩, ?_⟩
      exact (mem_usedIdsL _ tar.data k).mpr ⟨ind, attrs, inner, hseg, h1, h2⟩
  have hmem : ∀ x : String,
      x ∈ missingIds (srcs.map String.data) (tars.map String.data) ↔
      x.data ∈ ((extract_items_from_srcL (srcs.map String.data)).map
        (fun p => p.1)).dedup ∧
      ¬ x.data ∈ runUsed (extract_items_from_srcL (srcs.map String.data))
        (tars.map String.data) := by
    intro x
    unfold missingIds
    rw [mem_sortStrings, List.mem_map]
    constructor
    · rintro ⟨k, hk, rfl⟩
      obtain ⟨hk1, hk2⟩ := List.mem_filter.mp hk
      simp at hk2
      exact ⟨hk1, fun hc => hk2 hc⟩
    · rintro ⟨h1, h2⟩
      refine ⟨x.data, List.mem_filter.mpr ⟨h1, ?_⟩, rfl⟩
      simp
      exact h2
  refine ⟨?_, ?_, ?_⟩
  · rw [hmem ident, List.mem_dedup]
    constructor
    · rintro ⟨h1, h2⟩
      refine ⟨h1, ?_⟩
      rintro ⟨tar, htar, ind, attrs, inner, hseg, hfi⟩
      apply h2
      rw [hused ident.data]
      exact ⟨tar, htar, ind, attrs, inner, hseg, hfi,
        dictLookup_ne_none_of_mem_keys _ _ h1⟩
    · rintro ⟨h1, h2⟩
      refine ⟨h1, ?_⟩
      intro hc
      rw [hused ident.data] at hc
      obtain ⟨tar, htar, ind, attrs, inner, hseg, hfi, _⟩ := hc
      exact h2 ⟨tar, htar, ind, attrs, inner, hseg, hfi⟩
  · exact sorted_sortStrings _
  · intro hmemi
    unfold missingIds at hmemi ⊢
    rw [count_sortStrings]
    rw [mem_sortStrings] at hmemi
    apply List.count_eq_one_of_mem
    · apply List.Nodup.map
      · intro a b hab
        have : (⟨a⟩ : String).data = (⟨b⟩ : String).data := congrArg String.data hab
        exact this
      · exact List.Nodup.filter _ (List.nodup_dedup _)
    · exact hmemi

/-! ### First-occurrence positioning lemmas -/

theorem prefix_of_append_of_le (p X Y : List Char) (h : p <+: X ++ Y)
    (hl : p.length ≤ X.length) : p <+: X := by
  obtain ⟨t, ht⟩ := h
  have hp : p = (X ++ Y).take p.length := by
    rw [← ht]
    simp
  rw [hp, List.take_append_of_le_length hl]
  exact List.take_prefix _ _

theorem append_prefix_of_ge (p X Y : List Char) (h : p <+: X ++ Y)
    (hl : X.length ≤ p.length) : X <+: p ∧ p.drop X.length <+: Y := by
  obtain ⟨t, ht⟩ := h
  constructor
  · have hx : X = (p ++ t).take X.length := by
      rw [ht]
      rw [List.take_append_of_le_length]
      · simp
      · simp
    rw [hx, List.take_append_of_le_length hl]
    exact List.take_prefix _ _
  · have h2 := congrArg (List.drop X.length) ht
    rw [List.drop_append_of_le_length hl,
      List.drop_append_of_le_length (le_refl _)] at h2
    simp at h2
    exact ⟨t, h2⟩

/-- No pattern matches strictly inside `A` in `A ++ p0 ++ B`, provided no
pattern occurs inside `A` alone and no pattern straddles the boundary
(controlled by the non-overlap condition against `p0`). -/
theorem no_early_match (pats : List (List Char)) (A p0 B : List Char)
    (hne : ∀ p ∈ pats, p ≠ [])
    (hA : ¬ hasOccur pats A)
    (hspan : ∀ p ∈ pats, ∀ m, m < p.length → 0 < m →
      ¬ (p.drop m <+: p0) ∧ ¬ (p0 <+: p.drop m)) :
    ∀ k, k < A.length → firstMatchAt pats ((A ++ p0 ++ B).drop k) = none := by
  intro k hk
  cases hfm : firstMatchAt pats ((A ++ p0 ++ B).drop k) with
  | none => rfl
  | some p =>
    exfalso
    obtain ⟨hp, hpre⟩ := firstMatchAt_eq_some pats _ p hfm
    rw [List.append_assoc, List.drop_append_of_le_length (by omega)] at hpre
    by_cases hlen : p.length ≤ (A.drop k).length
    · have hpA : p <+: A.drop k := prefix_of_append_of_le p _ _ hpre hlen
      obtain ⟨b', hb'⟩ := hpA
      apply hA
      refine ⟨A.take k, p, b', hp, ?_⟩
      rw [List.append_assoc, hb', List.take_append_drop]
    · have hge := append_prefix_of_ge _ _ _ hpre (by omega)
      have hm : 0 < (A.drop k).length := by simp; omega
      have hmlt : (A.drop k).length < p.length := by omega
      have hsp := hspan p hp (A.drop k).length hmlt hm
      by_cases hlen2 : (p.drop (A.drop k).length).length ≤ p0.length
      · exact hsp.1 (prefix_of_append_of_le _ p0 B hge.2 hlen2)
      · exact hsp.2 (append_prefix_of_ge _ p0 B hge.2 (by omega)).1

theorem splitAtFirstAny_pos (pats : List (List Char))
    (hne : ∀ p ∈ pats, p ≠ []) :
    ∀ (A rest' p1 : List Char),
    (∀ k, k < A.length → firstMatchAt pats ((A ++ rest').drop k) = none) →
    firstMatchAt pats rest' = some p1 →
    splitAtFirstAny pats (A ++ rest') = some (A, p1, rest'.drop p1.length) := by
  intro A
  induction A with
  | nil =>
    intro rest' p1 hk hf
    match rest' with
    | [] =>
      exfalso
      obtain ⟨hp, hpre⟩ := firstMatchAt_eq_some pats [] p1 hf
      exact hne p1 hp (List.prefix_nil.mp hpre)
    | c :: cs =>
      rw [List.nil_append]
      rw [splitAtFirstAny]
      rw [hf]
  | cons a A' ih =>
    intro rest' p1 hk hf
    rw [List.cons_append, splitAtFirstAny]
    have h0 : firstMatchAt pats (a :: (A' ++ rest')) = none := by
      have := hk 0 (by simp)
      simpa using this
    rw [h0]
    rw [ih rest' p1 (fun k hkl => by
      have := hk (k + 1) (by simp; omega)
      simpa using this) hf]

/-! ### Claim C8: component removal -/

theorem removeComponentsGo_nil (fuel : Nat) : removeComponentsGo fuel [] = [] := by
  cases fuel <;> rfl

theorem removeComponentsGo_succ_open (fuel : Nat) (c : Char) (cs after pre p rest : List Char)
    (h : tryOpenComponent (c :: cs) = some after)
    (hsp : splitAtFirstAny [closeFab, closeDec] after = some (pre, p, rest)) :
    removeComponentsGo (fuel + 1) (c :: cs) = removeComponentsGo fuel rest := by
  simp [removeComponentsGo, h, hsp]

theorem removeComponentsGo_succ_noclose (fuel : Nat) (c : Char) (cs after : List Char)
    (h : tryOpenComponent (c :: cs) = some after)
    (hsp : splitAtFirstAny [closeFab, closeDec] after = none) :
    removeComponentsGo (fuel + 1) (c :: cs) = c :: removeComponentsGo fuel cs := by
  simp [removeComponentsGo, h, hsp]

theorem removeComponentsGo_succ_noopen (fuel : Nat) (c : Char) (cs : List Char)
    (h : tryOpenComponent (c :: cs) = none) :
    removeComponentsGo (fuel + 1) (c :: cs) = c :: removeComponentsGo fuel cs := by
  simp [removeComponentsGo, h]

theorem tryOpenComponent_some_decomp (s after : List Char)
    (h : tryOpenComponent s = some after) :
    (s = openFab ++ after ∨ s = openDec ++ after) := by
  unfold tryOpenComponent at h
  by_cases h1 : openFab.isPrefixOf s ∧ wordBoundaryAfter (s.drop openFab.length)
  · rw [if_pos (by simp [h1.1, h1.2])] at h
    simp at h
    left
    obtain ⟨t, ht⟩ := List.isPrefixOf_iff_prefix.mp h1.1
    rw [← ht] at h ⊢
    rw [List.drop_left] at h
    rw [h]
  · rw [if_neg (by
      intro hc
      simp at hc
      exact h1 ⟨List.isPrefixOf_iff_prefix.mpr hc.1, hc.2⟩)] at h
    by_cases h2 : openDec.isPrefixOf s ∧ wordBoundaryAfter (s.drop openDec.length)
    · rw [if_pos (by simp [h2.1, h2.2])] at h
      simp at h
      right
      obtain ⟨t, ht⟩ := List.isPrefixOf_iff_prefix.mp h2.1
      rw [← ht] at h ⊢
      rw [List.drop_left] at h
      rw [h]
    · rw [if_neg (by
        intro hc
        simp at hc
        exact h2 ⟨List.isPrefixOf_iff_prefix.mpr hc.1, hc.2⟩)] at h
      simp at h

theorem splitAtFirstAny_rest_short (pats : List (List Char)) (s pre p rest : List Char)
    (hne : ∀ q ∈ pats, q ≠ [])
    (h : splitAtFirstAny pats s = some (pre, p, rest)) :
    rest.length < s.length := by
  obtain ⟨hp, hdec⟩ := splitAtFirstAny_some_decomp pats s pre p rest h
  have := congrArg List.length hdec
  simp [List.length_append] at this
  have hpne : p.length ≠ 0 := by
    intro h0
    exact hne p hp (List.length_eq_zero.mp h0)
  omega

theorem removeComponentsGo_fuel (f1 : Nat) :
    ∀ (f2 : Nat) (s : List Char), s.length ≤ f1 → s.length ≤ f2 →
    removeComponentsGo f1 s = removeComponentsGo f2 s := by
  induction f1 with
  | zero =>
    intro f2 s h1 h2
    have : s = [] := by cases s <;> simp_all
    subst this
    rw [removeComponentsGo_nil, removeComponentsGo_nil]
  | succ f1 ih =>
    intro f2 s h1 h2
    match s with
    | [] => rw [removeComponentsGo_nil, removeComponentsGo_nil]
    | c :: cs =>
      match f2 with
      | 0 => simp at h2
      | f2 + 1 =>
        cases hop : tryOpenComponent (c :: cs) with
        | none =>
          rw [removeComponentsGo_succ_noopen f1 c cs hop,
            removeComponentsGo_succ_noopen f2 c cs hop]
          rw [ih f2 cs (by simp at h1; omega) (by simp at h2; omega)]
        | some after =>
          cases hsp : splitAtFirstAny [closeFab, closeDec] after with
          | none =>
            rw [removeComponentsGo_succ_noclose f1 c cs after hop hsp,
              removeComponentsGo_succ_noclose f2 c cs after hop hsp]
            rw [ih f2 cs (by simp at h1; omega) (by simp at h2; omega)]
          | some val =>
            obtain ⟨pre, p, rest⟩ := val
            rw [removeComponentsGo_succ_open f1 c cs after pre p rest hop hsp,
              removeComponentsGo_succ_open f2 c cs after pre p rest hop hsp]
            have hlen : rest.length < after.length :=
              splitAtFirstAny_rest_short [closeFab, closeDec] after pre p rest
                (by intro q hq
                    simp at hq
                    rcases hq with rfl | rfl
                    · simp [closeFab]
                    · simp [closeDec]) hsp
            have hafter : after.length ≤ cs.length := by
              rcases tryOpenComponent_some_decomp (c :: cs) after hop with hd | hd <;>
              · have := congrArg List.length hd
                simp [List.length_append, openFab, openDec] at this
                omega
            rw [ih f2 rest (by simp at h1; omega) (by simp at h2; omega)]

/-- C8 counterexample: an excluded element nested inside another excluded
element is not removed in full — removal stops at the first excluded closing
tag, leaving the outer closing tag behind, which then reaches the catalog. -/
theorem C8_counterexample_nested_excluded :
    removeComponentsL "<Fabricate><Deconstruct>x</Deconstruct></Fabricate>".data
      = "</Fabricate>".data
    ∧ extract_items_from_src
        ["<Item identifier=\"a\"><Fabricate><Deconstruct>x</Deconstruct></Fabricate></Item>"]
      = [("a", "</Fabricate>")]
    ∧ ("</Fabricate>" : String) ≠ "" := by
  refine ⟨by decide, by decide, by decide⟩

theorem firstMatchAt_closeFab (rest : List Char) :
    firstMatchAt [closeFab, closeDec] (closeFab ++ rest) = some closeFab := by
  unfold firstMatchAt
  rw [List.find?_cons]
  simp [List.isPrefixOf_iff_prefix.mpr (List.prefix_append closeFab rest)]

/-- C8 amended: removal is non-greedy up to the first closing tag of either
excluded element.  An excluded element whose body contains no excluded
closing tag is removed in full together with any nested content, and the
remainder is trimmed and stored keyed by the identifier; but nesting an
excluded element inside another leaves the outer closing tag behind. -/
theorem C8_amended_nongreedy_removal :
    (∀ (attrsContent rest : List Char),
      wordBoundaryAfter (attrsContent ++ (closeFab ++ rest)) →
      ¬ hasOccur [closeFab, closeDec] attrsContent →
      removeComponentsL (openFab ++ (attrsContent ++ (closeFab ++ rest))) =
        removeComponentsL rest)
    ∧ removeComponentsL "<Fabricate a><price>1</price></Fabricate>z".data = "z".data
    ∧ extract_items_from_src
        ["<Item identifier=\"a\"><Fabricate><price>1</price></Fabricate> <price>2</price></Item>"]
      = [("a", "<price>2</price>")] := by
  refine ⟨?_, by decide, by decide⟩
  intro attrsContent rest hwb hocc
  have hopen : tryOpenComponent (openFab ++ (attrsContent ++ (closeFab ++ rest))) =
      some (attrsContent ++ (closeFab ++ rest)) := by
    unfold tryOpenComponent
    rw [if_pos]
    · rw [List.drop_left]
    · rw [List.drop_left]
      simp [List.isPrefixOf_iff_prefix.mpr (List.prefix_append _ _), hwb]
  have hkearly := no_early_match [closeFab, closeDec] attrsContent closeFab rest
    (by intro q hq
        simp at hq
        rcases hq with rfl | rfl
        · simp [closeFab]
        · simp [closeDec])
    hocc
    (by intro q hq
        simp at hq
        rcases hq with rfl | rfl
        · decide
        · decide)
  have hsplit : splitAtFirstAny [closeFab, closeDec]
      (attrsContent ++ (closeFab ++ rest)) =
      some (attrsContent, closeFab, (closeFab ++ rest).drop closeFab.length) := by
    apply splitAtFirstAny_pos [closeFab, closeDec]
      (by intro q hq
          simp at hq
          rcases hq with rfl | rfl
          · simp [closeFab]
          · simp [closeDec])
      attrsContent (closeFab ++ rest) closeFab
      (by intro k hkl
          have := hkearly k hkl
          rw [List.append_assoc] at this
          exact this)
      (firstMatchAt_closeFab rest)
  rw [List.drop_left] at hsplit
  unfold removeComponentsL
  rw [show openFab ++ (attrsContent ++ (closeFab ++ rest)) =
    '<' :: ("Fabricate".toList ++ (attrsContent ++ (closeFab ++ rest))) from rfl]
  have hflen : ('<' :: ("Fabricate".toList ++ (attrsContent ++ (closeFab ++ rest)))).length + 1
      = (('<' :: ("Fabricate".toList ++ (attrsContent ++ (closeFab ++ rest)))).length) + 1 := rfl
  rw [show ('<' :: ("Fabricate".toList ++ (attrsContent ++ (closeFab ++ rest)))).length + 1
      = ('<' :: ("Fabricate".toList ++ (attrsContent ++ (closeFab ++ rest)))).length + 1 from rfl]
  rw [removeComponentsGo_succ_open
    (('<' :: ("Fabricate".toList ++ (attrsContent ++ (closeFab ++ rest)))).length)
    '<' ("Fabricate".toList ++ (attrsContent ++ (closeFab ++ rest)))
    (attrsContent ++ (closeFab ++ rest)) attrsContent closeFab rest hopen hsplit]
  apply removeComponentsGo_fuel
  · simp [List.length_append]
    omega
  · omega

/-- C8 witness: the amended removal equation applied at a concrete clean
component. -/
theorem C8_amended_nongreedy_removal_witness :
    removeComponentsL (openFab ++ (">q".data ++ (closeFab ++ "tail".data))) =
      removeComponentsL "tail".data :=
  C8_amended_nongreedy_removal.1 ">q".data "tail".data (by decide)
    (splitAtFirstAny_none_no_occur [closeFab, closeDec] ">q".data
      (by decide) (by decide))

/-! ### Claim C3: the formatting normalizer and the merge pipeline -/

/-- C3 counterexample: the merge engine does not apply the Formatting
Normalizer to the post-merge text — the returned text keeps a four-space
leading group, so it is not a fixed point of normalize_formatting, and the
changed flag is computed without it. -/
theorem C3_counterexample_no_tabify :
    (update_tar_file [] "    a" []).2.1 = "    a"
    ∧ normalize_formatting "    a" = "\ta"
    ∧ normalize_formatting ((update_tar_file [] "    a" []).2.1) ≠
        (update_tar_file [] "    a" []).2.1
    ∧ (update_tar_file [] "    a" []).2.1 ≠ normalize_formatting "    a" := by
  refine ⟨by decide, by decide, by decide, by decide⟩

/-- C3 amended: normalize_formatting (the Formatting Normalizer of the
tag-content patcher) unifies line endings and converts four-space leading
groups to tabs; the merge engine instead post-processes only the merged text,
and only by CRLF and CR to LF replacement and blank-line clearing, leaves the
pre-merge text raw, and computes the changed flag from whitespace-normalized
forms — which still guarantees that texts equal up to the Formatting
Normalizer never produce a changed flag. -/
theorem C3_amended_formatting_pipeline (src_items : List (String × String))
    (original : String) :
    (((update_tar_file src_items original []).2.1).data =
      reindentL (crToLfL (replaceCrlfL
        (itemSubL (src_items.map fun p => (p.1.data, p.2.data)) original.data))) [])
    ∧ (∀ v : String, normalize_formatting v =
        ⟨joinNl ((splitNl (crToLfL (replaceCrlfL v.data))).map tabifyLine)⟩)
    ∧ (normalize_formatting original =
        normalize_formatting (update_tar_file src_items original []).2.1 →
        (update_tar_file src_items original []).2.2.1 = false) := by
  refine ⟨rfl, fun v => rfl, ?_⟩
  intro h
  have hdata : normalize_formattingL original.data =
      normalize_formattingL ((update_tar_file src_items original []).2.1).data :=
    congrArg String.data h
  have hw : words original.data =
      words ((update_tar_file src_items original []).2.1).data := by
    rw [← words_normalize_formattingL original.data,
      ← words_normalize_formattingL ((update_tar_file src_items original []).2.1).data,
      hdata]
  show decide (normWsL original.data ≠ _) = false
  rw [decide_eq_false_iff_not]
  intro hne
  exact hne (normWsL_congr _ _ hw)

/-- C3 witness: the amended pipeline facts applied at a document whose merge
output differs from it only by formatting. -/
theorem C3_amended_formatting_pipeline_witness :
    (update_tar_file [] "a\r\nb" []).2.2.1 = false :=
  (C3_amended_formatting_pipeline [] "a\r\nb").2.2 (by decide)

/-- C5 witness: the report characterization applied at a concrete run with
one stale catalog identifier. -/
theorem C5_missing_report_characterization_witness :
    (missingIds (["<Item identifier=\"b\">x</Item>"].map String.data)
      (["y"].map String.data)).count "b" = 1 :=
  (C5_missing_report_characterization ["<Item identifier=\"b\">x</Item>"] ["y"] "b").2.2
    (by decide)

/-! ### Claim C4: idempotence of the merge.

The merge as implemented is not idempotent in general; the amended statement
requires (H1) no CR/VT/FF in the document, (H2) whitespace-only lines empty,
(H3) no trailing double newline, (H4) no catalog value containing the
closing tag.  The development below establishes that under these conditions
a second run is a no-op. -/

/-- A character the splitlines pass would rewrite: CR, VT or FF. -/
def isBadChar (c : Char) : Bool := c = '\r' || c = '\x0b' || c = '\x0c'

/-- Rendered output of the scan at a given fuel. -/
def renderScanL (items : List (List Char × List Char)) (fuel : Nat)
    (x : List Char) (b : Bool) : List Char :=
  ((scanItemBlocks fuel x b).map (renderSeg items)).flatten

theorem itemSubL_eq_renderScanL (items : List (List Char × List Char))
    (s : List Char) : itemSubL items s = renderScanL items (s.length + 1) s true := rfl

/-- Every scanned block is a skip block (no identifier, unknown identifier,
or content already in sync). -/
def AllSkip (items : List (List Char × List Char)) (x : List Char) (b : Bool) : Prop :=
  ∀ ind attrs inner, Seg.block ind attrs inner ∈
    scanItemBlocks (x.length + 1) x b → skipBlock items attrs inner

theorem scanItemBlocks_fuel (f1 : Nat) :
    ∀ (f2 : Nat) (s : List Char) (b : Bool), s.length ≤ f1 → s.length ≤ f2 →
    scanItemBlocks f1 s b = scanItemBlocks f2 s b := by
  induction f1 with
  | zero =>
    intro f2 s b h1 h2
    have : s = [] := by cases s <;> simp_all
    subst this
    rw [scanItemBlocks_nil, scanItemBlocks_nil]
  | succ f1 ih =>
    intro f2 s b h1 h2
    match s with
    | [] => rw [scanItemBlocks_nil, scanItemBlocks_nil]
    | c :: cs =>
      match f2 with
      | 0 => simp at h2
      | f2 + 1 =>
        cases b with
        | false =>
          rw [scanItemBlocks_succ_false, scanItemBlocks_succ_false]
          rw [ih f2 cs _ (by simp at h1; omega) (by simp at h2; omega)]
        | true =>
          cases htm : tryMatch (c :: cs) with
          | none =>
            rw [scanItemBlocks_succ_none f1 c cs htm,
              scanItemBlocks_succ_none f2 c cs htm]
            rw [ih f2 cs _ (by simp at h1; omega) (by simp at h2; omega)]
          | some m =>
            rw [scanItemBlocks_succ_some f1 c cs m htm,
              scanItemBlocks_succ_some f2 c cs m htm]
            have h13 := tryMatch_rest_length (c :: cs) m htm
            rw [ih f2 m.rest _ (by simp at h1 h13 ⊢; omega)
              (by simp at h2 h13 ⊢; omega)]

theorem renderScanL_fuel (items : List (List Char × List Char)) (f1 f2 : Nat)
    (s : List Char) (b : Bool) (h1 : s.length ≤ f1) (h2 : s.length ≤ f2) :
    renderScanL items f1 s b = renderScanL items f2 s b := by
  unfold renderScanL
  rw [scanItemBlocks_fuel f1 f2 s b h1 h2]

/-- Scanning with the `false` flag over text with no newline yields raw
characters only. -/
theorem scan_false_no_nl (fuel : Nat) :
    ∀ (x : List Char), x.length ≤ fuel → '\n' ∉ x →
    scanItemBlocks fuel x false = x.map Seg.raw := by
  induction fuel with
  | zero =>
    intro x h1 _
    have : x = [] := by cases x <;> simp_all
    subst this
    rw [scanItemBlocks_nil]
    rfl
  | succ fuel ih =>
    intro x h1 hnl
    match x with
    | [] => rw [scanItemBlocks_nil]; rfl
    | c :: cs =>
      rw [scanItemBlocks_succ_false]
      have hc : ¬ (c = '\n') := fun h => hnl (by simp [h])
      simp [hc]
      exact ih cs (by simp at h1; omega) (fun h => hnl (by simp [h]))

/-- Rendering raw segments is the identity. -/
theorem render_map_raw (items : List (List Char × List Char)) (x : List Char) :
    ((x.map Seg.raw).map (renderSeg items)).flatten = x := by
  induction x with
  | nil => rfl
  | cons c cs ih =>
    simp only [List.map_cons, List.flatten_cons]
    rw [ih]
    rfl

/-- The scan of a nonempty document is nonempty. -/
theorem scan_ne_nil (fuel : Nat) (c : Char) (cs : List Char) (b : Bool) :
    scanItemBlocks fuel (c :: cs) b ≠ [] := by
  match fuel with
  | 0 => simp [scanItemBlocks]
  | fuel + 1 =>
    cases b with
    | false => rw [scanItemBlocks_succ_false]; simp
    | true =>
      cases htm : tryMatch (c :: cs) with
      | none => rw [scanItemBlocks_succ_none fuel c cs htm]; simp
      | some m => rw [scanItemBlocks_succ_some fuel c cs m htm]; simp

theorem renderScanL_nil (items : List (List Char × List Char)) (fuel : Nat)
    (b : Bool) : renderScanL items fuel [] b = [] := by
  unfold renderScanL
  rw [scanItemBlocks_nil]
  rfl

/-- The replacement text of a block: either the block is a skip block and
the source is reproduced, or the identifier resolves and the normalized
forms differ, giving the rebuilt block. -/
theorem replacer_fst_cases (items : List (List Char × List Char))
    (i a inr : List Char) :
    ((replacer items i a inr).1 = segSource (Seg.block i a inr) ∧
      skipBlock items a inr) ∨
    ∃ ident src, findIdentifier a = some ident ∧ dictLookup items ident = some src ∧
      ¬ normWsL inr = normWsL src ∧
      (replacer items i a inr).1 = i ++ openItem ++ a ++ '>' ::
        (linesepL ++ reindentL src (i ++ ['\t']) ++ linesepL ++ i ++ closeItem) := by
  cases hid : findIdentifier a with
  | none => exact Or.inl ⟨by simp [replacer, hid], Or.inl hid⟩
  | some id0 =>
    cases hlk : dictLookup items id0 with
    | none =>
      exact Or.inl ⟨by simp [replacer, hid, hlk], Or.inr (Or.inl ⟨id0, hid, hlk⟩)⟩
    | some src =>
      by_cases heq : normWsL inr = normWsL src
      · exact Or.inl ⟨by simp [replacer, hid, hlk, heq],
          Or.inr (Or.inr ⟨id0, src, hid, hlk, heq⟩)⟩
      · refine Or.inr ⟨id0, src, rfl, hlk, heq, ?_⟩
        simp [replacer, hid, hlk, heq]

/-- Rendering a block never produces the empty string. -/
theorem renderSeg_ne_nil (items : List (List Char × List Char)) (seg : Seg) :
    renderSeg items seg ≠ [] := by
  match seg with
  | .raw d => simp [renderSeg]
  | .block i a inr =>
    rcases replacer_fst_cases items i a inr with ⟨hr, _⟩ | ⟨id0, src, _, _, _, hr⟩
    · rw [show renderSeg items (Seg.block i a inr) = (replacer items i a inr).1
        from rfl, hr]
      simp [segSource, openItem]
    · rw [show renderSeg items (Seg.block i a inr) = (replacer items i a inr).1
        from rfl, hr]
      simp [openItem]

theorem renderScanL_eq_nil (items : List (List Char × List Char)) (fuel : Nat)
    (x : List Char) (b : Bool) (h : renderScanL items fuel x b = []) : x = [] := by
  match x with
  | [] => rfl
  | c :: cs =>
    exfalso
    unfold renderScanL at h
    cases hs : scanItemBlocks fuel (c :: cs) b with
    | nil => exact scan_ne_nil fuel c cs b hs
    | cons seg segs =>
      rw [hs] at h
      simp at h
      exact renderSeg_ne_nil items seg h.1

/-! ### splitNl structure and whitespace-only lines -/

theorem splitNlGo_append_split (X : List Char) :
    ∀ (cur : List Char) (Y : List Char),
    splitNlGo cur (X ++ '\n' :: Y) = splitNlGo cur X ++ splitNl Y := by
  induction X with
  | nil =>
    intro cur Y
    simp [splitNlGo, splitNl]
  | cons c X' ih =>
    intro cur Y
    by_cases hc : c = '\n'
    · subst hc
      rw [List.cons_append]
      rw [show splitNlGo cur ('\n' :: (X' ++ '\n' :: Y)) =
        cur.reverse :: splitNlGo [] (X' ++ '\n' :: Y) by simp [splitNlGo]]
      rw [show splitNlGo cur ('\n' :: X') =
        cur.reverse :: splitNlGo [] X' by simp [splitNlGo]]
      rw [ih [] Y]
      simp
    · rw [List.cons_append]
      rw [show splitNlGo cur (c :: (X' ++ '\n' :: Y)) =
        splitNlGo (c :: cur) (X' ++ '\n' :: Y) by simp [splitNlGo, hc]]
      rw [show splitNlGo cur (c :: X') =
        splitNlGo (c :: cur) X' by simp [splitNlGo, hc]]
      exact ih (c :: cur) Y

theorem splitNl_append (X Y : List Char) :
    splitNl (X ++ '\n' :: Y) = splitNl X ++ splitNl Y :=
  splitNlGo_append_split X [] Y

/-- Every whitespace-only line (splitting at LF) is the empty line. -/
def goodNl (x : List Char) : Prop :=
  ∀ l ∈ splitNl x, pyStrip l = [] → l = []

theorem goodNl_append_iff (X Y : List Char) :
    goodNl (X ++ '\n' :: Y) ↔ goodNl X ∧ goodNl Y := by
  unfold goodNl
  rw [splitNl_append]
  constructor
  · intro h
    exact ⟨fun l hl => h l (List.mem_append.mpr (Or.inl hl)),
      fun l hl => h l (List.mem_append.mpr (Or.inr hl))⟩
  · rintro ⟨h1, h2⟩ l hl
    rcases List.mem_append.mp hl with h | h
    · exact h1 l h
    · exact h2 l h

theorem goodNl_no_nl (X : List Char) (hX : '\n' ∉ X) :
    goodNl X ↔ (pyStrip X = [] → X = []) := by
  unfold goodNl splitNl
  rw [splitNlGo_no_nl X hX []]
  simp

theorem goodNl_of_nonspace_mem (X : List Char) (hX : '\n' ∉ X)
    (c : Char) (hc : c ∈ X) (hcs : ¬ pyIsSpace c) : goodNl X := by
  rw [goodNl_no_nl X hX]
  intro hstrip
  exact absurd ((pyStrip_eq_nil_iff X).mp hstrip c hc) hcs

theorem split_last_nl (X : List Char) :
    '\n' ∉ X ∨ ∃ U V, X = U ++ '\n' :: V ∧ '\n' ∉ V := by
  induction X with
  | nil => exact Or.inl (by simp)
  | cons c cs ih =>
    rcases ih with h | ⟨U, V, hUV, hV⟩
    · by_cases hc : c = '\n'
      · subst hc
        exact Or.inr ⟨[], cs, rfl, h⟩
      · refine Or.inl ?_
        intro hmem
        rcases List.mem_cons.mp hmem with h1 | h1
        · exact hc h1.symm
        · exact h h1
    · exact Or.inr ⟨c :: U, V, by rw [hUV]; rfl, hV⟩

theorem splitNl_snoc_nl (m : List Char) :
    splitNl (m ++ ['\n']) = splitNl m ++ [[]] := by
  rw [show (['\n'] : List Char) = '\n' :: [] from rfl, splitNl_append]
  rfl

theorem goodNl_of_snoc_nl (m : List Char) (h : goodNl (m ++ ['\n'])) :
    goodNl m := by
  intro l hl
  apply h l
  rw [splitNl_snoc_nl]
  exact List.mem_append.mpr (Or.inl hl)

/-! ### Words through pySplitlines and reindent -/

theorem pyIsSpace_of_bnd (c : Char) (h : isNlBoundary c) : pyIsSpace c := by
  simp [isNlBoundary] at h
  simp [pyIsSpace]
  tauto

theorem isIndentChar_pyIsSpace (c : Char) (h : isIndentChar c) : pyIsSpace c := by
  simp [isIndentChar] at h
  rcases h with h | h <;> simp [h, pyIsSpace]

theorem words_splGo_flatten (t : List Char) :
    ∀ (cur : List Char),
    ((splGo cur t).map words).flatten = words (cur.reverse ++ t) := by
  have H : ∀ (n : Nat) (t : List Char), t.length ≤ n → ∀ (cur : List Char),
      ((splGo cur t).map words).flatten = words (cur.reverse ++ t) := by
    intro n
    induction n with
    | zero =>
      intro t ht cur
      have : t = [] := by cases t <;> simp_all
      subst this
      rw [splGo_nil]
      by_cases hcur : cur = []
      · subst hcur; simp [words_nil]
      · rw [if_neg hcur]; simp
    | succ n ih =>
      intro t ht cur
      match t with
      | [] =>
        rw [splGo_nil]
        by_cases hcur : cur = []
        · subst hcur; simp [words_nil]
        · rw [if_neg hcur]; simp
      | c :: cs =>
        by_cases hcr : c = '\r'
        · subst hcr
          match cs with
          | [] =>
            rw [splGo_cr_single, show splGo ([] : List Char) [] = [] from rfl]
            rw [words_append_space_right cur.reverse ['\r']
              (by intro c hc; simp at hc; simp [hc, pyIsSpace])]
            simp
          | d :: rest =>
            by_cases hd : d = '\n'
            · subst hd
              rw [splGo_crlf]
              simp only [List.map_cons, List.flatten_cons]
              rw [ih rest (by simp at ht; omega) []]
              rw [show ([] : List Char).reverse ++ rest = rest by simp]
              rw [show cur.reverse ++ '\r' :: '\n' :: rest =
                cur.reverse ++ '\r' :: ('\n' :: rest) from rfl]
              rw [words_append_space cur.reverse ('\n' :: rest) '\r'
                (by simp [pyIsSpace])]
              rw [words_cons_space '\n' rest (by simp [pyIsSpace])]
            · rw [splGo_cr_cons cur d rest hd]
              simp only [List.map_cons, List.flatten_cons]
              rw [ih (d :: rest) (by simp at ht ⊢; omega) []]
              rw [show ([] : List Char).reverse ++ d :: rest = d :: rest by simp]
              rw [show cur.reverse ++ '\r' :: d :: rest =
                cur.reverse ++ '\r' :: (d :: rest) from rfl]
              rw [words_append_space cur.reverse (d :: rest) '\r'
                (by simp [pyIsSpace])]
        · by_cases hb : isNlBoundary c
          · rw [splGo_bnd cur c cs hcr hb]
            simp only [List.map_cons, List.flatten_cons]
            rw [ih cs (by simp at ht; omega) []]
            rw [show ([] : List Char).reverse ++ cs = cs by simp]
            rw [words_append_space cur.reverse cs c (pyIsSpace_of_bnd c hb)]
          · rw [splGo_chr cur c cs hcr hb]
            rw [ih cs (by simp at ht; omega) (c :: cur)]
            simp
  exact fun cur => H t.length t (le_refl _) cur

theorem words_pySplitlines_flatten (t : List Char) :
    ((pySplitlines t).map words).flatten = words t := by
  have := words_splGo_flatten t []
  simpa [pySplitlines] using this

theorem words_reindentL (t ind : List Char) (hind : ∀ c ∈ ind, pyIsSpace c) :
    words (reindentL t ind) = words t := by
  unfold reindentL
  rw [words_joinNl]
  rw [show ((pySplitlines t).map
      (fun line => if pyStrip line ≠ [] then ind ++ line else [])).map words
      = (pySplitlines t).map words by
    rw [List.map_map]
    refine List.map_congr_left fun l _ => ?_
    by_cases hl : pyStrip l = []
    · show words (if pyStrip l ≠ [] then ind ++ l else []) = words l
      rw [if_neg (by simp [hl]), words_nil,
        words_all_space l ((pyStrip_eq_nil_iff l).mp hl)]
    · show words (if pyStrip l ≠ [] then ind ++ l else []) = words l
      rw [if_pos hl]
      exact words_space_append ind l hind]
  exact words_pySplitlines_flatten t

/-- The rebuilt inner content of a replaced block has the same whitespace
normal form as the catalog source. -/
theorem normWs_rebuilt_inner (src i : List Char) (hi : ∀ c ∈ i, pyIsSpace c) :
    normWsL (linesepL ++ reindentL src (i ++ ['\t']) ++ linesepL ++ i) =
      normWsL src := by
  apply normWsL_congr
  rw [show linesepL ++ reindentL src (i ++ ['\t']) ++ linesepL ++ i =
    '\n' :: (reindentL src (i ++ ['\t']) ++ '\n' :: i) by
      simp [linesepL]]
  rw [words_cons_space '\n' _ (by simp [pyIsSpace])]
  rw [words_append_space _ i '\n' (by simp [pyIsSpace])]
  rw [words_all_space i hi]
  rw [words_reindentL src (i ++ ['\t']) (by
    intro c hc
    rcases List.mem_append.mp hc with h | h
    · exact hi c h
    · simp at h; simp [h, pyIsSpace])]
  simp

theorem splGo_line_substr (t : List Char) :
    ∀ (cur : List Char) l, l ∈ splGo cur t →
    ∃ a b, cur.reverse ++ t = a ++ l ++ b := by
  have H : ∀ (n : Nat) (t : List Char), t.length ≤ n →
      ∀ (cur : List Char) l, l ∈ splGo cur t →
      ∃ a b, cur.reverse ++ t = a ++ l ++ b := by
    intro n
    induction n with
    | zero =>
      intro t ht cur l hl
      have : t = [] := by cases t <;> simp_all
      subst this
      rw [splGo_nil] at hl
      by_cases hcur : cur = []
      · simp [hcur] at hl
      · rw [if_neg hcur] at hl
        simp at hl
        subst hl
        exact ⟨[], [], by simp⟩
    | succ n ih =>
      intro t ht cur l hl
      match t with
      | [] =>
        rw [splGo_nil] at hl
        by_cases hcur : cur = []
        · simp [hcur] at hl
        · rw [if_neg hcur] at hl
          simp at hl
          subst hl
          exact ⟨[], [], by simp⟩
      | c :: cs =>
        by_cases hcr : c = '\r'
        · subst hcr
          match cs with
          | [] =>
            rw [splGo_cr_single, show splGo ([] : List Char) [] = [] from rfl] at hl
            simp at hl
            subst hl
            exact ⟨[], ['\r'], by simp⟩
          | d :: rest =>
            by_cases hd : d = '\n'
            · subst hd
              rw [splGo_crlf] at hl
              rcases List.mem_cons.mp hl with rfl | hl
              · exact ⟨[], '\r' :: '\n' :: rest, by simp⟩
              · obtain ⟨a, b, hab⟩ := ih rest (by simp at ht; omega) [] l hl
                simp at hab
                exact ⟨cur.reverse ++ '\r' :: '\n' :: a, b, by rw [hab]; simp⟩
            · rw [splGo_cr_cons cur d rest hd] at hl
              rcases List.mem_cons.mp hl with rfl | hl
              · exact ⟨[], '\r' :: d :: rest, by simp⟩
              · obtain ⟨a, b, hab⟩ := ih (d :: rest) (by simp at ht ⊢; omega) [] l hl
                simp at hab
                exact ⟨cur.reverse ++ '\r' :: a, b, by rw [hab]; simp⟩
        · by_cases hb : isNlBoundary c
          · rw [splGo_bnd cur c cs hcr hb] at hl
            rcases List.mem_cons.mp hl with rfl | hl
            · exact ⟨[], c :: cs, by simp⟩
            · obtain ⟨a, b, hab⟩ := ih cs (by simp at ht; omega) [] l hl
              simp at hab
              exact ⟨cur.reverse ++ c :: a, b, by rw [hab]; simp⟩
          · rw [splGo_chr cur c cs hcr hb] at hl
            obtain ⟨a, b, hab⟩ := ih cs (by simp at ht; omega) (c :: cur) l hl
            exact ⟨a, b, by
              rw [show cur.reverse ++ c :: cs = (c :: cur).reverse ++ cs by simp]
              exact hab⟩
  exact fun cur l hl => H t.length t (le_refl _) cur l hl

theorem pySplitlines_line_substr (t l : List Char) (hl : l ∈ pySplitlines t) :
    ∃ a b, t = a ++ l ++ b := by
  obtain ⟨a, b, hab⟩ := splGo_line_substr t [] l hl
  simp at hab
  exact ⟨a, b, by rw [hab]; simp⟩

/-! ### Occurrence decomposition -/

theorem hasOccur_append_left (p A B : List Char) (h : hasOccur [p] A) :
    hasOccur [p] (A ++ B) := by
  obtain ⟨a, q, b, hq, hA⟩ := h
  exact ⟨a, q, b ++ B, hq, by rw [hA]; simp⟩

theorem hasOccur_append_right (p A B : List Char) (h : hasOccur [p] B) :
    hasOccur [p] (A ++ B) := by
  obtain ⟨a, q, b, hq, hB⟩ := h
  exact ⟨A ++ a, q, b, hq, by rw [hB]; simp⟩

theorem hasOccur_of_sub (p l a b s : List Char) (h : hasOccur [p] l)
    (hs : s = a ++ l ++ b) : hasOccur [p] s := by
  subst hs
  exact hasOccur_append_left p (a ++ l) b (hasOccur_append_right p a l h)

theorem hasOccur_cons_elim (p : List Char) (c : Char) (X : List Char)
    (h : hasOccur [p] (c :: X)) : p <+: (c :: X) ∨ hasOccur [p] X := by
  obtain ⟨a, q, b, hq, hX⟩ := h
  have hqp : q = p := by simpa using hq
  match a with
  | [] =>
    left
    rw [← hqp]
    simp at hX
    exact ⟨b, hX.symm⟩
  | d :: a' =>
    right
    simp at hX
    exact ⟨a', q, b, hq, by rw [hX.2]; simp⟩

theorem prefix_head_eq (p : List Char) (c : Char) (X : List Char)
    (hne : p ≠ []) (h : p <+: (c :: X)) : ∃ q, p = c :: q := by
  obtain ⟨t, ht⟩ := h
  match p with
  | [] => exact absurd rfl hne
  | d :: q =>
    rw [List.cons_append, List.cons.injEq] at ht
    exact ⟨q, by rw [ht.1]⟩

theorem hasOccur_split (p A B : List Char) (h : hasOccur [p] (A ++ B)) :
    hasOccur [p] A ∨ hasOccur [p] B ∨
    ∃ m, 0 < m ∧ m < p.length ∧ p.take m <:+ A ∧ p.drop m <+: B := by
  by_cases hp : p = []
  · exact Or.inl ⟨[], p, A, by simp, by simp [hp]⟩
  induction A with
  | nil =>
    refine Or.inr (Or.inl ?_)
    simpa using h
  | cons c A' ih =>
    rw [List.cons_append] at h
    rcases hasOccur_cons_elim p c (A' ++ B) h with hpre | hocc
    · by_cases hlen : p.length ≤ A'.length + 1
      · left
        have hp2 : p <+: (c :: A') ++ B := by simpa using hpre
        have hpA : p <+: c :: A' :=
          prefix_of_append_of_le p (c :: A') B hp2 (by simp; omega)
        obtain ⟨t, ht⟩ := hpA
        exact ⟨[], p, t, by simp, by rw [← ht]; simp⟩
      · refine Or.inr (Or.inr ⟨A'.length + 1, by omega, by omega, ?_, ?_⟩)
        · have hp2 : p <+: (c :: A') ++ B := by simpa using hpre
          obtain ⟨t, ht⟩ := (append_prefix_of_ge p (c :: A') B hp2 (by simp; omega)).1
          have htake : p.take (A'.length + 1) = c :: A' := by
            rw [← ht]
            have := List.take_left (c :: A') t
            simpa using this
          rw [htake]
        · have hp2 : p <+: (c :: A') ++ B := by simpa using hpre
          have h2 := (append_prefix_of_ge p (c :: A') B hp2 (by simp; omega)).2
          simpa using h2
    · rcases ih hocc with h1 | h1 | ⟨m, hm1, hm2, hm3, hm4⟩
      · left
        obtain ⟨a, q, b, hq, hA⟩ := h1
        exact ⟨c :: a, q, b, hq, by rw [List.cons_append, hA]; simp⟩
      · exact Or.inr (Or.inl h1)
      · exact Or.inr (Or.inr ⟨m, hm1, hm2,
          hm3.trans (List.suffix_cons c A'), hm4⟩)

/-! ### Documents with no viable match -/

/-- The shape any `ITEM_BLOCK_REGEX` match must have somewhere in the text:
a `>` later followed by the closing tag. -/
def badOcc (x : List Char) : Prop :=
  ∃ p q1 q2, x = p ++ '>' :: (q1 ++ closeItem ++ q2)

theorem tryMatch_some_badOcc (x : List Char) (m : ItemMatch)
    (h : tryMatch x = some m) : badOcc x := by
  have hdec := (tryMatch_some_decomp x m h).1
  exact ⟨m.indent ++ openItem ++ m.attrs, m.inner, m.rest, by rw [hdec]⟩

theorem badOcc_append_left (u y : List Char) (h : badOcc y) : badOcc (u ++ y) := by
  obtain ⟨p, q1, q2, hy⟩ := h
  exact ⟨u ++ p, q1, q2, by rw [hy]; simp⟩

theorem badOcc_cons (c : Char) (y : List Char) (h : badOcc y) : badOcc (c :: y) :=
  badOcc_append_left [c] y h

theorem not_badOcc_scan_raw (fuel : Nat) :
    ∀ (x : List Char) (b : Bool), ¬ badOcc x →
    scanItemBlocks fuel x b = x.map Seg.raw := by
  induction fuel with
  | zero =>
    intro x b _
    match x with
    | [] => rw [scanItemBlocks_nil]; rfl
    | c :: cs => rfl
  | succ fuel ih =>
    intro x b hnb
    match x with
    | [] => rw [scanItemBlocks_nil]; rfl
    | c :: cs =>
      have hcs : ¬ badOcc cs := fun h => hnb (badOcc_cons c cs h)
      cases b with
      | false =>
        rw [scanItemBlocks_succ_false, ih cs _ hcs]
        rfl
      | true =>
        cases htm : tryMatch (c :: cs) with
        | some m => exact absurd (tryMatch_some_badOcc _ m htm) hnb
        | none =>
          rw [scanItemBlocks_succ_none fuel c cs htm, ih cs _ hcs]
          rfl

/-- If the scan finds no match at a position where the opening pattern does
match, the closing tag never appears after a `>`, so no later position can
match either. -/
theorem tryMatch_none_cases (x : List Char) (h : tryMatch x = none) :
    ¬ openItem.isPrefixOf (x.dropWhile isIndentChar) ∨ ¬ badOcc x := by
  by_cases hpre : openItem.isPrefixOf (x.dropWhile isIndentChar)
  · right
    unfold tryMatch at h
    rw [if_pos hpre] at h
    obtain ⟨t, ht⟩ := List.isPrefixOf_iff_prefix.mp hpre
    have hdrop : (x.dropWhile isIndentChar).drop openItem.length = t := by
      rw [← ht, List.drop_left]
    have hx : x = x.takeWhile isIndentChar ++ (openItem ++ t) := by
      rw [ht, List.takeWhile_append_dropWhile]
    cases hgt : ((x.dropWhile isIndentChar).drop openItem.length).dropWhile
        (fun c => !(c = '>')) with
    | nil =>
      -- no '>' at all in the text
      rw [hdrop] at hgt
      intro hb
      obtain ⟨p, q1, q2, hpq⟩ := hb
      have hgtmem : ('>' : Char) ∈ x := by
        rw [hpq]
        simp
      rw [hx] at hgtmem
      rcases List.mem_append.mp hgtmem with hm | hm
      · have := mem_takeWhile_sat isIndentChar x '>' hm
        simp [isIndentChar] at this
      · rcases List.mem_append.mp hm with hm | hm
        · simp [openItem] at hm
        · have := dropWhile_eq_nil_all (fun c => !(c = '>')) t hgt '>' hm
          simp at this
    | cons g s3 =>
      rw [hgt] at h
      replace h : (match splitAtFirstAny [closeItem] s3 with
        | none => (none : Option ItemMatch)
        | some (inner, _, rest) =>
          some ⟨x.takeWhile isIndentChar,
            ((x.dropWhile isIndentChar).drop openItem.length).takeWhile
              (fun c => !(c = '>')), inner, rest⟩) = none := h
      cases hsp : splitAtFirstAny [closeItem] s3 with
      | some val =>
        obtain ⟨inner, pp, rest⟩ := val
        rw [hsp] at h
        simp at h
      | none =>
        have hnocc : ¬ hasOccur [closeItem] s3 :=
          splitAtFirstAny_none_no_occur [closeItem] s3 (by simp [closeItem]) hsp
        -- reconstruct x = P ++ '>' :: s3 with '>' ∉ P
        have hg : g = '>' := by
          have := dropWhile_head_neg (fun c => !(c = '>')) _ g s3 (by rw [hdrop] at hgt; exact hgt)
          simpa using this
        have hts : t = t.takeWhile (fun c => !(c = '>')) ++ '>' :: s3 := by
          conv_lhs => rw [← List.takeWhile_append_dropWhile (fun c => !(c = '>')) t]
          rw [hdrop] at hgt
          rw [hgt, hg]
        have hxP : x = (x.takeWhile isIndentChar ++ openItem ++
            t.takeWhile (fun c => !(c = '>'))) ++ '>' :: s3 := by
          conv_lhs => rw [hx]
          conv_lhs => rw [hts]
          simp
        have hPg : ('>' : Char) ∉ x.takeWhile isIndentChar ++ openItem ++
            t.takeWhile (fun c => !(c = '>')) := by
          intro hm
          rcases List.mem_append.mp hm with hm | hm
          · rcases List.mem_append.mp hm with hm | hm
            · have := mem_takeWhile_sat isIndentChar x '>' hm
              simp [isIndentChar] at this
            · simp [openItem] at hm
          · have := mem_takeWhile_sat (fun c => !(c = '>')) t '>' hm
            simp at this
        intro hb
        obtain ⟨p, q1, q2, hpq⟩ := hb
        set P := x.takeWhile isIndentChar ++ openItem ++
          t.takeWhile (fun c => !(c = '>')) with hPdef
        -- the '>' of the occurrence is not inside P
        have hPle : P.length ≤ p.length := by
          by_contra hlt
          push_neg at hlt
          have h1 : x.drop p.length = '>' :: (q1 ++ closeItem ++ q2) := by
            rw [hpq, show p ++ '>' :: (q1 ++ closeItem ++ q2) =
              p ++ ('>' :: (q1 ++ closeItem ++ q2)) from rfl, List.drop_left]
          have h2 : x.drop p.length = P.drop p.length ++ '>' :: s3 := by
            rw [hxP, List.drop_append_of_le_length (le_of_lt hlt)]
          cases hPd : P.drop p.length with
          | nil =>
            have := congrArg List.length hPd
            simp at this
            omega
          | cons g0 gs =>
            rw [hPd] at h2
            rw [h1] at h2
            have hg0 : g0 = '>' := by
              have := h2
              simp at this
              exact this.1.symm
            have : g0 ∈ P := List.mem_of_mem_drop (by rw [hPd]; simp)
            rw [hg0] at this
            exact hPg this
        -- so the closing tag occurs inside s3
        have h1 : x.drop (p.length + 1) = q1 ++ closeItem ++ q2 := by
          rw [hpq, show p ++ '>' :: (q1 ++ closeItem ++ q2) =
            (p ++ ['>']) ++ (q1 ++ closeItem ++ q2) by simp]
          rw [show p.length + 1 = (p ++ ['>']).length by simp, List.drop_left]
        have h2 : x.drop (p.length + 1) = s3.drop (p.length - P.length) := by
          rw [hxP, show P ++ '>' :: s3 = (P ++ ['>']) ++ s3 by simp]
          rw [List.drop_append_eq_append_drop]
          rw [List.drop_eq_nil_of_le (by simp; omega)]
          simp
        apply hnocc
        refine ⟨s3.take (p.length - P.length) ++ q1, closeItem, q2, by simp, ?_⟩
        conv_lhs => rw [← List.take_append_drop (p.length - P.length) s3]
        rw [← h2, h1]
        simp
  · left
    exact hpre

/-! ### Rebuilding a match from its parts -/

theorem firstMatchAt_closeItem (rest : List Char) :
    firstMatchAt [closeItem] (closeItem ++ rest) = some closeItem := by
  have h : closeItem.isPrefixOf (closeItem ++ rest) = true :=
    List.isPrefixOf_iff_prefix.mpr ⟨rest, rfl⟩
  simp [firstMatchAt, h]

theorem splitAtFirstAny_closeItem (inr R : List Char)
    (hocc : ¬ hasOccur [closeItem] inr) :
    splitAtFirstAny [closeItem] (inr ++ closeItem ++ R) =
      some (inr, closeItem, R) := by
  have hspan : ∀ p ∈ [closeItem], ∀ m, m < p.length → 0 < m →
      ¬ (p.drop m <+: closeItem) ∧ ¬ (closeItem <+: p.drop m) := by decide
  have hfm : firstMatchAt [closeItem] (closeItem ++ R) = some closeItem :=
    firstMatchAt_closeItem R
  have hsp := splitAtFirstAny_pos [closeItem] (by simp [closeItem]) inr
    (closeItem ++ R) closeItem
    (fun k hk => by
      have := no_early_match [closeItem] inr closeItem R (by simp [closeItem])
        hocc hspan k hk
      rw [← List.append_assoc]
      exact this) hfm
  rw [List.append_assoc, hsp, List.drop_left]

theorem tryMatch_build (i a inr R : List Char)
    (hi : ∀ c ∈ i, isIndentChar c) (ha : ∀ c ∈ a, ¬ (c = '>'))
    (hocc : ¬ hasOccur [closeItem] inr) :
    tryMatch (i ++ openItem ++ a ++ '>' :: (inr ++ closeItem ++ R)) =
      some ⟨i, a, inr, R⟩ := by
  set s := i ++ openItem ++ a ++ '>' :: (inr ++ closeItem ++ R) with hs
  have hdw : s.dropWhile isIndentChar =
      openItem ++ a ++ '>' :: (inr ++ closeItem ++ R) := by
    rw [hs, show i ++ openItem ++ a ++ '>' :: (inr ++ closeItem ++ R) =
      i ++ (openItem ++ a ++ '>' :: (inr ++ closeItem ++ R)) by simp,
      dropWhile_append_all isIndentChar i _ hi]
    rw [show openItem ++ a ++ '>' :: (inr ++ closeItem ++ R) =
      '<' :: ("Item".toList ++ a ++ '>' :: (inr ++ closeItem ++ R)) by
        simp [openItem]]
    rw [List.dropWhile_cons]
    simp [isIndentChar, openItem]
  have htw : s.takeWhile isIndentChar = i := by
    rw [hs, show i ++ openItem ++ a ++ '>' :: (inr ++ closeItem ++ R) =
      i ++ (openItem ++ a ++ '>' :: (inr ++ closeItem ++ R)) by simp,
      takeWhile_append_all isIndentChar i _ hi]
    rw [show openItem ++ a ++ '>' :: (inr ++ closeItem ++ R) =
      '<' :: ("Item".toList ++ a ++ '>' :: (inr ++ closeItem ++ R)) by
        simp [openItem]]
    rw [List.takeWhile_cons]
    simp [isIndentChar]
  have hdrop : (s.dropWhile isIndentChar).drop openItem.length =
      a ++ '>' :: (inr ++ closeItem ++ R) := by
    rw [hdw, show openItem ++ a ++ '>' :: (inr ++ closeItem ++ R) =
      openItem ++ (a ++ '>' :: (inr ++ closeItem ++ R)) by simp,
      List.drop_left]
  have hall : ∀ c ∈ a, (fun c => !(c = '>')) c = true := by
    intro c hc
    simp [ha c hc]
  have hscrut : ((s.dropWhile isIndentChar).drop openItem.length).dropWhile
      (fun c => !(c = '>')) = '>' :: (inr ++ closeItem ++ R) := by
    rw [hdrop, dropWhile_append_cons_of_neg _ a _ '>' (by simp),
      dropWhile_eq_nil_of_all _ a hall]
    simp
  have hattrs : ((s.dropWhile isIndentChar).drop openItem.length).takeWhile
      (fun c => !(c = '>')) = a := by
    rw [hdrop, takeWhile_append_cons_of_neg _ a _ '>' (by simp),
      takeWhile_eq_self_of_all _ a hall]
  have hpre : openItem.isPrefixOf (s.dropWhile isIndentChar) = true := by
    rw [hdw]
    apply List.isPrefixOf_iff_prefix.mpr
    exact ⟨a ++ '>' :: (inr ++ closeItem ++ R), by simp⟩
  unfold tryMatch
  rw [if_pos hpre, htw, hattrs, hscrut]
  show (match splitAtFirstAny [closeItem] (inr ++ closeItem ++ R) with
    | none => (none : Option ItemMatch)
    | some (inner, _, rest) => some ⟨i, a, inner, rest⟩) = some ⟨i, a, inr, R⟩
  rw [splitAtFirstAny_closeItem inr R hocc]

/-! ### AllSkip transfer and rendering -/

theorem dictLookup_some_mem (d : List (List Char × List Char)) (k v : List Char)
    (h : dictLookup d k = some v) : ∃ kk, (kk, v) ∈ d := by
  unfold dictLookup at h
  cases hf : d.find? (fun p => p.1 == k) with
  | none => rw [hf] at h; simp at h
  | some pr =>
    rw [hf] at h
    simp at h
    exact ⟨pr.1, by
      have := List.mem_of_find?_eq_some hf
      rw [show (pr.1, v) = pr by rw [← h]] at *
      exact this⟩

theorem allSkip_false_cons (items : List (List Char × List Char)) (c : Char)
    (cs : List Char) (h : AllSkip items (c :: cs) false) :
    AllSkip items cs (c = '\n') := by
  intro i a inr hmem
  apply h i a inr
  rw [show (c :: cs).length + 1 = (cs.length + 1) + 1 by simp,
    scanItemBlocks_succ_false]
  exact List.mem_cons_of_mem _ hmem

theorem allSkip_none_cons (items : List (List Char × List Char)) (c : Char)
    (cs : List Char) (htm : tryMatch (c :: cs) = none)
    (h : AllSkip items (c :: cs) true) : AllSkip items cs (c = '\n') := by
  intro i a inr hmem
  apply h i a inr
  rw [show (c :: cs).length + 1 = (cs.length + 1) + 1 by simp,
    scanItemBlocks_succ_none _ c cs htm]
  exact List.mem_cons_of_mem _ hmem

theorem allSkip_some_cons (items : List (List Char × List Char)) (c : Char)
    (cs : List Char) (m : ItemMatch) (htm : tryMatch (c :: cs) = some m)
    (h : AllSkip items (c :: cs) true) :
    skipBlock items m.attrs m.inner ∧ AllSkip items m.rest false := by
  have hlen := tryMatch_rest_length (c :: cs) m htm
  have heq : scanItemBlocks ((c :: cs).length + 1) (c :: cs) true =
      Seg.block m.indent m.attrs m.inner ::
        scanItemBlocks (m.rest.length + 1) m.rest false := by
    rw [show (c :: cs).length + 1 = (c :: cs).length + 1 from rfl,
      scanItemBlocks_succ_some _ c cs m htm,
      scanItemBlocks_fuel (c :: cs).length (m.rest.length + 1) m.rest false
        (by simp at hlen ⊢; omega) (by omega)]
  constructor
  · apply h m.indent m.attrs m.inner
    rw [heq]
    simp
  · intro i a inr hmem
    apply h i a inr
    rw [heq]
    exact List.mem_cons_of_mem _ hmem

/-- Under AllSkip, rendering reproduces the document byte for byte. -/
theorem render_allskip (items : List (List Char × List Char)) (fuel : Nat) :
    ∀ (x : List Char) (b : Bool), x.length ≤ fuel →
    AllSkip items x b → renderScanL items fuel x b = x := by
  induction fuel with
  | zero =>
    intro x b hf _
    have : x = [] := by cases x <;> simp_all
    subst this
    exact renderScanL_nil items 0 b
  | succ fuel ih =>
    intro x b hf hsk
    match x with
    | [] => exact renderScanL_nil items (fuel + 1) b
    | c :: cs =>
      cases b with
      | false =>
        unfold renderScanL
        rw [scanItemBlocks_succ_false]
        simp only [List.map_cons, List.flatten_cons]
        rw [show ((scanItemBlocks fuel cs (c = '\n')).map
          (renderSeg items)).flatten = renderScanL items fuel cs (c = '\n')
          from rfl]
        rw [ih cs (c = '\n') (by simp at hf ⊢; omega)
          (allSkip_false_cons items c cs hsk)]
        rfl
      | true =>
        cases htm : tryMatch (c :: cs) with
        | none =>
          unfold renderScanL
          rw [scanItemBlocks_succ_none fuel c cs htm]
          simp only [List.map_cons, List.flatten_cons]
          rw [show ((scanItemBlocks fuel cs (c = '\n')).map
            (renderSeg items)).flatten = renderScanL items fuel cs (c = '\n')
            from rfl]
          rw [ih cs (c = '\n') (by simp at hf ⊢; omega)
            (allSkip_none_cons items c cs htm hsk)]
          rfl
        | some m =>
          obtain ⟨hskb, hsk2⟩ := allSkip_some_cons items c cs m htm hsk
          have hlen := tryMatch_rest_length (c :: cs) m htm
          unfold renderScanL
          rw [scanItemBlocks_succ_some fuel c cs m htm]
          simp only [List.map_cons, List.flatten_cons]
          rw [show ((scanItemBlocks fuel m.rest false).map
            (renderSeg items)).flatten = renderScanL items fuel m.rest false
            from rfl]
          rw [ih m.rest false (by simp at hf hlen ⊢; omega) hsk2]
          rw [show renderSeg items (Seg.block m.indent m.attrs m.inner) =
            (replacer items m.indent m.attrs m.inner).1 from rfl,
            replacer_skip items m.indent m.attrs m.inner hskb]
          have hdec := (tryMatch_some_decomp (c :: cs) m htm).1
          rw [hdec]
          simp [segSource]

/-! ### Line-by-line structure of the scan after a failed match -/

theorem block_not_mem_map_raw (x : List Char) (i a inr : List Char) :
    Seg.block i a inr ∉ x.map Seg.raw := by
  simp

theorem scan_false_line (A : List Char) :
    ∀ (fuel : Nat) (B : List Char), '\n' ∉ A →
    A.length + B.length + 1 ≤ fuel →
    scanItemBlocks fuel (A ++ '\n' :: B) false =
      (A ++ ['\n']).map Seg.raw ++ scanItemBlocks (B.length + 1) B true := by
  induction A with
  | nil =>
    intro fuel B _ hf
    match fuel with
    | 0 => simp at hf
    | f + 1 =>
      rw [List.nil_append, scanItemBlocks_succ_false]
      have hfuel := scanItemBlocks_fuel f (B.length + 1) B true
        (by simp at hf; omega) (by omega)
      simp [hfuel]
  | cons a A' ih =>
    intro fuel B hA hf
    match fuel with
    | 0 => simp at hf
    | f + 1 =>
      rw [List.cons_append, scanItemBlocks_succ_false]
      have ha : ¬ (a = '\n') := fun h => hA (by simp [h])
      have hrec := ih f B (fun h => hA (by simp [h])) (by simp at hf ⊢; omega)
      simp [ha, hrec]

theorem scan_line_none (A B : List Char) (hA : '\n' ∉ A)
    (htm : tryMatch (A ++ '\n' :: B) = none) (fuel : Nat)
    (hf : A.length + B.length + 2 ≤ fuel) :
    scanItemBlocks fuel (A ++ '\n' :: B) true =
      (A ++ ['\n']).map Seg.raw ++ scanItemBlocks (B.length + 1) B true := by
  match A with
  | [] =>
    match fuel with
    | 0 => simp at hf
    | f + 1 =>
      rw [List.nil_append] at htm ⊢
      rw [scanItemBlocks_succ_none f '\n' B htm]
      have hfuel := scanItemBlocks_fuel f (B.length + 1) B true
        (by simp at hf; omega) (by omega)
      simp [hfuel]
  | a :: A' =>
    match fuel with
    | 0 => simp at hf
    | f + 1 =>
      rw [List.cons_append] at htm ⊢
      rw [scanItemBlocks_succ_none f a (A' ++ '\n' :: B) htm]
      have ha : ¬ (a = '\n') := fun h => hA (by simp [h])
      have hrec := scan_false_line A' f B (fun h => hA (by simp [h]))
        (by simp at hf ⊢; omega)
      simp [ha, hrec]

theorem split_first_nl (x : List Char) :
    '\n' ∉ x ∨ ∃ A B, x = A ++ '\n' :: B ∧ '\n' ∉ A := by
  induction x with
  | nil => exact Or.inl (by simp)
  | cons c cs ih =>
    by_cases hc : c = '\n'
    · subst hc
      exact Or.inr ⟨[], cs, rfl, by simp⟩
    · rcases ih with h | ⟨A, B, hAB, hA⟩
      · refine Or.inl ?_
        intro hm
        rcases List.mem_cons.mp hm with h1 | h1
        · exact hc h1.symm
        · exact h h1
      · refine Or.inr ⟨c :: A, B, by rw [hAB]; rfl, ?_⟩
        intro hm
        rcases List.mem_cons.mp hm with h1 | h1
        · exact hc h1.symm
        · exact hA h1

theorem prefix_firstline_indep (p dwA Y Z : List Char) (hnl : '\n' ∉ p)
    (h : p <+: dwA ++ '\n' :: Y) : p <+: dwA ++ '\n' :: Z := by
  by_cases hlen : p.length ≤ dwA.length
  · exact (prefix_of_append_of_le p dwA ('\n' :: Y) h hlen).trans
      (List.prefix_append dwA ('\n' :: Z))
  · exfalso
    have h2 := (append_prefix_of_ge p dwA ('\n' :: Y) h (by omega)).2
    have hne : p.drop dwA.length ≠ [] := by
      intro h0
      have := congrArg List.length h0
      simp at this
      omega
    obtain ⟨q, hq⟩ := prefix_head_eq _ '\n' Y hne h2
    have hmem : '\n' ∈ p := List.mem_of_mem_drop (l := p) (by rw [hq]; simp)
    exact hnl hmem

theorem tryMatch_none_transfer (A B Y : List Char) (hA : '\n' ∉ A)
    (hpre : ¬ openItem.isPrefixOf ((A ++ '\n' :: B).dropWhile isIndentChar) = true) :
    tryMatch (A ++ '\n' :: Y) = none := by
  have hd1 : (A ++ '\n' :: B).dropWhile isIndentChar =
      A.dropWhile isIndentChar ++ '\n' :: B :=
    dropWhile_append_cons_of_neg isIndentChar A B '\n' (by simp [isIndentChar])
  have hd2 : (A ++ '\n' :: Y).dropWhile isIndentChar =
      A.dropWhile isIndentChar ++ '\n' :: Y :=
    dropWhile_append_cons_of_neg isIndentChar A Y '\n' (by simp [isIndentChar])
  unfold tryMatch
  rw [if_neg (by
    rw [hd2]
    intro hcon
    apply hpre
    rw [hd1]
    apply List.isPrefixOf_iff_prefix.mpr
    exact prefix_firstline_indep openItem (A.dropWhile isIndentChar) Y B
      (by decide) (List.isPrefixOf_iff_prefix.mp hcon))]

/-! ### No closing tag inside a rebuilt block body -/

theorem not_hasOccur_nil (p : List Char) (hne : p ≠ []) : ¬ hasOccur [p] [] := by
  rintro ⟨a, q, b, hq, hs⟩
  have hqp : q = p := by simpa using hq
  have := congrArg List.length hs
  simp at this
  exact hne (hqp ▸ List.length_eq_zero.mp (by omega))

theorem hasOccur_length (p s : List Char) (h : hasOccur [p] s) :
    p.length ≤ s.length := by
  obtain ⟨a, q, b, hq, hs⟩ := h
  have hqp : q = p := by simpa using hq
  have := congrArg List.length hs
  rw [hqp] at this
  simp at this
  omega

theorem hasOccur_joinNl (p : List Char) (hne : p ≠ []) (hnl : '\n' ∉ p)
    (ls : List (List Char)) (h : hasOccur [p] (joinNl ls)) :
    ∃ l ∈ ls, hasOccur [p] l := by
  induction ls with
  | nil =>
    rw [show joinNl [] = [] from rfl] at h
    exact absurd h (not_hasOccur_nil p hne)
  | cons l t iht =>
    cases t with
    | nil =>
      rw [show joinNl [l] = l from rfl] at h
      exact ⟨l, by simp, h⟩
    | cons x t' =>
      rw [joinNl_cons_cons] at h
      rcases hasOccur_split p l ('\n' :: joinNl (x :: t')) h with
        h1 | h1 | ⟨m, hm1, hm2, hm3, hm4⟩
      · exact ⟨l, by simp, h1⟩
      · rcases hasOccur_cons_elim p '\n' _ h1 with h2 | h2
        · obtain ⟨q, hq⟩ := prefix_head_eq p '\n' _ hne h2
          exact absurd (by rw [hq]; simp : '\n' ∈ p) hnl
        · obtain ⟨l', hl', hocc⟩ := iht h2
          exact ⟨l', by simp [hl'], hocc⟩
      · have hdne : p.drop m ≠ [] := by
          intro h0
          have := congrArg List.length h0
          simp at this
          omega
        obtain ⟨q, hq⟩ := prefix_head_eq _ '\n' _ hdne hm4
        exact absurd (List.mem_of_mem_drop
          (by rw [hq]; simp : '\n' ∈ p.drop m)) hnl

theorem hasOccur_reindentL (p src ind : List Char) (hne : p ≠ [])
    (hp : ∀ c ∈ p, ¬ pyIsSpace c) (hind : ∀ c ∈ ind, pyIsSpace c)
    (h : hasOccur [p] (reindentL src ind)) : hasOccur [p] src := by
  have hnl : '\n' ∉ p := fun hm => hp '\n' hm (by simp [pyIsSpace])
  unfold reindentL at h
  obtain ⟨fl, hfl, hocc⟩ := hasOccur_joinNl p hne hnl _ h
  obtain ⟨line, hline, hflline⟩ := List.mem_map.mp hfl
  by_cases hstrip : pyStrip line = []
  · rw [← hflline, if_neg (by simp [hstrip])] at hocc
    exact absurd hocc (not_hasOccur_nil p hne)
  · rw [← hflline, if_pos hstrip] at hocc
    rcases hasOccur_split p ind line hocc with h1 | h1 | ⟨m, hm1, hm2, hm3, hm4⟩
    · obtain ⟨a, q, b, hq, hsj⟩ := h1
      have hqp : q = p := by simpa using hq
      match p, hne with
      | p0 :: p', _ =>
        have hp0 : p0 ∈ ind := by
          rw [hsj, hqp]
          simp
        exact absurd (hind p0 hp0) (hp p0 (by simp))
    · obtain ⟨a0, b0, hab⟩ := pySplitlines_line_substr src line hline
      exact hasOccur_of_sub p line a0 b0 src h1 hab
    · have htne : p.take m ≠ [] := by
        intro h0
        have hh := congrArg List.length h0
        simp at hh
        rcases hh with hh | hh
        · omega
        · exact hne hh
      obtain ⟨c, hc⟩ := List.exists_mem_of_ne_nil _ htne
      exact absurd (hind c (hm3.subset hc)) (hp c (List.mem_of_mem_take hc))

theorem rebuilt_inner_no_close (src i : List Char)
    (hi : ∀ c ∈ i, isIndentChar c) (hsrc : ¬ hasOccur [closeItem] src) :
    ¬ hasOccur [closeItem]
      (linesepL ++ reindentL src (i ++ ['\t']) ++ linesepL ++ i) := by
  have hchars : ∀ c ∈ closeItem, ¬ pyIsSpace c := by decide
  have hcne : closeItem ≠ [] := by decide
  have hnlc : '\n' ∉ closeItem := by decide
  intro h
  rcases hasOccur_split closeItem
      (linesepL ++ reindentL src (i ++ ['\t']) ++ linesepL) i h with
    h1 | h1 | ⟨m, hm1, hm2, hm3, hm4⟩
  · rcases hasOccur_split closeItem (linesepL ++ reindentL src (i ++ ['\t']))
        linesepL h1 with h2 | h2 | ⟨m, hm1, hm2, hm3, hm4⟩
    · rw [show linesepL ++ reindentL src (i ++ ['\t']) =
        '\n' :: reindentL src (i ++ ['\t']) from rfl] at h2
      rcases hasOccur_cons_elim closeItem '\n' _ h2 with h3 | h3
      · obtain ⟨q, hq⟩ := prefix_head_eq closeItem '\n' _ hcne h3
        exact absurd (by rw [hq]; simp : '\n' ∈ closeItem) hnlc
      · refine absurd (hasOccur_reindentL closeItem src (i ++ ['\t']) hcne hchars
          ?_ h3) hsrc
        intro c hc
        rcases List.mem_append.mp hc with hm | hm
        · exact isIndentChar_pyIsSpace c (hi c hm)
        · simp at hm
          simp [hm, pyIsSpace]
    · have := hasOccur_length closeItem linesepL h2
      simp [closeItem, linesepL] at this
    · have hdne : closeItem.drop m ≠ [] := by
        intro h0
        have := congrArg List.length h0
        simp at this
        omega
      have hm4' : closeItem.drop m <+: ('\n' :: []) := by
        simpa [linesepL] using hm4
      obtain ⟨q, hq⟩ := prefix_head_eq _ '\n' _ hdne hm4'
      exact absurd (List.mem_of_mem_drop
        (by rw [hq]; simp : '\n' ∈ closeItem.drop m)) hnlc
  · obtain ⟨a, q, b, hq, hsj⟩ := h1
    have hqp : q = closeItem := by simpa using hq
    have hlt : ('<' : Char) ∈ i := by
      rw [hsj, hqp]
      simp [closeItem]
    have := isIndentChar_pyIsSpace '<' (hi '<' hlt)
    simp [pyIsSpace] at this
  · have hdne : closeItem.drop m ≠ [] := by
      intro h0
      have := congrArg List.length h0
      simp at this
      omega
    obtain ⟨c, hc⟩ := List.exists_mem_of_ne_nil _ hdne
    have hci : c ∈ i := hm4.subset hc
    exact absurd (isIndentChar_pyIsSpace c (hi c hci))
      (hchars c (List.mem_of_mem_drop hc))

/-! ### The rendered output rescans as skip blocks only -/

theorem allSkip_of_match (items : List (List Char × List Char))
    (y : List Char) (my : ItemMatch) (hty : tryMatch y = some my)
    (hsk : skipBlock items my.attrs my.inner)
    (hrest : AllSkip items my.rest false) : AllSkip items y true := by
  match y with
  | [] =>
    rw [show tryMatch ([] : List Char) = none from by decide] at hty
    exact absurd hty (by simp)
  | c :: cs =>
    intro i a inr hmem
    have hlen := tryMatch_rest_length (c :: cs) my hty
    rw [scanItemBlocks_succ_some _ c cs my hty,
      scanItemBlocks_fuel (c :: cs).length (my.rest.length + 1) my.rest false
        (by simp at hlen ⊢; omega) (by omega)] at hmem
    rcases List.mem_cons.mp hmem with h1 | h1
    · simp only [Seg.block.injEq] at h1
      obtain ⟨h2, h3, h4⟩ := h1
      rw [h3, h4]
      exact hsk
    · exact hrest i a inr h1

theorem allskip_render_scan (items : List (List Char × List Char))
    (hclose : ∀ kv ∈ items, ¬ hasOccur [closeItem] kv.2) :
    ∀ (n : Nat) (x : List Char), x.length ≤ n → ∀ (b : Bool),
    AllSkip items (renderScanL items (x.length + 1) x b) b := by
  intro n
  induction n with
  | zero =>
    intro x hf b
    have : x = [] := by cases x <;> simp_all
    subst this
    rw [renderScanL_nil]
    intro i a inr hmem
    rw [scanItemBlocks_nil] at hmem
    simp at hmem
  | succ n ih =>
    intro x hf b
    match x with
    | [] =>
      rw [renderScanL_nil]
      intro i a inr hmem
      rw [scanItemBlocks_nil] at hmem
      simp at hmem
    | c :: cs =>
      cases b with
      | false =>
        have horend : renderScanL items ((c :: cs).length + 1) (c :: cs) false =
            c :: renderScanL items (cs.length + 1) cs (c = '\n') := by
          unfold renderScanL
          rw [show (c :: cs).length + 1 = (cs.length + 1) + 1 by simp,
            scanItemBlocks_succ_false]
          rfl
        rw [horend]
        intro i a inr hmem
        rw [show (c :: renderScanL items (cs.length + 1) cs (c = '\n')).length + 1 =
          ((renderScanL items (cs.length + 1) cs (c = '\n')).length + 1) + 1 by simp,
          scanItemBlocks_succ_false] at hmem
        rcases List.mem_cons.mp hmem with h1 | h1
        · simp at h1
        · exact ih cs (by simp at hf; omega) (c = '\n') i a inr h1
      | true =>
        cases htm : tryMatch (c :: cs) with
        | some m =>
          obtain ⟨hdec, hi, ha, hocc⟩ := tryMatch_some_decomp (c :: cs) m htm
          have hrest := tryMatch_rest_length (c :: cs) m htm
          have horend : renderScanL items ((c :: cs).length + 1) (c :: cs) true =
              renderSeg items (Seg.block m.indent m.attrs m.inner) ++
                renderScanL items (m.rest.length + 1) m.rest false := by
            unfold renderScanL
            rw [scanItemBlocks_succ_some ((c :: cs).length) c cs m htm,
              scanItemBlocks_fuel (c :: cs).length (m.rest.length + 1) m.rest
                false (by simp at hrest ⊢; omega) (by omega)]
            rfl
          rw [horend]
          have hihR : AllSkip items
              (renderScanL items (m.rest.length + 1) m.rest false) false :=
            ih m.rest (by simp at hf hrest ⊢; omega) false
          rcases replacer_fst_cases items m.indent m.attrs m.inner with
            ⟨hr, hskb⟩ | ⟨ident, src, hid, hlk, hneq, hr⟩
          · rw [show renderSeg items (Seg.block m.indent m.attrs m.inner) =
              (replacer items m.indent m.attrs m.inner).1 from rfl, hr]
            have hshape : segSource (Seg.block m.indent m.attrs m.inner) ++
                renderScanL items (m.rest.length + 1) m.rest false =
                m.indent ++ openItem ++ m.attrs ++ '>' ::
                  (m.inner ++ closeItem ++
                    renderScanL items (m.rest.length + 1) m.rest false) := by
              simp [segSource]
            rw [hshape]
            exact allSkip_of_match items _
              ⟨m.indent, m.attrs, m.inner,
                renderScanL items (m.rest.length + 1) m.rest false⟩
              (tryMatch_build m.indent m.attrs m.inner _ hi ha hocc) hskb hihR
          · rw [show renderSeg items (Seg.block m.indent m.attrs m.inner) =
              (replacer items m.indent m.attrs m.inner).1 from rfl, hr]
            obtain ⟨kk, hkk⟩ := dictLookup_some_mem items ident src hlk
            have hsrcocc : ¬ hasOccur [closeItem] src := hclose (kk, src) hkk
            have hoccN : ¬ hasOccur [closeItem]
                (linesepL ++ reindentL src (m.indent ++ ['\t']) ++ linesepL ++
                  m.indent) :=
              rebuilt_inner_no_close src m.indent hi hsrcocc
            have hskN : skipBlock items m.attrs
                (linesepL ++ reindentL src (m.indent ++ ['\t']) ++ linesepL ++
                  m.indent) :=
              Or.inr (Or.inr ⟨ident, src, hid, hlk,
                normWs_rebuilt_inner src m.indent
                  (fun c hc => isIndentChar_pyIsSpace c (hi c hc))⟩)
            have hshape : (m.indent ++ openItem ++ m.attrs ++ '>' ::
                (linesepL ++ reindentL src (m.indent ++ ['\t']) ++ linesepL ++
                  m.indent ++ closeItem)) ++
                renderScanL items (m.rest.length + 1) m.rest false =
                m.indent ++ openItem ++ m.attrs ++ '>' ::
                  ((linesepL ++ reindentL src (m.indent ++ ['\t']) ++ linesepL ++
                    m.indent) ++ closeItem ++
                    renderScanL items (m.rest.length + 1) m.rest false) := by
              simp
            rw [hshape]
            exact allSkip_of_match items _
              ⟨m.indent, m.attrs,
                linesepL ++ reindentL src (m.indent ++ ['\t']) ++ linesepL ++
                  m.indent,
                renderScanL items (m.rest.length + 1) m.rest false⟩
              (tryMatch_build m.indent m.attrs _ _ hi ha hoccN) hskN hihR
        | none =>
          rcases tryMatch_none_cases (c :: cs) htm with hpre | hnb
          · rcases split_first_nl (c :: cs) with hnl | ⟨A, B, hAB, hA⟩
            · have hc : ¬ (c = '\n') := fun h => hnl (by simp [h])
              have hscanraw : scanItemBlocks ((c :: cs).length + 1) (c :: cs)
                  true = (c :: cs).map Seg.raw := by
                rw [scanItemBlocks_succ_none _ c cs htm]
                have hrec := scan_false_no_nl (cs.length + 1) cs (by simp)
                  (fun h => hnl (by simp [h]))
                simp [hc, hrec]
              have horend : renderScanL items ((c :: cs).length + 1) (c :: cs)
                  true = c :: cs := by
                unfold renderScanL
                rw [hscanraw]
                exact render_map_raw items (c :: cs)
              rw [horend]
              intro i a inr hmem
              rw [hscanraw] at hmem
              exact absurd hmem (block_not_mem_map_raw (c :: cs) i a inr)
            · rw [hAB] at htm hpre hf ⊢
              have horend : renderScanL items ((A ++ '\n' :: B).length + 1)
                  (A ++ '\n' :: B) true =
                  A ++ '\n' :: renderScanL items (B.length + 1) B true := by
                unfold renderScanL
                rw [scan_line_none A B hA htm _ (by simp; omega),
                  List.map_append, List.flatten_append, render_map_raw]
                rw [List.append_assoc]
                rfl
              rw [horend]
              have htm2 : tryMatch (A ++ '\n' ::
                  renderScanL items (B.length + 1) B true) = none :=
                tryMatch_none_transfer A B _ hA hpre
              intro i a inr hmem
              rw [scan_line_none A _ hA htm2 _ (by simp; omega)] at hmem
              rcases List.mem_append.mp hmem with h1 | h1
              · exact absurd h1 (block_not_mem_map_raw (A ++ ['\n']) i a inr)
              · exact ih B (by simp at hf; omega) true i a inr h1
          · have hscanraw := not_badOcc_scan_raw ((c :: cs).length + 1)
              (c :: cs) true hnb
            have horend : renderScanL items ((c :: cs).length + 1) (c :: cs)
                true = c :: cs := by
              unfold renderScanL
              rw [hscanraw]
              exact render_map_raw items (c :: cs)
            rw [horend]
            intro i a inr hmem
            rw [hscanraw] at hmem
            exact absurd hmem (block_not_mem_map_raw (c :: cs) i a inr)

/-! ### Character sanitation through rendering and reindent -/

theorem isLineBnd_of_bad (c : Char) (h : isBadChar c) : isLineBnd c := by
  simp [isBadChar] at h
  simp [isLineBnd]
  tauto

theorem mem_reindentL (t ind : List Char) (c : Char) (hc : c ∈ reindentL t ind) :
    c ∈ ind ∨ c = '\n' ∨ ¬ isLineBnd c := by
  unfold reindentL at hc
  rcases mem_joinNl _ c hc with ⟨l, hl, hcl⟩ | hnl
  · obtain ⟨line, hline, hfl⟩ := List.mem_map.mp hl
    by_cases hstrip : pyStrip line = []
    · rw [← hfl, if_neg (by simp [hstrip])] at hcl
      simp at hcl
    · rw [← hfl, if_pos hstrip] at hcl
      rcases List.mem_append.mp hcl with h | h
      · exact Or.inl h
      · exact Or.inr (Or.inr (splGo_line_no_bnd t [] (by simp) line hline c h))
  · exact Or.inr (Or.inl hnl)

theorem reindentL_no_bad (t ind : List Char) (hind : ∀ c ∈ ind, ¬ isBadChar c)
    (c : Char) (hc : c ∈ reindentL t ind) : ¬ isBadChar c := by
  rcases mem_reindentL t ind c hc with h | h | h
  · exact hind c h
  · subst h
    simp [isBadChar]
  · exact fun hb => h (isLineBnd_of_bad c hb)

theorem renderScanL_no_bad (items : List (List Char × List Char)) (fuel : Nat) :
    ∀ (x : List Char) (b : Bool), x.length ≤ fuel →
    (∀ c ∈ x, ¬ isBadChar c) →
    ∀ c ∈ renderScanL items fuel x b, ¬ isBadChar c := by
  induction fuel with
  | zero =>
    intro x b hf _
    have : x = [] := by cases x <;> simp_all
    subst this
    rw [renderScanL_nil]
    simp
  | succ fuel ih =>
    intro x b hf hx
    match x with
    | [] =>
      rw [renderScanL_nil]
      simp
    | c :: cs =>
      cases b with
      | false =>
        rw [show renderScanL items (fuel + 1) (c :: cs) false =
            c :: renderScanL items fuel cs (c = '\n') by
          unfold renderScanL
          rw [scanItemBlocks_succ_false]
          rfl]
        intro d hd
        rcases List.mem_cons.mp hd with rfl | hd
        · exact hx d (by simp)
        · exact ih cs _ (by simp at hf; omega)
            (fun e he => hx e (by simp [he])) d hd
      | true =>
        cases htm : tryMatch (c :: cs) with
        | none =>
          rw [show renderScanL items (fuel + 1) (c :: cs) true =
              c :: renderScanL items fuel cs (c = '\n') by
            unfold renderScanL
            rw [scanItemBlocks_succ_none fuel c cs htm]
            rfl]
          intro d hd
          rcases List.mem_cons.mp hd with rfl | hd
          · exact hx d (by simp)
          · exact ih cs _ (by simp at hf; omega)
              (fun e he => hx e (by simp [he])) d hd
        | some m =>
          obtain ⟨hdec, hi, ha, hocc⟩ := tryMatch_some_decomp (c :: cs) m htm
          have hrest := tryMatch_rest_length (c :: cs) m htm
          rw [show renderScanL items (fuel + 1) (c :: cs) true =
              renderSeg items (Seg.block m.indent m.attrs m.inner) ++
                renderScanL items fuel m.rest false by
            unfold renderScanL
            rw [scanItemBlocks_succ_some fuel c cs m htm]
            rfl]
          have hxi : ∀ d ∈ m.indent, ¬ isBadChar d := by
            intro d hd
            exact hx d (by rw [hdec]; simp [hd])
          have hxa : ∀ d ∈ m.attrs, ¬ isBadChar d := by
            intro d hd
            exact hx d (by rw [hdec]; simp [hd])
          have hxinner : ∀ d ∈ m.inner, ¬ isBadChar d := by
            intro d hd
            exact hx d (by rw [hdec]; simp [hd])
          have hxrest : ∀ d ∈ m.rest, ¬ isBadChar d := by
            intro d hd
            exact hx d (by rw [hdec]; simp [hd])
          have hopen : ∀ d ∈ openItem, ¬ isBadChar d := by decide
          have hclosec : ∀ d ∈ closeItem, ¬ isBadChar d := by decide
          intro d hd
          rcases List.mem_append.mp hd with hd | hd
          · rcases replacer_fst_cases items m.indent m.attrs m.inner with
              ⟨hr, _⟩ | ⟨ident, src, hid, hlk, hneq, hr⟩
            · rw [show renderSeg items (Seg.block m.indent m.attrs m.inner) =
                (replacer items m.indent m.attrs m.inner).1 from rfl, hr] at hd
              simp [segSource] at hd
              rcases hd with hd | hd | hd | hd | hd | hd
              · exact hxi d hd
              · exact hopen d hd
              · exact hxa d hd
              · simp [hd, isBadChar]
              · exact hxinner d hd
              · exact hclosec d hd
            · rw [show renderSeg items (Seg.block m.indent m.attrs m.inner) =
                (replacer items m.indent m.attrs m.inner).1 from rfl, hr] at hd
              have hre := reindentL_no_bad src (m.indent ++ ['\t'])
                (fun e he => by
                  rcases List.mem_append.mp he with he | he
                  · exact hxi e he
                  · simp at he
                    simp [he, isBadChar]) d
              simp [linesepL] at hd
              rcases hd with hd | hd | hd | hd | hd | hd | hd | hd <;>
                first
                  | exact hxi d hd
                  | exact hopen d hd
                  | exact hxa d hd
                  | exact hclosec d hd
                  | exact hre hd
                  | (simp [hd, isBadChar]; done)
                  | (rcases hd with hd | hd <;>
                      first
                        | exact hxi d hd
                        | exact hopen d hd
                        | exact hxa d hd
                        | exact hclosec d hd
                        | exact hre hd
                        | (simp [hd, isBadChar]; done))
          · exact ih m.rest false (by simp at hf hrest ⊢; omega) hxrest d hd

theorem replaceCrlfL_id (t : List Char) (h : ∀ c ∈ t, c ≠ '\r') :
    replaceCrlfL t = t := by
  have h2 := replaceCrlf_append_no_cr t [] h
  rw [List.append_nil, show replaceCrlfL [] = [] from rfl, List.append_nil] at h2
  exact h2

theorem crToLfL_id (t : List Char) (h : ∀ c ∈ t, c ≠ '\r') :
    crToLfL t = t := by
  unfold crToLfL
  exact map_id_of_mem _ t (fun a ha => by simp [h a ha])

/-! ### Rendering equations and whitespace-only-line preservation -/

theorem renderScanL_cons_false (items : List (List Char × List Char))
    (c : Char) (cs : List Char) :
    renderScanL items ((c :: cs).length + 1) (c :: cs) false =
      c :: renderScanL items (cs.length + 1) cs (c = '\n') := by
  unfold renderScanL
  rw [show (c :: cs).length + 1 = (cs.length + 1) + 1 by simp,
    scanItemBlocks_succ_false]
  rfl

theorem renderScanL_cons_none (items : List (List Char × List Char))
    (c : Char) (cs : List Char) (htm : tryMatch (c :: cs) = none) :
    renderScanL items ((c :: cs).length + 1) (c :: cs) true =
      c :: renderScanL items (cs.length + 1) cs (c = '\n') := by
  unfold renderScanL
  rw [show (c :: cs).length + 1 = (cs.length + 1) + 1 by simp,
    scanItemBlocks_succ_none _ c cs htm]
  rfl

theorem renderScanL_cons_some (items : List (List Char × List Char))
    (c : Char) (cs : List Char) (m : ItemMatch)
    (htm : tryMatch (c :: cs) = some m) :
    renderScanL items ((c :: cs).length + 1) (c :: cs) true =
      renderSeg items (Seg.block m.indent m.attrs m.inner) ++
        renderScanL items (m.rest.length + 1) m.rest false := by
  have hrest := tryMatch_rest_length (c :: cs) m htm
  unfold renderScanL
  rw [scanItemBlocks_succ_some ((c :: cs).length) c cs m htm,
    scanItemBlocks_fuel (c :: cs).length (m.rest.length + 1) m.rest false
      (by simp at hrest ⊢; omega) (by omega)]
  rfl

theorem goodNl_nil : goodNl [] := by
  intro l hl _
  simp [splitNl, splitNlGo] at hl
  exact hl

theorem goodNl_render (items : List (List Char × List Char)) :
    ∀ (n : Nat) (x : List Char), x.length ≤ n → ∀ (b : Bool) (p : List Char),
    '\n' ∉ p → (b = true → p = []) → goodNl (p ++ x) →
    goodNl (p ++ renderScanL items (x.length + 1) x b) := by
  intro n
  induction n with
  | zero =>
    intro x hf b p hp hbp hgood
    have : x = [] := by cases x <;> simp_all
    subst this
    rw [renderScanL_nil]
    exact hgood
  | succ n ih =>
    intro x hf b p hp hbp hgood
    match x with
    | [] =>
      rw [renderScanL_nil]
      exact hgood
    | c :: cs =>
      have hfcs : cs.length ≤ n := by simp at hf; omega
      cases b with
      | false =>
        rw [renderScanL_cons_false]
        by_cases hc : c = '\n'
        · subst hc
          rw [show ((('\n' : Char) = '\n') : Bool) = true by simp]
          rw [goodNl_append_iff]
          rw [goodNl_append_iff] at hgood
          refine ⟨hgood.1, ?_⟩
          have := ih cs hfcs true [] (by simp) (fun _ => rfl)
            (by simpa using hgood.2)
          simpa using this
        · rw [show (((c : Char) = '\n') : Bool) = false by simp [hc]]
          have hgood2 : goodNl ((p ++ [c]) ++ cs) := by
            rw [show (p ++ [c]) ++ cs = p ++ c :: cs by simp]
            exact hgood
          have := ih cs hfcs false (p ++ [c]) (by
            intro hm
            rcases List.mem_append.mp hm with h1 | h1
            · exact hp h1
            · simp at h1
              exact hc h1.symm) (by simp) hgood2
          rw [show (p ++ [c]) ++ renderScanL items (cs.length + 1) cs false =
            p ++ c :: renderScanL items (cs.length + 1) cs false by simp] at this
          exact this
      | true =>
        have hpnil : p = [] := hbp rfl
        subst hpnil
        cases htm : tryMatch (c :: cs) with
        | none =>
          rw [renderScanL_cons_none items c cs htm]
          by_cases hc : c = '\n'
          · subst hc
            rw [show ((('\n' : Char) = '\n') : Bool) = true by simp]
            rw [show ([] : List Char) ++ '\n' ::
              renderScanL items (cs.length + 1) cs true =
              [] ++ '\n' :: renderScanL items (cs.length + 1) cs true from rfl]
            rw [goodNl_append_iff]
            rw [show ([] : List Char) ++ '\n' :: cs = [] ++ '\n' :: cs
              from rfl] at hgood
            rw [goodNl_append_iff] at hgood
            refine ⟨goodNl_nil, ?_⟩
            have := ih cs hfcs true [] (by simp) (fun _ => rfl)
              (by simpa using hgood.2)
            simpa using this
          · rw [show (((c : Char) = '\n') : Bool) = false by simp [hc]]
            have hgood2 : goodNl (([c]) ++ cs) := by
              simpa using hgood
            have := ih cs hfcs false [c] (by simp [hc]; exact fun h => hc h.symm)
              (by simp) hgood2
            simpa using this
        | some m =>
          obtain ⟨hdec, hi, ha, hocc⟩ := tryMatch_some_decomp (c :: cs) m htm
          rw [renderScanL_cons_some items c cs m htm]
          simp only [List.nil_append] at hgood ⊢
          have hxeq : c :: cs = segSource (Seg.block m.indent m.attrs m.inner)
              ++ m.rest := by
            rw [hdec]
            simp [segSource]
          have hinc : '\n' ∉ m.indent ++ closeItem := by
            intro hm
            rcases List.mem_append.mp hm with h1 | h1
            · have := hi '\n' h1
              simp [isIndentChar] at this
            · revert h1
              decide
          have hTgood : goodNl ((m.indent ++ closeItem) ++ m.rest) := by
            rcases split_first_nl m.rest with hno | ⟨A, B, hAB, hA⟩
            · apply goodNl_of_nonspace_mem _ (by
                intro hm
                rcases List.mem_append.mp hm with h1 | h1
                · exact hinc h1
                · exact hno h1) '>' (by simp [closeItem]) (by simp [pyIsSpace])
            · rw [hAB, show (m.indent ++ closeItem) ++ (A ++ '\n' :: B) =
                ((m.indent ++ closeItem) ++ A) ++ '\n' :: B by simp]
              rw [goodNl_append_iff]
              constructor
              · apply goodNl_of_nonspace_mem _ (by
                  intro hm
                  rcases List.mem_append.mp hm with h1 | h1
                  · exact hinc h1
                  · exact hA h1) '>' (by simp [closeItem]) (by simp [pyIsSpace])
              · have hx2 : goodNl ((m.indent ++ openItem ++ m.attrs ++ '>' ::
                    (m.inner ++ closeItem) ++ A) ++ '\n' :: B) := by
                  rw [show (m.indent ++ openItem ++ m.attrs ++ '>' ::
                    (m.inner ++ closeItem) ++ A) ++ '\n' :: B =
                    m.indent ++ openItem ++ m.attrs ++ '>' ::
                    (m.inner ++ closeItem ++ (A ++ '\n' :: B)) by simp]
                  rw [← hAB, ← hdec]
                  exact hgood
                rw [goodNl_append_iff] at hx2
                exact hx2.2
          rcases replacer_fst_cases items m.indent m.attrs m.inner with
            ⟨hr, _⟩ | ⟨ident, src, hid, hlk, hneq, hr⟩
          · rw [show renderSeg items (Seg.block m.indent m.attrs m.inner) =
              (replacer items m.indent m.attrs m.inner).1 from rfl, hr]
            rcases split_last_nl (segSource (Seg.block m.indent m.attrs m.inner))
              with hRnl | ⟨U, V, hUV, hV⟩
            · have := ih m.rest (by
                have := tryMatch_rest_length (c :: cs) m htm
                simp at hf this ⊢
                omega) false (segSource (Seg.block m.indent m.attrs m.inner))
                hRnl (by simp) (by rw [← hxeq]; exact hgood)
              exact this
            · rw [hUV, show (U ++ '\n' :: V) ++
                renderScanL items (m.rest.length + 1) m.rest false =
                U ++ '\n' :: (V ++ renderScanL items (m.rest.length + 1)
                  m.rest false) by simp]
              rw [goodNl_append_iff]
              have hgood2 : goodNl (U ++ '\n' :: (V ++ m.rest)) := by
                rw [show U ++ '\n' :: (V ++ m.rest) =
                  (U ++ '\n' :: V) ++ m.rest by simp, ← hUV, ← hxeq]
                exact hgood
              rw [goodNl_append_iff] at hgood2
              exact ⟨hgood2.1, ih m.rest (by
                have := tryMatch_rest_length (c :: cs) m htm
                simp at hf this ⊢
                omega) false V hV (by simp) hgood2.2⟩
          · rw [show renderSeg items (Seg.block m.indent m.attrs m.inner) =
              (replacer items m.indent m.attrs m.inner).1 from rfl, hr]
            have hshape : (m.indent ++ openItem ++ m.attrs ++ '>' ::
                (linesepL ++ reindentL src (m.indent ++ ['\t']) ++ linesepL ++
                  m.indent ++ closeItem)) ++
                renderScanL items (m.rest.length + 1) m.rest false =
                (m.indent ++ openItem ++ m.attrs ++ ['>']) ++ '\n' ::
                  (reindentL src (m.indent ++ ['\t']) ++ '\n' ::
                    ((m.indent ++ closeItem) ++
                      renderScanL items (m.rest.length + 1) m.rest false)) := by
              simp [linesepL]
            rw [hshape, goodNl_append_iff, goodNl_append_iff]
            refine ⟨?_, ?_, ?_⟩
            · -- the opening line(s)
              rcases split_last_nl (m.indent ++ openItem ++ m.attrs)
                with hGnl | ⟨U, V', hUV, hV'⟩
              · apply goodNl_of_nonspace_mem _ (by
                  intro hm
                  rcases List.mem_append.mp hm with h1 | h1
                  · exact hGnl h1
                  · simp at h1) '>' (by simp) (by simp [pyIsSpace])
              · rw [hUV, show (U ++ '\n' :: V') ++ ['>'] =
                  U ++ '\n' :: (V' ++ ['>']) by simp, goodNl_append_iff]
                constructor
                · have hx2 : goodNl (U ++ '\n' :: (V' ++ ('>' ::
                      (m.inner ++ closeItem ++ m.rest)))) := by
                    rw [show U ++ '\n' :: (V' ++ ('>' ::
                      (m.inner ++ closeItem ++ m.rest))) =
                      (U ++ '\n' :: V') ++ '>' ::
                        (m.inner ++ closeItem ++ m.rest) by simp, ← hUV]
                    rw [show (m.indent ++ openItem ++ m.attrs) ++ '>' ::
                      (m.inner ++ closeItem ++ m.rest) =
                      m.indent ++ openItem ++ m.attrs ++ '>' ::
                        (m.inner ++ closeItem ++ m.rest) by simp, ← hdec]
                    exact hgood
                  rw [goodNl_append_iff] at hx2
                  exact hx2.1
                · apply goodNl_of_nonspace_mem _ (by
                    intro hm
                    rcases List.mem_append.mp hm with h1 | h1
                    · exact hV' h1
                    · simp at h1) '>' (by simp) (by simp [pyIsSpace])
            · -- the reindented body
              intro l hl hstrip
              apply splitNl_joinNl_blank _ ?_ l hl hstrip
              intro l' hl'
              rcases List.mem_map.mp hl' with ⟨line, hline, hfl⟩
              by_cases hs : pyStrip line = []
              · rw [← hfl, if_neg (by simp [hs])]
                exact ⟨by simp, fun _ => rfl⟩
              · rw [← hfl, if_pos hs]
                constructor
                · intro hm
                  rcases List.mem_append.mp hm with h1 | h1
                  · rcases List.mem_append.mp h1 with h2 | h2
                    · have := hi '\n' h2
                      simp [isIndentChar] at this
                    · simp at h2
                  · have := splGo_line_no_bnd src [] (by simp) line hline '\n' h1
                    simp [isLineBnd] at this
                · intro hstrip2
                  exfalso
                  apply hs
                  rw [pyStrip_eq_nil_iff] at hstrip2 ⊢
                  intro d hd
                  exact hstrip2 d (by simp [hd])
            · exact ih m.rest (by
                have := tryMatch_rest_length (c :: cs) m htm
                simp at hf this ⊢
                omega) false (m.indent ++ closeItem) hinc (by simp) hTgood

/-! ### The render never creates a trailing blank line -/

theorem list_last_two (l : List Char) :
    l = [] ∨ (∃ d, l = [d]) ∨ (∃ v d1 d2, l = v ++ [d1, d2]) := by
  induction l with
  | nil => exact Or.inl rfl
  | cons c cs ih =>
    rcases ih with h | ⟨d, hd⟩ | ⟨v, d1, d2, hv⟩
    · exact Or.inr (Or.inl ⟨c, by rw [h]⟩)
    · exact Or.inr (Or.inr ⟨[], c, d, by rw [hd]; rfl⟩)
    · exact Or.inr (Or.inr ⟨c :: v, d1, d2, by rw [hv]; rfl⟩)

theorem append_two_inj (p q : List Char) (a b c d : Char)
    (h : p ++ [a, b] = q ++ [c, d]) : a = c ∧ b = d := by
  have hl : p.length = q.length := by
    have := congrArg List.length h
    simp at this
    omega
  have h2 := (List.append_inj h hl).2
  simp at h2
  exact h2

theorem renderSeg_block_length (items : List (List Char × List Char))
    (i a inr : List Char) :
    13 ≤ (renderSeg items (Seg.block i a inr)).length := by
  rcases replacer_fst_cases items i a inr with ⟨hr, _⟩ |
    ⟨ident, src, _, _, _, hr⟩ <;>
    rw [show renderSeg items (Seg.block i a inr) =
      (replacer items i a inr).1 from rfl, hr]
  · simp [segSource, openItem, closeItem]
    omega
  · simp [openItem, closeItem, linesepL]
    omega

theorem renderSeg_block_ends (items : List (List Char × List Char))
    (i a inr : List Char) :
    ∃ R, renderSeg items (Seg.block i a inr) = R ++ ['>'] := by
  rcases replacer_fst_cases items i a inr with ⟨hr, _⟩ |
    ⟨ident, src, _, _, _, hr⟩ <;>
    rw [show renderSeg items (Seg.block i a inr) =
      (replacer items i a inr).1 from rfl, hr]
  · exact ⟨i ++ openItem ++ a ++ '>' :: (inr ++ "</Item".toList),
      by simp [segSource, closeItem]⟩
  · exact ⟨i ++ openItem ++ a ++ '>' :: (linesepL ++
      reindentL src (i ++ ['\t']) ++ linesepL ++ i ++ "</Item".toList),
      by simp [closeItem]⟩

theorem scan_eq_nil_imp (fuel : Nat) (x : List Char) (b : Bool)
    (h : scanItemBlocks fuel x b = []) : x = [] := by
  match x with
  | [] => rfl
  | c :: cs => exact absurd h (scan_ne_nil fuel c cs b)

theorem renderScanL_singleton (items : List (List Char × List Char))
    (fuel : Nat) (cs : List Char) (b : Bool) (d : Char)
    (h : renderScanL items fuel cs b = [d]) : cs = [d] := by
  match cs with
  | [] =>
    rw [renderScanL_nil] at h
    exact absurd h (by simp)
  | c :: cs' =>
    unfold renderScanL at h
    cases hs : scanItemBlocks fuel (c :: cs') b with
    | nil => exact absurd hs (scan_ne_nil fuel c cs' b)
    | cons seg segs =>
      rw [hs] at h
      simp only [List.map_cons, List.flatten_cons] at h
      match seg with
      | .block i a inr =>
        exfalso
        have h13 := renderSeg_block_length items i a inr
        have := congrArg List.length h
        simp at this
        omega
      | .raw e =>
        rw [show renderSeg items (Seg.raw e) = [e] from rfl] at h
        simp at h
        obtain ⟨hed, hflat⟩ := h
        have hsegs : segs = [] := by
          cases segs with
          | nil => rfl
          | cons s2 t2 =>
            exfalso
            simp at hflat
            exact renderSeg_ne_nil items s2 hflat.1
        rw [hsegs] at hs
        match fuel with
        | 0 =>
          -- fuel zero scan is the raw map; a singleton forces a singleton
          have : (c :: cs').map Seg.raw = [Seg.raw e] := hs
          simp at this
          rw [hed] at this
          rw [this.1, this.2]
        | f + 1 =>
          cases b with
          | false =>
            rw [scanItemBlocks_succ_false] at hs
            simp at hs
            obtain ⟨hce, hrest⟩ := hs
            have := scan_eq_nil_imp f cs' _ hrest
            rw [this, hce, hed]
          | true =>
            cases htm : tryMatch (c :: cs') with
            | some m =>
              rw [scanItemBlocks_succ_some f c cs' m htm] at hs
              simp at hs
            | none =>
              rw [scanItemBlocks_succ_none f c cs' htm] at hs
              simp at hs
              obtain ⟨hce, hrest⟩ := hs
              have := scan_eq_nil_imp f cs' _ hrest
              rw [this, hce, hed]

theorem render_not_double_nl (items : List (List Char × List Char)) :
    ∀ (n : Nat) (x : List Char), x.length ≤ n → ∀ (b : Bool),
    ¬ (∃ u, x = u ++ ['\n', '\n']) →
    ¬ (∃ u, renderScanL items (x.length + 1) x b = u ++ ['\n', '\n']) := by
  intro n
  induction n with
  | zero =>
    intro x hf b _
    have : x = [] := by cases x <;> simp_all
    subst this
    rw [renderScanL_nil]
    rintro ⟨u, hu⟩
    have := congrArg List.length hu
    simp at this
  | succ n ih =>
    intro x hf b hx
    match x with
    | [] =>
      rw [renderScanL_nil]
      rintro ⟨u, hu⟩
      have := congrArg List.length hu
      simp at this
    | c :: cs =>
      have hcs2 : ¬ (∃ u, cs = u ++ ['\n', '\n']) := by
        rintro ⟨v, hv⟩
        exact hx ⟨c :: v, by rw [hv]; rfl⟩
      have hraw : ∀ (bb : Bool),
          ¬ (∃ u, c :: renderScanL items (cs.length + 1) cs bb =
            u ++ ['\n', '\n']) := by
        intro bb
        rintro ⟨u, hu⟩
        match u with
        | [] =>
          simp at hu
          obtain ⟨hc, ho⟩ := hu
          have := renderScanL_singleton items (cs.length + 1) cs bb '\n' ho
          exact hx ⟨[], by rw [this, hc]; rfl⟩
        | e :: u' =>
          rw [List.cons_append, List.cons.injEq] at hu
          exact ih cs (by simp at hf; omega) bb hcs2 ⟨u', hu.2⟩
      cases b with
      | false =>
        rw [renderScanL_cons_false]
        exact hraw _
      | true =>
        cases htm : tryMatch (c :: cs) with
        | none =>
          rw [renderScanL_cons_none items c cs htm]
          exact hraw _
        | some m =>
          obtain ⟨hdec, hi, ha, hocc⟩ := tryMatch_some_decomp (c :: cs) m htm
          rw [renderScanL_cons_some items c cs m htm]
          obtain ⟨R, hR⟩ := renderSeg_block_ends items m.indent m.attrs m.inner
          have hrest2 : ¬ (∃ u, m.rest = u ++ ['\n', '\n']) := by
            rintro ⟨v, hv⟩
            refine hx ⟨m.indent ++ openItem ++ m.attrs ++ '>' ::
              (m.inner ++ closeItem ++ v), ?_⟩
            rw [hdec, hv]
            simp
          rintro ⟨u, hu⟩
          rw [hR] at hu
          rcases list_last_two (renderScanL items (m.rest.length + 1) m.rest
              false) with ho | ⟨d, hd⟩ | ⟨v, d1, d2, hv⟩
          · rw [ho, List.append_nil] at hu
            have h1 := congrArg List.getLast? hu
            rw [List.getLast?_concat] at h1
            rw [show u ++ ['\n', '\n'] = (u ++ ['\n']) ++ ['\n'] by simp,
              List.getLast?_concat] at h1
            simp at h1
          · rw [hd] at hu
            have h2 := append_two_inj R u '>' d '\n' '\n' (by rw [← hu]; simp)
            exact absurd h2.1 (by decide)
          · rw [hv] at hu
            have h2 := append_two_inj ((R ++ ['>']) ++ v) u d1 d2 '\n' '\n'
              (by rw [← hu]; simp)
            have hlen := tryMatch_rest_length (c :: cs) m htm
            exact ih m.rest (by simp at hf hlen ⊢; omega) false hrest2
              ⟨v, by rw [hv, h2.1, h2.2]⟩

/-! ### Dropping a trailing newline preserves the match structure -/

theorem prefix_snoc (p s : List Char) (hne : p ≠ []) (hnl : '\n' ∉ p)
    (h : p <+: s ++ ['\n']) : p <+: s := by
  by_cases hlen : p.length ≤ s.length
  · exact prefix_of_append_of_le p s ['\n'] h hlen
  · exfalso
    have hle : p.length ≤ s.length + 1 := by
      have := h.length_le
      simpa using this
    have hp : p = s ++ ['\n'] := List.IsPrefix.eq_of_length h (by simp; omega)
    exact hnl (by rw [hp]; simp)

theorem isPrefixOf_snoc (p s : List Char) (hne : p ≠ []) (hnl : '\n' ∉ p) :
    p.isPrefixOf (s ++ ['\n']) = p.isPrefixOf s := by
  by_cases h : p <+: s
  · rw [List.isPrefixOf_iff_prefix.mpr h,
      List.isPrefixOf_iff_prefix.mpr (h.trans (List.prefix_append s _))]
  · have e1 : p.isPrefixOf s = false := by
      cases hb : p.isPrefixOf s
      · rfl
      · exact absurd (List.isPrefixOf_iff_prefix.mp hb) h
    have e2 : p.isPrefixOf (s ++ ['\n']) = false := by
      cases hb : p.isPrefixOf (s ++ ['\n'])
      · rfl
      · exact absurd (prefix_snoc p s hne hnl
          (List.isPrefixOf_iff_prefix.mp hb)) h
    rw [e1, e2]

theorem find?_congr_pats (f g : List Char → Bool) (l : List (List Char))
    (h : ∀ a ∈ l, f a = g a) : l.find? f = l.find? g := by
  induction l with
  | nil => rfl
  | cons a t ih =>
    rw [List.find?_cons, List.find?_cons, h a (by simp)]
    cases hga : g a
    · show t.find? f = t.find? g
      exact ih fun x hx => h x (by simp [hx])
    · rfl

theorem firstMatchAt_snoc (pats : List (List Char)) (s : List Char)
    (hne : ∀ p ∈ pats, p ≠ []) (hnl : ∀ p ∈ pats, '\n' ∉ p) :
    firstMatchAt pats (s ++ ['\n']) = firstMatchAt pats s := by
  unfold firstMatchAt
  apply find?_congr_pats
  intro p hp
  rw [isPrefixOf_snoc p s (hne p hp) (hnl p hp)]

theorem splitAtFirstAny_cons_some (pats : List (List Char)) (c : Char)
    (cs p : List Char) (h : firstMatchAt pats (c :: cs) = some p) :
    splitAtFirstAny pats (c :: cs) = some ([], p, (c :: cs).drop p.length) := by
  simp [splitAtFirstAny, h]

theorem splitAtFirstAny_cons_none (pats : List (List Char)) (c : Char)
    (cs : List Char) (h : firstMatchAt pats (c :: cs) = none) :
    splitAtFirstAny pats (c :: cs) =
      match splitAtFirstAny pats cs with
      | some (pre, p, rest) => some (c :: pre, p, rest)
      | none => none := by
  simp only [splitAtFirstAny, h]

theorem firstMatchAt_singleton_nl (pats : List (List Char))
    (hne : ∀ p ∈ pats, p ≠ []) (hnl : ∀ p ∈ pats, '\n' ∉ p) :
    firstMatchAt pats ['\n'] = none := by
  apply (firstMatchAt_eq_none_iff pats ['\n']).mpr
  intro p hp hpre
  obtain ⟨t, ht⟩ := hpre
  match p, hne p hp with
  | [q], _ =>
    simp at ht
    exact hnl [q] hp (by simp [ht.1])
  | q1 :: q2 :: p', _ =>
    rw [List.cons_append, List.cons_append] at ht
    simp at ht

theorem splitAtFirstAny_snoc (pats : List (List Char))
    (hne : ∀ p ∈ pats, p ≠ []) (hnl : ∀ p ∈ pats, '\n' ∉ p) :
    ∀ (s : List Char),
    splitAtFirstAny pats (s ++ ['\n']) =
      match splitAtFirstAny pats s with
      | some (pre, p, rest) => some (pre, p, rest ++ ['\n'])
      | none => none := by
  intro s
  induction s with
  | nil =>
    rw [List.nil_append]
    rw [splitAtFirstAny_cons_none pats '\n' []
      (firstMatchAt_singleton_nl pats hne hnl)]
    rfl
  | cons c cs ih =>
    rw [List.cons_append]
    cases hfm : firstMatchAt pats (c :: cs) with
    | some p =>
      have hfm2 : firstMatchAt pats (c :: (cs ++ ['\n'])) = some p := by
        rw [show c :: (cs ++ ['\n']) = (c :: cs) ++ ['\n'] from rfl,
          firstMatchAt_snoc pats (c :: cs) hne hnl]
        exact hfm
      rw [splitAtFirstAny_cons_some pats c (cs ++ ['\n']) p hfm2,
        splitAtFirstAny_cons_some pats c cs p hfm]
      have hple : p.length ≤ (c :: cs).length := by
        obtain ⟨hp, hpre⟩ := firstMatchAt_eq_some pats (c :: cs) p hfm
        exact hpre.length_le
      rw [show c :: (cs ++ ['\n']) = (c :: cs) ++ ['\n'] from rfl,
        List.drop_append_of_le_length hple]
    | none =>
      have hfm2 : firstMatchAt pats (c :: (cs ++ ['\n'])) = none := by
        rw [show c :: (cs ++ ['\n']) = (c :: cs) ++ ['\n'] from rfl,
          firstMatchAt_snoc pats (c :: cs) hne hnl]
        exact hfm
      rw [splitAtFirstAny_cons_none pats c (cs ++ ['\n']) hfm2,
        splitAtFirstAny_cons_none pats c cs hfm, ih]
      cases hsp : splitAtFirstAny pats cs with
      | none => rfl
      | some val =>
        obtain ⟨pre, p, rest⟩ := val
        rfl

theorem takeWhile_append_of_dropWhile_ne_nil (p : Char → Bool) :
    ∀ (A B : List Char), A.dropWhile p ≠ [] →
    (A ++ B).takeWhile p = A.takeWhile p := by
  intro A
  induction A with
  | nil =>
    intro B h
    exact absurd rfl h
  | cons a A' ih =>
    intro B h
    by_cases hp : p a
    · rw [List.cons_append, List.takeWhile_cons, if_pos hp,
        List.takeWhile_cons, if_pos hp]
      rw [ih B (by rwa [List.dropWhile_cons, if_pos hp] at h)]
    · rw [List.cons_append, List.takeWhile_cons, if_neg hp,
        List.takeWhile_cons, if_neg hp]

theorem tryMatch_snoc (z : List Char) :
    tryMatch (z ++ ['\n']) =
      match tryMatch z with
      | none => none
      | some m => some ⟨m.indent, m.attrs, m.inner, m.rest ++ ['\n']⟩ := by
  by_cases hne0 : z.dropWhile isIndentChar = []
  · have hall : ∀ c ∈ z, isIndentChar c := dropWhile_eq_nil_all isIndentChar z hne0
    have hdw1 : (z ++ ['\n']).dropWhile isIndentChar = ['\n'] := by
      rw [dropWhile_append_all isIndentChar z ['\n'] hall]
      rfl
    have h1 : tryMatch (z ++ ['\n']) = none := by
      unfold tryMatch
      rw [hdw1, if_neg (by decide)]
    have h2 : tryMatch z = none := by
      unfold tryMatch
      rw [hne0, if_neg (by decide)]
    rw [h1, h2]
  · have hdw1 : (z ++ ['\n']).dropWhile isIndentChar =
        z.dropWhile isIndentChar ++ ['\n'] :=
      dropWhile_append_of_ne_nil isIndentChar z ['\n'] hne0
    have htkz : (z ++ ['\n']).takeWhile isIndentChar = z.takeWhile isIndentChar :=
      takeWhile_append_of_dropWhile_ne_nil isIndentChar z ['\n'] hne0
    cases hpre : openItem.isPrefixOf (z.dropWhile isIndentChar) with
    | false =>
      have h1 : tryMatch (z ++ ['\n']) = none := by
        unfold tryMatch
        rw [hdw1, isPrefixOf_snoc openItem _ (by decide) (by decide), hpre]
        rfl
      have h2 : tryMatch z = none := by
        unfold tryMatch
        rw [hpre]
        rfl
      rw [h1, h2]
    | true =>
      have hple : openItem.length ≤ (z.dropWhile isIndentChar).length :=
        (List.isPrefixOf_iff_prefix.mp hpre).length_le
      have hdrop1 : (z.dropWhile isIndentChar ++ ['\n']).drop openItem.length =
          (z.dropWhile isIndentChar).drop openItem.length ++ ['\n'] :=
        List.drop_append_of_le_length hple
      cases hs2 : ((z.dropWhile isIndentChar).drop openItem.length).dropWhile
          (fun c => !(c = '>')) with
      | nil =>
        have hall2 := dropWhile_eq_nil_all _ _ hs2
        have hscrut1 : ((z.dropWhile isIndentChar).drop openItem.length ++
            ['\n']).dropWhile (fun c => !(c = '>')) = [] := by
          rw [dropWhile_append_all _ _ ['\n'] hall2]
          rfl
        have h1 : tryMatch (z ++ ['\n']) = none := by
          unfold tryMatch
          rw [hdw1, isPrefixOf_snoc openItem _ (by decide) (by decide), hpre,
            if_pos rfl, hdrop1, hscrut1]
        have h2 : tryMatch z = none := by
          unfold tryMatch
          rw [hpre, if_pos rfl, hs2]
        rw [h1, h2]
      | cons g s3 =>
        have hs2ne : ((z.dropWhile isIndentChar).drop openItem.length).dropWhile
            (fun c => !(c = '>')) ≠ [] := by
          rw [hs2]
          simp
        have hscrut1 : ((z.dropWhile isIndentChar).drop openItem.length ++
            ['\n']).dropWhile (fun c => !(c = '>')) = g :: (s3 ++ ['\n']) := by
          rw [dropWhile_append_of_ne_nil _ _ ['\n'] hs2ne, hs2]
          rfl
        have htk2 : ((z.dropWhile isIndentChar).drop openItem.length ++
            ['\n']).takeWhile (fun c => !(c = '>')) =
            ((z.dropWhile isIndentChar).drop openItem.length).takeWhile
              (fun c => !(c = '>')) :=
          takeWhile_append_of_dropWhile_ne_nil _ _ ['\n'] hs2ne
        cases hsp : splitAtFirstAny [closeItem] s3 with
        | none =>
          have hsp1 : splitAtFirstAny [closeItem] (s3 ++ ['\n']) = none := by
            rw [splitAtFirstAny_snoc [closeItem] (by simp [closeItem])
              (by decide) s3, hsp]
          have h1 : tryMatch (z ++ ['\n']) = none := by
            unfold tryMatch
            rw [hdw1, isPrefixOf_snoc openItem _ (by decide) (by decide), hpre,
              if_pos rfl, hdrop1, hscrut1]
            show (match splitAtFirstAny [closeItem] (s3 ++ ['\n']) with
              | none => (none : Option ItemMatch)
              | some (inner, _, rest) =>
                some ⟨(z ++ ['\n']).takeWhile isIndentChar,
                  ((z.dropWhile isIndentChar).drop openItem.length ++
                    ['\n']).takeWhile (fun c => !(c = '>')),
                  inner, rest⟩) = none
            rw [hsp1]
          have h2 : tryMatch z = none := by
            unfold tryMatch
            rw [hpre, if_pos rfl, hs2]
            show (match splitAtFirstAny [closeItem] s3 with
              | none => (none : Option ItemMatch)
              | some (inner, _, rest) =>
                some ⟨z.takeWhile isIndentChar,
                  ((z.dropWhile isIndentChar).drop
                    openItem.length).takeWhile (fun c => !(c = '>')),
                  inner, rest⟩) = none
            rw [hsp]
          rw [h1, h2]
        | some val =>
          obtain ⟨inner, pp, rest⟩ := val
          have hsp1 : splitAtFirstAny [closeItem] (s3 ++ ['\n']) =
              some (inner, pp, rest ++ ['\n']) := by
            rw [splitAtFirstAny_snoc [closeItem] (by simp [closeItem])
              (by decide) s3, hsp]
          have h1 : tryMatch (z ++ ['\n']) =
              some ⟨z.takeWhile isIndentChar,
                ((z.dropWhile isIndentChar).drop openItem.length).takeWhile
                  (fun c => !(c = '>')), inner, rest ++ ['\n']⟩ := by
            unfold tryMatch
            rw [hdw1, isPrefixOf_snoc openItem _ (by decide) (by decide), hpre,
              if_pos rfl, hdrop1, hscrut1]
            show (match splitAtFirstAny [closeItem] (s3 ++ ['\n']) with
              | none => (none : Option ItemMatch)
              | some (inner, _, rest) =>
                some ⟨(z ++ ['\n']).takeWhile isIndentChar,
                  ((z.dropWhile isIndentChar).drop openItem.length ++
                    ['\n']).takeWhile (fun c => !(c = '>')),
                  inner, rest⟩) = _
            rw [hsp1, htkz, htk2]
          have h2 : tryMatch z =
              some ⟨z.takeWhile isIndentChar,
                ((z.dropWhile isIndentChar).drop openItem.length).takeWhile
                  (fun c => !(c = '>')), inner, rest⟩ := by
            unfold tryMatch
            rw [hpre, if_pos rfl, hs2]
            show (match splitAtFirstAny [closeItem] s3 with
              | none => (none : Option ItemMatch)
              | some (inner, _, rest) =>
                some ⟨z.takeWhile isIndentChar,
                  ((z.dropWhile isIndentChar).drop
                    openItem.length).takeWhile (fun c => !(c = '>')),
                  inner, rest⟩) = _
            rw [hsp]
          rw [h1, h2]

theorem scan_snoc_mem (i a inr : List Char) : ∀ (f1 : Nat) (y : List Char)
    (b : Bool) (f2 : Nat), y.length ≤ f1 → y.length + 1 ≤ f2 →
    Seg.block i a inr ∈ scanItemBlocks f1 y b →
    Seg.block i a inr ∈ scanItemBlocks f2 (y ++ ['\n']) b := by
  intro f1
  induction f1 with
  | zero =>
    intro y b f2 hle1 _ hmem
    have : y = [] := by cases y <;> simp_all
    subst this
    rw [scanItemBlocks_nil] at hmem
    simp at hmem
  | succ f1 ih =>
    intro y b f2 hle1 hle2 hmem
    match y with
    | [] =>
      rw [scanItemBlocks_nil] at hmem
      simp at hmem
    | c :: cs =>
      match f2 with
      | 0 => simp at hle2
      | f2 + 1 =>
        cases b with
        | false =>
          rw [scanItemBlocks_succ_false] at hmem
          rw [show (c :: cs) ++ ['\n'] = c :: (cs ++ ['\n']) from rfl,
            scanItemBlocks_succ_false]
          rcases List.mem_cons.mp hmem with h1 | h1
          · exact absurd h1 (by simp)
          · exact List.mem_cons_of_mem _ (ih cs _ f2
              (by simp at hle1; omega) (by simp at hle2 ⊢; omega) h1)
        | true =>
          cases htm : tryMatch (c :: cs) with
          | none =>
            have htm2 : tryMatch (c :: (cs ++ ['\n'])) = none := by
              rw [show c :: (cs ++ ['\n']) = (c :: cs) ++ ['\n'] from rfl,
                tryMatch_snoc, htm]
            rw [scanItemBlocks_succ_none f1 c cs htm] at hmem
            rw [show (c :: cs) ++ ['\n'] = c :: (cs ++ ['\n']) from rfl,
              scanItemBlocks_succ_none f2 c (cs ++ ['\n']) htm2]
            rcases List.mem_cons.mp hmem with h1 | h1
            · exact absurd h1 (by simp)
            · exact List.mem_cons_of_mem _ (ih cs _ f2
                (by simp at hle1; omega) (by simp at hle2 ⊢; omega) h1)
          | some m =>
            have htm2 : tryMatch (c :: (cs ++ ['\n'])) =
                some ⟨m.indent, m.attrs, m.inner, m.rest ++ ['\n']⟩ := by
              rw [show c :: (cs ++ ['\n']) = (c :: cs) ++ ['\n'] from rfl,
                tryMatch_snoc, htm]
            have hrl := tryMatch_rest_length (c :: cs) m htm
            rw [scanItemBlocks_succ_some f1 c cs m htm] at hmem
            rw [show (c :: cs) ++ ['\n'] = c :: (cs ++ ['\n']) from rfl,
              scanItemBlocks_succ_some f2 c (cs ++ ['\n']) _ htm2]
            rcases List.mem_cons.mp hmem with h1 | h1
            · rw [h1]
              exact List.mem_cons_self _ _
            · exact List.mem_cons_of_mem _ (ih m.rest false f2
                (by simp at hle1 hrl ⊢; omega)
                (by simp at hle2 hrl ⊢; omega) h1)

theorem allSkip_snoc (items : List (List Char × List Char)) (y : List Char)
    (h : AllSkip items (y ++ ['\n']) true) : AllSkip items y true := by
  intro i a inr hmem
  apply h i a inr
  exact scan_snoc_mem i a inr (y.length + 1) y true ((y ++ ['\n']).length + 1)
    (by omega) (by simp) hmem

/-! ### splitlines without exotic boundary characters -/

theorem splGo_eq_splitNlGo_no_nl_end (t : List Char) :
    ∀ (cur : List Char), (∀ c ∈ t, ¬ isBadChar c) →
    (t ≠ [] ∨ cur ≠ []) → ¬ (∃ u, t = u ++ ['\n']) →
    splGo cur t = splitNlGo cur t := by
  induction t with
  | nil =>
    intro cur _ hne _
    rcases hne with h | h
    · exact absurd rfl h
    · rw [splGo_nil, if_neg h]
      rfl
  | cons c cs ih =>
    intro cur hbad hne hnl
    by_cases hc : c = '\n'
    · subst hc
      have hcs : cs ≠ [] := by
        intro h0
        exact hnl ⟨[], by simp [h0]⟩
      have hcsnl : ¬ (∃ u, cs = u ++ ['\n']) := by
        rintro ⟨u, hu⟩
        exact hnl ⟨'\n' :: u, by rw [hu]; rfl⟩
      rw [splGo_bnd cur '\n' cs (by decide) (by decide),
        show splitNlGo cur ('\n' :: cs) = cur.reverse :: splitNlGo [] cs by
          simp [splitNlGo]]
      rw [ih [] (fun d hd => hbad d (by simp [hd])) (Or.inl hcs) hcsnl]
    · have hcr : c ≠ '\r' := by
        intro h0
        have := hbad c (by simp)
        simp [h0, isBadChar] at this
      have hb : ¬ isNlBoundary c := by
        have := hbad c (by simp)
        simp [isBadChar] at this
        simp [isNlBoundary, hc, this]
      have hcsnl : ¬ (∃ u, cs = u ++ ['\n']) := by
        rintro ⟨u, hu⟩
        exact hnl ⟨c :: u, by rw [hu]; rfl⟩
      rw [splGo_chr cur c cs hcr hb,
        show splitNlGo cur (c :: cs) = splitNlGo (c :: cur) cs by
          simp [splitNlGo, hc]]
      exact ih (c :: cur) (fun d hd => hbad d (by simp [hd]))
        (Or.inr (by simp)) hcsnl

theorem splitNlGo_eq_splGo_snoc_nl (u : List Char) :
    ∀ (cur : List Char), (∀ c ∈ u, ¬ isBadChar c) →
    splitNlGo cur (u ++ ['\n']) = splGo cur (u ++ ['\n']) ++ [[]] := by
  induction u with
  | nil =>
    intro cur _
    rw [List.nil_append, splGo_bnd cur '\n' [] (by decide) (by decide),
      show splitNlGo cur ['\n'] = cur.reverse :: splitNlGo [] [] by
        simp [splitNlGo]]
    rfl
  | cons c cs ih =>
    intro cur hbad
    by_cases hc : c = '\n'
    · subst hc
      rw [List.cons_append, splGo_bnd cur '\n' (cs ++ ['\n']) (by decide)
        (by decide),
        show splitNlGo cur ('\n' :: (cs ++ ['\n'])) =
          cur.reverse :: splitNlGo [] (cs ++ ['\n']) by simp [splitNlGo]]
      rw [ih [] (fun d hd => hbad d (by simp [hd]))]
      rfl
    · have hcr : c ≠ '\r' := by
        intro h0
        have := hbad c (by simp)
        simp [h0, isBadChar] at this
      have hb : ¬ isNlBoundary c := by
        have := hbad c (by simp)
        simp [isBadChar] at this
        simp [isNlBoundary, hc, this]
      rw [List.cons_append, splGo_chr cur c (cs ++ ['\n']) hcr hb,
        show splitNlGo cur (c :: (cs ++ ['\n'])) =
          splitNlGo (c :: cur) (cs ++ ['\n']) by simp [splitNlGo, hc]]
      exact ih (c :: cur) (fun d hd => hbad d (by simp [hd]))

theorem joinNl_snoc_empty (X : List (List Char)) (hne : X ≠ []) :
    joinNl (X ++ [[]]) = joinNl X ++ ['\n'] := by
  induction X with
  | nil => exact absurd rfl hne
  | cons x t ih =>
    cases t with
    | nil =>
      rw [show ([x] : List (List Char)) ++ [[]] = [x, []] from rfl,
        joinNl_cons_cons]
      rfl
    | cons y t' =>
      have h1 : (x :: y :: t') ++ [[]] = x :: y :: (t' ++ [[]]) := rfl
      rw [h1, joinNl_cons_cons x y (t' ++ [[]]), joinNl_cons_cons x y t']
      rw [show (y :: (t' ++ [[]]) : List (List Char)) = (y :: t') ++ [[]]
        from rfl, ih (by simp)]
      simp

theorem joinNl_pySplitlines_no_nl_end (t : List Char)
    (hbad : ∀ c ∈ t, ¬ isBadChar c) (hnl : ¬ (∃ u, t = u ++ ['\n'])) :
    joinNl (pySplitlines t) = t := by
  match t with
  | [] => rfl
  | c :: cs =>
    unfold pySplitlines
    rw [splGo_eq_splitNlGo_no_nl_end (c :: cs) [] hbad (Or.inl (by simp)) hnl]
    exact joinNl_splitNl (c :: cs)

theorem splGo_snoc_nl_ne_nil (u : List Char) : ∀ (cur : List Char),
    splGo cur (u ++ ['\n']) ≠ [] := by
  induction u with
  | nil =>
    intro cur
    rw [List.nil_append, splGo_bnd cur '\n' [] (by decide) (by decide)]
    simp
  | cons c cs ih =>
    intro cur
    by_cases hcr : c = '\r'
    · subst hcr
      match cs with
      | [] =>
        rw [show ['\r'] ++ ['\n'] = '\r' :: '\n' :: [] from rfl, splGo_crlf]
        simp
      | d :: cs' =>
        by_cases hd : d = '\n'
        · subst hd
          rw [show ('\r' :: '\n' :: cs') ++ ['\n'] =
            '\r' :: '\n' :: (cs' ++ ['\n']) by simp, splGo_crlf]
          simp
        · rw [show ('\r' :: d :: cs') ++ ['\n'] =
            '\r' :: d :: (cs' ++ ['\n']) by simp,
            splGo_cr_cons cur d (cs' ++ ['\n']) hd]
          simp
    · by_cases hb : isNlBoundary c
      · rw [List.cons_append, splGo_bnd cur c (cs ++ ['\n']) hcr hb]
        simp
      · rw [List.cons_append, splGo_chr cur c (cs ++ ['\n']) hcr hb]
        exact ih (c :: cur)

theorem joinNl_pySplitlines_nl_end (u : List Char)
    (hbad : ∀ c ∈ u ++ ['\n'], ¬ isBadChar c) :
    joinNl (pySplitlines (u ++ ['\n'])) ++ ['\n'] = u ++ ['\n'] := by
  have h1 := splitNlGo_eq_splGo_snoc_nl u [] (fun c hc => hbad c (by simp [hc]))
  have h2 : joinNl (splitNlGo [] (u ++ ['\n'])) = u ++ ['\n'] := by
    have := joinNl_splitNlGo (u ++ ['\n']) []
    simpa using this
  rw [h1, joinNl_snoc_empty _ (splGo_snoc_nl_ne_nil u [])] at h2
  exact h2

theorem map_reindent_id (ls : List (List Char))
    (h : ∀ l ∈ ls, pyStrip l = [] → l = []) :
    ls.map (fun line => if pyStrip line ≠ [] then ([] : List Char) ++ line
      else []) = ls := by
  induction ls with
  | nil => rfl
  | cons l t ih =>
    rw [List.map_cons, ih (fun x hx => h x (by simp [hx]))]
    by_cases hl : pyStrip l = []
    · rw [if_neg (by simp [hl]), h l (by simp) hl]
    · rw [if_pos hl]
      simp

/-- pySplitlines lines are splitNl lines when no CR/VT/FF occurs. -/
theorem pySplitlines_subset_splitNl (t : List Char)
    (hbad : ∀ c ∈ t, ¬ isBadChar c) :
    ∀ l ∈ pySplitlines t, l ∈ splitNl t := by
  by_cases hnl : ∃ u, t = u ++ ['\n']
  · obtain ⟨u, hu⟩ := hnl
    subst hu
    intro l hl
    unfold pySplitlines at hl
    unfold splitNl
    rw [splitNlGo_eq_splGo_snoc_nl u [] (fun c hc => hbad c (by simp [hc]))]
    exact List.mem_append.mpr (Or.inl hl)
  · match t with
    | [] =>
      intro l hl
      simp [pySplitlines, splGo] at hl
    | c :: cs =>
      intro l hl
      unfold pySplitlines at hl
      unfold splitNl
      rw [← splGo_eq_splitNlGo_no_nl_end (c :: cs) [] hbad (Or.inl (by simp)) hnl]
      exact hl

/-- reindent with empty indent under clean input: identity, except that one
trailing newline is chopped. -/
theorem reindent_empty_cases (t : List Char)
    (hbad : ∀ c ∈ t, ¬ isBadChar c) (hgood : goodNl t) :
    (¬ (∃ u, t = u ++ ['\n']) ∧ reindentL t [] = t) ∨
    (∃ u, t = u ++ ['\n'] ∧ reindentL t [] = u) := by
  have hmap : (pySplitlines t).map
      (fun line => if pyStrip line ≠ [] then ([] : List Char) ++ line
        else []) = pySplitlines t :=
    map_reindent_id _ (fun l hl => hgood l (pySplitlines_subset_splitNl t hbad l hl))
  by_cases hnl : ∃ u, t = u ++ ['\n']
  · obtain ⟨u, hu⟩ := hnl
    refine Or.inr ⟨u, hu, ?_⟩
    unfold reindentL
    rw [hmap]
    have := joinNl_pySplitlines_nl_end u (by rw [← hu]; exact hbad)
    rw [← hu] at this
    have h2 : joinNl (pySplitlines t) ++ ['\n'] = u ++ ['\n'] := by
      rw [hu] at this ⊢
      exact this
    exact List.append_cancel_right h2
  · refine Or.inl ⟨hnl, ?_⟩
    unfold reindentL
    rw [hmap]
    exact joinNl_pySplitlines_no_nl_end t hbad hnl

/-! ### Claim C4: idempotence -/

/-- A document already in the merge engine's normal form is a fixed point of
`update_tar_file` and reports no change. -/
theorem update_fixed (items : List (List Char × List Char)) (M : List Char)
    (Mskip : AllSkip items M true) (Mbad : ∀ c ∈ M, ¬ isBadChar c)
    (Mgood : goodNl M) (Mnonl : ¬ (∃ v, M = v ++ ['\n'])) :
    update_tar_fileL items M = (M, false) := by
  have Mnocr : ∀ c ∈ M, c ≠ '\r' := fun c hc h0 => Mbad c hc (by
    simp [h0, isBadChar])
  have hsub : itemSubL items M = M := by
    rw [itemSubL_eq_renderScanL]
    exact render_allskip items (M.length + 1) M true (by omega) Mskip
  have hfix : reindentL (crToLfL (replaceCrlfL (itemSubL items M))) [] = M := by
    rw [hsub, replaceCrlfL_id _ Mnocr, crToLfL_id _ Mnocr]
    rcases reindent_empty_cases M Mbad Mgood with ⟨_, hre⟩ | ⟨v, hv, _⟩
    · exact hre
    · exact absurd ⟨v, hv⟩ Mnonl
  show (reindentL (crToLfL (replaceCrlfL (itemSubL items M))) [],
    decide (normWsL M ≠
      normWsL (reindentL (crToLfL (replaceCrlfL (itemSubL items M))) []))) =
    (M, false)
  rw [hfix]
  simp

/-- Under the normal-form provisos, the output of a first merge run is such a
fixed point, so the second run is a no-op. -/
theorem update_idempotentL (items : List (List Char × List Char)) (s : List Char)
    (h1 : ∀ c ∈ s, ¬ isBadChar c) (h2 : goodNl s)
    (h3 : ¬ (∃ u, s = u ++ ['\n', '\n']))
    (h4 : ∀ kv ∈ items, ¬ hasOccur [closeItem] kv.2) :
    update_tar_fileL items (update_tar_fileL items s).1 =
      ((update_tar_fileL items s).1, false) := by
  have tbad : ∀ c ∈ itemSubL items s, ¬ isBadChar c := by
    rw [itemSubL_eq_renderScanL]
    exact renderScanL_no_bad items (s.length + 1) s true (by omega) h1
  have tnocr : ∀ c ∈ itemSubL items s, c ≠ '\r' := fun c hc h0 => tbad c hc (by
    simp [h0, isBadChar])
  have tgood : goodNl (itemSubL items s) := by
    rw [itemSubL_eq_renderScanL]
    have := goodNl_render items s.length s (le_refl _) true [] (by simp)
      (fun _ => rfl) (by simpa using h2)
    simpa using this
  have tskip : AllSkip items (itemSubL items s) true := by
    rw [itemSubL_eq_renderScanL]
    exact allskip_render_scan items h4 s.length s (le_refl _) true
  have tnod : ¬ (∃ u, itemSubL items s = u ++ ['\n', '\n']) := by
    rw [itemSubL_eq_renderScanL]
    exact render_not_double_nl items s.length s (le_refl _) true h3
  have hm1 : (update_tar_fileL items s).1 =
      reindentL (itemSubL items s) [] := by
    show reindentL (crToLfL (replaceCrlfL (itemSubL items s))) [] = _
    rw [replaceCrlfL_id _ tnocr, crToLfL_id _ tnocr]
  rcases reindent_empty_cases (itemSubL items s) tbad tgood with
    ⟨hnle, hre⟩ | ⟨u, hu, hre⟩
  · have hMT : (update_tar_fileL items s).1 = itemSubL items s := by
      rw [hm1, hre]
    rw [hMT]
    exact update_fixed items (itemSubL items s) tskip tbad tgood hnle
  · have hMu : (update_tar_fileL items s).1 = u := by
      rw [hm1, hre]
    rw [hMu]
    have uskip : AllSkip items u true := by
      apply allSkip_snoc items u
      rw [← hu]
      exact tskip
    have ubad : ∀ c ∈ u, ¬ isBadChar c := fun c hc => tbad c (by
      rw [hu]
      exact List.mem_append.mpr (Or.inl hc))
    have ugood : goodNl u := by
      apply goodNl_of_snoc_nl
      rw [← hu]
      exact tgood
    have unonl : ¬ (∃ v, u = v ++ ['\n']) := by
      rintro ⟨v, hv⟩
      exact tnod ⟨v, by rw [hu, hv]; simp⟩
    exact update_fixed items u uskip ubad ugood unonl

/-- C4 counterexample: the merge is not idempotent as stated.  With an empty
catalog, the document "a\n\n" is first rewritten to "a\n", and a second run
on that output produces "a" — not its input; and with the catalog extracted
from a source whose cleaned value retains a literal closing tag, the second
run still reports changed = true. -/
theorem C4_counterexample_not_idempotent :
    ((update_tar_file [] "a\n\n" []).2.1 = "a\n" ∧
     (update_tar_file [] (update_tar_file [] "a\n\n" []).2.1 []).2.1 = "a" ∧
     ¬ ((update_tar_file [] (update_tar_file [] "a\n\n" []).2.1 []).2.1 =
       (update_tar_file [] "a\n\n" []).2.1)) ∧
    (update_tar_file
        (extract_items_from_src
          ["<Item identifier=\"a\">x</It<Fabricate>q</Fabricate>em>y</Item>"])
        ((update_tar_file
          (extract_items_from_src
            ["<Item identifier=\"a\">x</It<Fabricate>q</Fabricate>em>y</Item>"])
          "<Item identifier=\"a\">z</Item>" []).2.1) []).2.2.1 = true := by
  decide

set_option maxHeartbeats 1000000 in
/-- C4 (amended): the merge is idempotent on documents in the engine's own
normal form.  If the target contains no CR, VT or FF, every whitespace-only
line is empty, it does not end with a blank line, and no catalog value
contains the literal closing tag, then running the merge a second time
against the first run's output returns that output unchanged with the
changed flag false. -/
theorem C4_amended_idempotent (src_items : List (String × String))
    (original : String) (used_ids1 used_ids2 : List String)
    (h1 : ∀ c ∈ original.data, ¬ isBadChar c)
    (h2 : goodNl original.data)
    (h3 : ¬ (['\n', '\n'] <:+ original.data))
    (h4 : ∀ kv ∈ src_items,
      splitAtFirstAny [closeItem] kv.2.data = none) :
    (update_tar_file src_items
        (update_tar_file src_items original used_ids1).2.1 used_ids2).2.1 =
      (update_tar_file src_items original used_ids1).2.1 ∧
    (update_tar_file src_items
        (update_tar_file src_items original used_ids1).2.1 used_ids2).2.2.1 =
      false := by
  have h3' : ¬ (∃ u, original.data = u ++ ['\n', '\n']) := by
    rintro ⟨u, hu⟩
    exact h3 ⟨u, hu.symm⟩
  have h4' : ∀ kv ∈ src_items.map (fun p => (p.1.data, p.2.data)),
      ¬ hasOccur [closeItem] kv.2 := by
    intro kv hkv
    obtain ⟨p, hp, hpe⟩ := List.mem_map.mp hkv
    rw [← hpe]
    exact splitAtFirstAny_none_no_occur [closeItem] p.2.data
      (by simp [closeItem]) (h4 p hp)
  have key := update_idempotentL
    (src_items.map fun p => (p.1.data, p.2.data)) original.data
    h1 h2 h3' h4'
  constructor
  · have e : (update_tar_file src_items
        (update_tar_file src_items original used_ids1).2.1 used_ids2).2.1 =
        ⟨(update_tar_fileL (src_items.map fun p => (p.1.data, p.2.data))
          (update_tar_fileL (src_items.map fun p => (p.1.data, p.2.data))
            original.data).1).1⟩ := rfl
    rw [e, key]
    rfl
  · have e : (update_tar_file src_items
        (update_tar_file src_items original used_ids1).2.1 used_ids2).2.2.1 =
        (update_tar_fileL (src_items.map fun p => (p.1.data, p.2.data))
          (update_tar_fileL (src_items.map fun p => (p.1.data, p.2.data))
            original.data).1).2 := rfl
    rw [e, key]

/-- Closed instance of the amended idempotence theorem: a real replacement
happens on the first run, and the second run is a no-op. -/
theorem C4_amended_idempotent_witness :
    (update_tar_file [("a", "v")]
        (update_tar_file [("a", "v")] "<Item identifier=\"a\">v2</Item>"
          []).2.1 []).2.1 =
      (update_tar_file [("a", "v")] "<Item identifier=\"a\">v2</Item>"
        []).2.1 ∧
    (update_tar_file [("a", "v")]
        (update_tar_file [("a", "v")] "<Item identifier=\"a\">v2</Item>"
          []).2.1 []).2.2.1 = false := by
  exact C4_amended_idempotent [("a", "v")] "<Item identifier=\"a\">v2</Item>"
    [] [] (by decide) (by unfold goodNl; decide) (by decide) (by decide)
